import Mathlib

/-!
Verification of the LegalMind AI repository (PDF text extraction and
normalization pipeline, quality assessment, regex field extraction, LLM
response parsing/validation, and document formatting).

Strings are modelled as lists of Unicode scalar values (`Char`), the shallow
embedding of JavaScript strings used throughout: every character the source
manipulates lies in the Basic Multilingual Plane, where UTF-16 code units and
code points coincide.
-/

set_option maxHeartbeats 1000000
set_option maxRecDepth 100000

namespace LegalMind

/-- The JavaScript regular-expression class `\s` (ECMA-262 WhiteSpace ∪
LineTerminator): space, tab, LF, VT, FF, CR, NBSP, Ogham space mark,
en-quad..hair-space, LS, PS, NNBSP, MMSP, ideographic space, BOM. -/
def isWs (c : Char) : Bool :=
  c.toNat = 32 || c.toNat = 9 || c.toNat = 10 || c.toNat = 11 ||
  c.toNat = 12 || c.toNat = 13 || c.toNat = 0xa0 || c.toNat = 0x1680 ||
  (0x2000 ≤ c.toNat && c.toNat ≤ 0x200a) || c.toNat = 0x2028 ||
  c.toNat = 0x2029 || c.toNat = 0x202f || c.toNat = 0x205f ||
  c.toNat = 0x3000 || c.toNat = 0xfeff

/-- The JavaScript class `\d`: the ASCII digits. -/
def isDigit (c : Char) : Bool :=
  48 ≤ c.toNat && c.toNat ≤ 57

/-- The JavaScript class `\w`: ASCII letters, digits and the underscore.
JavaScript `\w` never matches CJK characters. -/
def isAsciiWord (c : Char) : Bool :=
  isDigit c || (65 ≤ c.toNat && c.toNat ≤ 90) ||
  (97 ≤ c.toNat && c.toNat ≤ 122) || c = '_'

/-- The sentence-terminal punctuation class `[。！？]` of the source's
`/([。！？])\s+/g` rule. -/
def isSentEnd (c : Char) : Bool :=
  c = '。' || c = '！' || c = '？'

/-- Model of `String.prototype.replace(/\s+/g, ' ')`: every maximal run of
whitespace becomes a single space.  The Boolean state records whether the
previous character belonged to a whitespace run already emitted. -/
def collapseWsAux : Bool → List Char → List Char
  | _, [] => []
  | prevWs, c :: rest =>
    if isWs c then
      if prevWs then collapseWsAux true rest
      else ' ' :: collapseWsAux true rest
    else c :: collapseWsAux false rest

/-- `rawText.replace(/\s+/g, ' ')`. -/
def collapseWs (l : List Char) : List Char :=
  collapseWsAux false l

/-- Generic model of `replace(/T\s+/g, 'T' + ins)` for a single trigger
character class `T`: after a trigger character, a following whitespace run is
replaced by `ins`.  State `p`: the previous character was a trigger and no
whitespace has been consumed yet; state `d`: we are inside a whitespace run
being discarded (the replacement has been emitted). -/
def wsRunAux (trig : Char → Bool) (ins : List Char) :
    Bool → Bool → List Char → List Char
  | _, _, [] => []
  | p, d, c :: rest =>
    if d && isWs c then wsRunAux trig ins false true rest
    else if p && isWs c then ins ++ wsRunAux trig ins false true rest
    else c :: wsRunAux trig ins (trig c) false rest

/-- `.replace(/([。！？])\s+/g, '$1\n')`. -/
def breakSentences (l : List Char) : List Char :=
  wsRunAux isSentEnd ['\n'] false false l

/-- `.replace(/，\s+/g, '，')`. -/
def fixCommaSpacing (l : List Char) : List Char :=
  wsRunAux (fun c => c = '，') [] false false l

/-- `.replace(/。\s+/g, '。\n')`. -/
def fixPeriodSpacing (l : List Char) : List Char :=
  wsRunAux (fun c => c = '。') ['\n'] false false l

/-- Generic global-replace scanner: at each position, attempt the match `tm`
(which returns the replacement text and the remainder after the matched span);
on success emit the replacement and resume after the span, otherwise copy one
character and retry at the next position — the semantics of a JavaScript
global `replace` whose matcher is deterministic.  Fuel bounds the recursion;
each step consumes at least one character, so fuel = length suffices. -/
def scanGo (tm : List Char → Option (List Char × List Char)) :
    Nat → List Char → List Char
  | 0, l => l
  | _ + 1, [] => []
  | fuel + 1, c :: rest =>
    match tm (c :: rest) with
    | some (rep, rest') => rep ++ scanGo tm fuel rest'
    | none => c :: scanGo tm fuel rest

/-- Run a global-replace scanner over a whole list. -/
def scanRep (tm : List Char → Option (List Char × List Char))
    (l : List Char) : List Char :=
  scanGo tm l.length l

/-- Matcher for `/第\s*(\d+)\s*條/`: at `第`, skip whitespace, read at least
one digit, skip whitespace, require `條`.  (Backtracking is vacuous for this
pattern: `\s*` cannot absorb digits nor `條`, so maximal munch is exact.) -/
def tryArticle : List Char → Option (List Char × List Char)
  | [] => none
  | c :: r =>
    if c = '第' then
      let r1 := r.dropWhile isWs
      let ds := r1.takeWhile isDigit
      if ds.isEmpty then none
      else
        match (r1.dropWhile isDigit).dropWhile isWs with
        | d :: r3 => if d = '條' then some ('第' :: ds ++ ['條'], r3) else none
        | [] => none
    else none

/-- `.replace(/第\s*(\d+)\s*條/g, '第$1條')`. -/
def fixArticleNumbers (l : List Char) : List Char :=
  scanRep tryArticle l

/-- Matcher for `/(\d+)\s*年度\s*(\w+)\s*字第\s*(\d+)\s*號/` (note `\w` is
ASCII-only in JavaScript).  Deterministic maximal munch is again exact. -/
def tryCase (l : List Char) : Option (List Char × List Char) :=
  match l with
  | [] => none
  | c :: _ =>
    if isDigit c then
      let d1 := l.takeWhile isDigit
      match (l.dropWhile isDigit).dropWhile isWs with
      | '年' :: '度' :: r2 =>
        let r3 := r2.dropWhile isWs
        let w := r3.takeWhile isAsciiWord
        if w.isEmpty then none
        else
          match (r3.dropWhile isAsciiWord).dropWhile isWs with
          | '字' :: '第' :: r5 =>
            let r6 := r5.dropWhile isWs
            let d2 := r6.takeWhile isDigit
            if d2.isEmpty then none
            else
              match (r6.dropWhile isDigit).dropWhile isWs with
              | '號' :: r8 =>
                some (d1 ++ ['年', '度'] ++ w ++ ['字', '第'] ++ d2 ++ ['號'], r8)
              | _ => none
          | _ => none
      | _ => none
    else none

/-- `.replace(/(\d+)\s*年度\s*(\w+)\s*字第\s*(\d+)\s*號/g, '$1年度$2字第$3號')`. -/
def fixCaseNumbers (l : List Char) : List Char :=
  scanRep tryCase l

/-- Matcher for the literal-with-digits pattern `/=== 第 \d+ 頁 ===/`. -/
def tryPageMarker (l : List Char) : Option (List Char × List Char) :=
  match l with
  | '=' :: '=' :: '=' :: ' ' :: '第' :: ' ' :: r =>
    let ds := r.takeWhile isDigit
    if ds.isEmpty then none
    else
      match r.dropWhile isDigit with
      | ' ' :: '頁' :: ' ' :: '=' :: '=' :: '=' :: r2 => some ([], r2)
      | _ => none
  | _ => none

/-- `.replace(/=== 第 \d+ 頁 ===/g, '')`. -/
def removePageMarkers (l : List Char) : List Char :=
  scanRep tryPageMarker l

/-- `String.prototype.trim()` (the JavaScript trim set coincides with `\s`). -/
def jsTrim (l : List Char) : List Char :=
  ((l.dropWhile isWs).reverse.dropWhile isWs).reverse

/-- `PDFService.cleanExtractedText` (src/unnamed/part_001, lines 133–150):
the eight replacement steps in source order. -/
def cleanExtractedText (s : String) : String :=
  ⟨jsTrim (fixPeriodSpacing (fixCommaSpacing (fixCaseNumbers
    (removePageMarkers (fixArticleNumbers (breakSentences
      (collapseWs s.data)))))))⟩

/-- The normalization pipeline restricted to the specification's steps 2–7
(the claim's pipeline): whitespace collapse, sentence-boundary line breaks,
citation-token and case-number spacing fixes, ideographic-comma spacing fix,
and trim — i.e. `cleanExtractedText` without the page-marker removal, which
belongs to the spec's step 1. -/
def cleanSteps2to7 (l : List Char) : List Char :=
  jsTrim (fixPeriodSpacing (fixCommaSpacing (fixCaseNumbers
    (fixArticleNumbers (breakSentences (collapseWs l))))))

/-! ## Document Loader: `PDFService.validateFile` / `extractTextFromPDF`
(src/unnamed/part_001, lines 29–128). -/

/-- An uploaded file as the loader sees it: declared media type, byte size,
display name (the binary content itself is consumed only by the external
pdf.js decoder, modelled as the `pages` argument below). -/
structure UploadedFile where
  typ : String
  size : Nat
  name : String

/-- `PDFService.MAX_FILE_SIZE = 10 * 1024 * 1024`. -/
def MAX_FILE_SIZE : Nat := 10 * 1024 * 1024

/-- `PDFService.SUPPORTED_TYPES = ['application/pdf']`. -/
def SUPPORTED_TYPES : List String := ["application/pdf"]

/-- `PDFService.validateFile`: returns the error message of the first failing
check (`none` = valid), in source order: media type, size ceiling, empty. -/
def validateFile (file : UploadedFile) : Option String :=
  if ¬ SUPPORTED_TYPES.contains file.typ then some "請上傳 PDF 格式的檔案"
  else if file.size > MAX_FILE_SIZE then some "檔案大小不能超過 10MB"
  else if file.size = 0 then some "檔案內容為空"
  else none

/-- One page's text as built from pdf.js text items:
`items.filter(i => i.str && i.str.trim()).map(i => i.str.trim()).join(' ')`. -/
def pageTextOfItems (items : List String) : List Char :=
  List.intercalate [' ']
    ((items.filter (fun s => ¬ (jsTrim s.data).isEmpty)).map
      (fun s => jsTrim s.data))

/-- The page loop of `extractTextFromPDF`: pages are numbered from 1; a page
whose decode threw (`none`) is skipped; a page with whitespace-only text
contributes nothing; otherwise `"\n=== 第 i 頁 ===\n" + pageText + "\n"` is
appended. -/
def buildFullTextAux : Nat → List (Option (List String)) → List Char
  | _, [] => []
  | i, page :: rest =>
    (match page with
     | none => []
     | some items =>
       let pt := pageTextOfItems items
       if (jsTrim pt).isEmpty then []
       else '\n' :: ('=' :: '=' :: '=' :: ' ' :: '第' :: ' ' :: [])
         ++ (Nat.repr i).data ++ (' ' :: '頁' :: ' ' :: '=' :: '=' :: '=' :: '\n' :: [])
         ++ pt ++ ['\n'])
    ++ buildFullTextAux (i + 1) rest

/-- `fullText` accumulated over all pages. -/
def buildFullText (pages : List (Option (List String))) : List Char :=
  buildFullTextAux 1 pages

/-- `PDFService.extractTextFromPDF`, with the external pdf.js decode result
supplied as `pages` (per page: `none` if that page's decode threw, else its
text items).  Validation runs before the binary is read or decoded; the
cleaned text must be non-empty or the `NoExtractableText`-style error is
raised. -/
def extractTextFromPDF (file : UploadedFile)
    (pages : List (Option (List String))) : Except String (String × Nat) :=
  match validateFile file with
  | some e => .error e
  | none =>
    let cleaned := cleanExtractedText ⟨buildFullText pages⟩
    if (jsTrim cleaned.data).isEmpty then
      .error "PDF 檔案中未找到可擷取的文字內容。請確認檔案包含文字而非僅為掃描圖片。"
    else
      .ok (cleaned, pages.length)

/-! ## Quality Assessor: `PDFService.assessTextQuality`
(src/unnamed/part_001, lines 203–240). -/

/-- CJK unified ideographs range `一`–`龥` of the source's noise
regular expression. -/
def isCjk (c : Char) : Bool :=
  0x4e00 ≤ c.toNat && c.toNat ≤ 0x9fa5

/-- The CJK punctuation whitelist `，。！？；：「」` of the noise class. -/
def isCnPunct (c : Char) : Bool :=
  c = '，' || c = '。' || c = '！' || c = '？' || c = '；' || c = '：' ||
  c = '「' || c = '」'

/-- A character counted by `/[^一-龥\w\s，。！？；：「」]/g`. -/
def isNoise (c : Char) : Bool :=
  ¬ (isCjk c || isAsciiWord c || isWs c || isCnPunct c)

/-- `String.prototype.split(/\s+/)`, JavaScript semantics: separators are
maximal whitespace runs; a leading or trailing run contributes an empty
element, and the empty string yields `[""]`.  The flag records whether the
previous character was part of a whitespace run. -/
def jsSplitWsAux : Bool → List Char → List Char → List (List Char)
  | _, acc, [] => [acc.reverse]
  | inRun, acc, c :: rest =>
    if isWs c then
      if inRun then jsSplitWsAux true [] rest
      else acc.reverse :: jsSplitWsAux true [] rest
    else jsSplitWsAux false (c :: acc) rest

/-- `s.split(/\s+/)`. -/
def jsSplitWs (l : List Char) : List (List Char) :=
  jsSplitWsAux false [] l

/-- `text.trim().split(/\s+/).length` — the word count of the assessor. -/
def jsWordCount (l : List Char) : Nat :=
  (jsSplitWs (jsTrim l)).length

/-- Is `sub` a prefix of `l`? -/
def isPrefixList : List Char → List Char → Bool
  | [], _ => true
  | _ :: _, [] => false
  | a :: as, b :: bs => a = b && isPrefixList as bs

/-- `String.prototype.includes(sub)`: substring containment. -/
def containsSub (sub : List Char) : List Char → Bool
  | [] => isPrefixList sub []
  | c :: rest => isPrefixList sub (c :: rest) || containsSub sub rest

/-- The fixed legal-keyword set `['判決','原告','被告','法院','案件','事實','理由']`. -/
def legalKeywords : List String :=
  ["判決", "原告", "被告", "法院", "案件", "事實", "理由"]

/-- `legalKeywords.filter(k => text.includes(k)).length`. -/
def foundKeywordCount (l : List Char) : Nat :=
  (legalKeywords.filter (fun k => containsSub k.data l)).length

/-- `(text.match(noiseRegex) || []).length`. -/
def noiseCount (l : List Char) : Nat :=
  (l.filter isNoise).length

/-- The three issue strings pushed by `assessTextQuality`, in push order. -/
def shortTextIssue : String := "文字內容過少，可能為掃描檔案"

/-- Issue pushed when fewer than 3 legal keywords occur. -/
def keywordIssue : String := "未找到足夠的法律文件關鍵字"

/-- Issue pushed when the noise ratio exceeds 0.3. -/
def noiseIssue : String := "可能包含大量無法識別的字符"

/-- The quality classification enum. -/
inductive Quality where
  | high
  | medium
  | low
deriving DecidableEq, Repr

/-- The assessor's report. -/
structure QualityReport where
  quality : Quality
  issues : List String
  wordCount : Nat
deriving DecidableEq, Repr

/-- `PDFService.assessTextQuality`.  The noise comparison
`count / length > 0.3` is modelled exactly as the rational inequality
`10 * count > 3 * length`; for the empty string the source computes
`NaN > 0.3 = false`, which the model also yields (`0 > 0`).  (IEEE double
rounding cannot flip this comparison for any string an engine can represent:
the gap `1/(10·length)` exceeds the rounding error by many orders of
magnitude.) -/
def assessTextQuality (s : String) : QualityReport :=
  let t := s.data
  let wordCount := jsWordCount t
  let issues : List String :=
    (if wordCount < 100 then [shortTextIssue] else [])
    ++ (if foundKeywordCount t < 3 then [keywordIssue] else [])
    ++ (if noiseCount t * 10 > t.length * 3 then [noiseIssue] else [])
  let quality : Quality :=
    if issues.length = 0 ∧ wordCount > 500 then .high
    else if issues.length ≤ 1 ∧ wordCount > 200 then .medium
    else .low
  ⟨quality, issues, wordCount⟩

/-! ## Document Drafter: `GeminiService.formatLegalDocument` /
`generateDocument` (src/src/services/geminiService.ts, lines 23–27, 90–127,
249–270). -/

/-- Matcher for `/\n{3,}/` (greedy: the whole newline run). -/
def tryBlankLines (l : List Char) : Option (List Char × List Char) :=
  match l with
  | '\n' :: '\n' :: '\n' :: _ =>
    some (['\n', '\n'], l.dropWhile (fun c => c = '\n'))
  | _ => none

/-- `.replace(/\n{3,}/g, '\n\n')`. -/
def collapseBlankLines (l : List Char) : List Char :=
  scanRep tryBlankLines l

/-- `GeminiService.formatLegalDocument(content, documentType)`: trim; prepend
the document-type label when absent; normalize comma spacing, period
spacing, blank-line runs and article citations; trim. -/
def formatLegalDocument (content : String) (documentType : String) : String :=
  let f0 := jsTrim content.data
  let f1 := if containsSub documentType.data f0 then f0
            else documentType.data ++ '\n' :: '\n' :: f0
  ⟨jsTrim (fixArticleNumbers (collapseBlankLines
    (fixPeriodSpacing (fixCommaSpacing f1))))⟩

/-- The closed filing-type union
`'民事上訴狀' | '刑事上訴狀' | '答辯狀' | '起訴狀'` of
`DocumentGenerationRequest.documentType`: a TypeScript caller cannot form a
request with any other value — it is rejected statically, before any runtime
action. -/
inductive DocumentType where
  | civilAppeal
  | criminalAppeal
  | defenseBrief
  | complaint
deriving DecidableEq, Repr

/-- The string carried by each filing-type tag. -/
def documentTypeLabel : DocumentType → String
  | .civilAppeal => "民事上訴狀"
  | .criminalAppeal => "刑事上訴狀"
  | .defenseBrief => "答辯狀"
  | .complaint => "起訴狀"

/-- The nested parties object of the `JudgmentAnalysis` interface. -/
structure Parties where
  plaintiff : String
  defendant : String
deriving DecidableEq, Repr

/-- The nested `caseInfo` object of the `JudgmentAnalysis` interface. -/
structure CaseInfo where
  caseNumber : String
  court : String
  parties : Parties
deriving DecidableEq, Repr

/-- The `JudgmentAnalysis` interface (src/src/services/geminiService.ts,
lines 6–21). -/
structure JudgmentAnalysis where
  summary : String
  caseInfo : CaseInfo
  favorablePoints : List String
  unfavorablePoints : List String
  legalGrounds : List String
  appealableIssues : List String
  recommendedStrategy : String
deriving DecidableEq, Repr

/-- The `DocumentGenerationRequest` interface (lines 23–27). -/
structure DocumentGenerationRequest where
  documentType : DocumentType
  analysis : JudgmentAnalysis
  customInstructions : Option String
deriving DecidableEq, Repr

/-- `GeminiService.generateDocument`, from the point the LLM boundary has
returned `reply`: the reply is handed to `formatLegalDocument` unchanged —
there is no JSON parsing and no emptiness check on this path. -/
def generateDocument (request : DocumentGenerationRequest)
    (reply : String) : String :=
  formatLegalDocument reply (documentTypeLabel request.documentType)

/-! ## Field Extractor: `PDFService.extractBasicInfo`
(src/unnamed/part_001, lines 155–198) and the `App.tsx` fallback
(src/src/App.tsx, lines 156–176). -/

/-- `text.match(pattern)` for a matcher that attempts a match at one
position: return the first success, scanning left to right. -/
def findFirst {α : Type} (tm : List Char → Option α) : List Char → Option α
  | [] => none
  | c :: rest =>
    match tm (c :: rest) with
    | some x => some x
    | none => findFirst tm rest

/-- Matcher for `/(\d+年度\w+字第\d+號)/` — no whitespace gaps; `\w` is
ASCII-only, so a Chinese case-type word never matches. -/
def tryTightCase (l : List Char) : Option (List Char) :=
  match l with
  | [] => none
  | c :: _ =>
    if isDigit c then
      let d1 := l.takeWhile isDigit
      match l.dropWhile isDigit with
      | '年' :: '度' :: r2 =>
        let w := r2.takeWhile isAsciiWord
        if w.isEmpty then none
        else
          match r2.dropWhile isAsciiWord with
          | '字' :: '第' :: r5 =>
            let d2 := r5.takeWhile isDigit
            if d2.isEmpty then none
            else
              match r5.dropWhile isDigit with
              | '號' :: _ =>
                some (d1 ++ ['年', '度'] ++ w ++ ['字', '第'] ++ d2 ++ ['號'])
              | _ => none
          | _ => none
      | _ => none
    else none

/-- Matcher for `/臺灣(\w+)地方法院/` (again ASCII-only `\w`). -/
def tryDistrictCourt (l : List Char) : Option (List Char) :=
  match l with
  | '臺' :: '灣' :: r =>
    let w := r.takeWhile isAsciiWord
    if w.isEmpty then none
    else
      match r.dropWhile isAsciiWord with
      | '地' :: '方' :: '法' :: '院' :: _ =>
        some ('臺' :: '灣' :: w ++ ['地', '方', '法', '院'])
      | _ => none
  | _ => none

/-- Matcher for `/臺灣高等法院(\w+分院)?/`: the optional branch group is
taken greedily when `\w+分院` follows. -/
def tryHighCourt (l : List Char) : Option (List Char) :=
  match l with
  | '臺' :: '灣' :: '高' :: '等' :: '法' :: '院' :: r =>
    let base := ['臺', '灣', '高', '等', '法', '院']
    let w := r.takeWhile isAsciiWord
    if w.isEmpty then some base
    else
      match r.dropWhile isAsciiWord with
      | '分' :: '院' :: _ => some (base ++ w ++ ['分', '院'])
      | _ => some base
  | _ => none

/-- Matcher for a literal pattern: succeeds (returning the literal) when the
literal starts here. -/
def tryLiteral (lit : List Char) (l : List Char) : Option (List Char) :=
  if isPrefixList lit l then some lit else none

/-- The court patterns of `PDFService.extractBasicInfo`, in priority order;
the first pattern that matches anywhere in the text wins, and `match[0]` is
recorded. -/
def pdfCourtSearch (l : List Char) : Option (List Char) :=
  match findFirst tryDistrictCourt l with
  | some m => some m
  | none =>
    match findFirst tryHighCourt l with
    | some m => some m
    | none =>
      match findFirst (tryLiteral "最高法院".data) l with
      | some m => some m
      | none =>
        match findFirst (tryLiteral "最高行政法院".data) l with
        | some m => some m
        | none => findFirst (tryLiteral "智慧財產法院".data) l

/-- The lazy group `(.+?)` (each consumed character is `.`, hence not a
newline) followed by a lookahead on `stop`: the shortest non-empty
newline-free prefix whose following character satisfies `stop`. -/
def lazyDotGo (stop : Char → Bool) : List Char → List Char → Option (List Char)
  | acc, d :: r => if stop d then some acc.reverse
                   else if d = '\n' then none
                   else lazyDotGo stop (d :: acc) (r)
  | _, [] => none

/-- `(.+?)(?=stop)`: consume one character (a non-newline), then extend
lazily until the lookahead holds. -/
def lazyDotPlus (stop : Char → Bool) (l : List Char) : Option (List Char) :=
  match l with
  | [] => none
  | c :: rest => if c = '\n' then none else lazyDotGo stop [c] rest

/-- Matcher for `/原\s*告[：:](.+?)(?=被|上)/`, returning the trimmed group. -/
def tryPlaintiff (l : List Char) : Option (List Char) :=
  match l with
  | '原' :: r =>
    match r.dropWhile isWs with
    | '告' :: sep :: r2 =>
      if sep = '：' ∨ sep = ':' then
        (lazyDotPlus (fun c => c = '被' ∨ c = '上') r2).map jsTrim
      else none
    | _ => none
  | _ => none

/-- Matcher for `/被\s*告[：:](.+?)(?=\n|。)/`, returning the trimmed group. -/
def tryDefendant (l : List Char) : Option (List Char) :=
  match l with
  | '被' :: r =>
    match r.dropWhile isWs with
    | '告' :: sep :: r2 =>
      if sep = '：' ∨ sep = ':' then
        (lazyDotPlus (fun c => c = '\n' ∨ c = '。') r2).map jsTrim
      else none
    | _ => none
  | _ => none

/-- The `PDFAnalysisData` interface (src/unnamed/part_001, lines 21–27): all
pattern fields are optional and set only when their pattern matched. -/
structure PDFAnalysisData where
  caseNumber : Option String
  court : Option String
  plaintiff : Option String
  defendant : Option String
  rawText : String
deriving DecidableEq, Repr

/-- `PDFService.extractBasicInfo`: total best-effort extraction; an unmatched
field stays `none` (JavaScript: the property is never assigned, i.e. it is
left `undefined`). -/
def pdfExtractBasicInfo (text : String) : PDFAnalysisData :=
  { caseNumber := (findFirst tryTightCase text.data).map (⟨·⟩)
    court := (pdfCourtSearch text.data).map (⟨·⟩)
    plaintiff := (findFirst tryPlaintiff text.data).map (⟨·⟩)
    defendant := (findFirst tryDefendant text.data).map (⟨·⟩)
    rawText := text }

/-- The alternation `/(臺灣\w+地方法院|臺灣高等法院|最高法院)/` of the
`App.tsx` fallback: at each position the alternatives are tried in order. -/
def tryAppCourt (l : List Char) : Option (List Char) :=
  match tryDistrictCourt l with
  | some m => some m
  | none =>
    match tryLiteral "臺灣高等法院".data l with
    | some m => some m
    | none => tryLiteral "最高法院".data l

/-- The `App.tsx` fallback `extractBasicInfo` (lines 156–176): always returns
a fully populated analysis object, with explicit not-found sentinels for the
two pattern fields and fixed placeholder strings everywhere else. -/
def appExtractBasicInfo (text : String) : JudgmentAnalysis :=
  { summary := "已完成 PDF 文字擷取，請手動檢視內容進行分析"
    caseInfo :=
      { caseNumber := ((findFirst tryTightCase text.data).map (⟨·⟩)).getD "未找到案號"
        court := ((findFirst tryAppCourt text.data).map (⟨·⟩)).getD "未找到法院"
        parties :=
          { plaintiff := "請從判決書中確認"
            defendant := "請從判決書中確認" } }
    favorablePoints := ["請手動分析判決內容"]
    unfavorablePoints := ["請手動分析判決內容"]
    legalGrounds := ["請查閱判決書相關法條"]
    appealableIssues := ["請諮詢專業律師"]
    recommendedStrategy := "建議詳細閱讀判決書全文並諮詢法律專業人士" }

/-! ## Analysis Requestor: `GeminiService.parseJudgmentAnalysis` /
`validateAnalysisResult` (src/src/services/geminiService.ts, lines 178–244). -/

/-- JSON values as produced by `JSON.parse`.  Numbers keep their token
structure (sign, integer digits, fraction digits, exponent) — enough to
decide JavaScript truthiness exactly.  Object member lists keep every pair;
lookup takes the last occurrence, the `JSON.parse` duplicate-key rule. -/
inductive JsonValue where
  | null
  | bool (b : Bool)
  | num (neg : Bool) (intDs : List Char) (fracDs : List Char)
      (expPart : Option (Bool × List Char))
  | str (s : List Char)
  | arr (elems : List JsonValue)
  | obj (fields : List (List Char × JsonValue))
deriving Repr

/-- JavaScript `typeof` on a parsed JSON value (`typeof null` is
`"object"`, and so is `typeof` of any array). -/
def jsTypeof : JsonValue → String
  | .null => "object"
  | .bool _ => "boolean"
  | .num _ _ _ _ => "number"
  | .str _ => "string"
  | .arr _ => "object"
  | .obj _ => "object"

/-- JavaScript truthiness of a parsed JSON value: `null`, `false`, `""` and
numeric zero are falsy. -/
def jsTruthy : JsonValue → Bool
  | .null => false
  | .bool b => b
  | .num _ ids fds _ => ¬ (ids ++ fds).all (fun c => c = '0')
  | .str s => ¬ s.isEmpty
  | .arr _ => true
  | .obj _ => true

/-- Truthiness of a possibly-`undefined` value (`undefined` is falsy). -/
def truthyOpt : Option JsonValue → Bool
  | none => false
  | some v => jsTruthy v

/-- Object member lookup, last occurrence winning. -/
def objGet (fs : List (List Char × JsonValue)) (k : List Char) :
    Option JsonValue :=
  ((fs.filter (fun p => p.1 == k)).getLast?).map (fun p => p.2)

/-- A failure of `validateAnalysisResult`: either one of its own
`throw new Error(message)` statements, or a raw `TypeError` escaping from a
property access on `null`/`undefined`. -/
inductive ValidateErr where
  | typed (msg : String)
  | jsTypeError
deriving DecidableEq, Repr

/-- Property access `v[k]`: throws `TypeError` on `null`; yields the member
(or `undefined`) on an object; yields `undefined` on arrays and boxed
primitives for the (non-index) schema member names used here. -/
def jsAccess (v : JsonValue) (k : List Char) :
    Except ValidateErr (Option JsonValue) :=
  match v with
  | .null => .error .jsTypeError
  | .obj fs => .ok (objGet fs k)
  | _ => .ok none

/-- The `requiredFields` table of `validateAnalysisResult`, in the source's
insertion order (the order `Object.entries` iterates). -/
def requiredFields : List (String × String) :=
  [("summary", "string"), ("caseInfo", "object"),
   ("favorablePoints", "array"), ("unfavorablePoints", "array"),
   ("legalGrounds", "array"), ("appealableIssues", "array"),
   ("recommendedStrategy", "string")]

/-- The list-typed required fields, in schema order. -/
def listFields : List String :=
  ["favorablePoints", "unfavorablePoints", "legalGrounds", "appealableIssues"]

/-- One iteration of the `for (const [field, type] of ...)` loop:
presence (`field in result`), then the shape check for `type`.  On an array
`result` the `in` test is false for these names; on a primitive or `null`
the `in` operator itself throws `TypeError`. -/
def checkField (result : JsonValue) (field : String) (typ : String) :
    Except ValidateErr Unit :=
  match result with
  | .obj fs =>
    if ¬ fs.any (fun p => p.1 == field.data) then
      .error (.typed ("分析結果缺少必要字段: " ++ field))
    else
      let x := objGet fs field.data
      if typ = "array" then
        match x with
        | some (.arr l) =>
          if l.isEmpty then
            .error (.typed ("字段 " ++ field ++ " 必須是非空陣列"))
          else .ok ()
        | _ => .error (.typed ("字段 " ++ field ++ " 必須是非空陣列"))
      else if typ = "string" then
        match x with
        | some (.str _) => .ok ()
        | _ => .error (.typed ("字段 " ++ field ++ " 必須是字符串"))
      else if typ = "object" then
        match x with
        | some v =>
          if jsTypeof v = "object" then .ok ()
          else .error (.typed ("字段 " ++ field ++ " 必須是物件"))
        | none => .error (.typed ("字段 " ++ field ++ " 必須是物件"))
      else .ok ()
  | .arr _ => .error (.typed ("分析結果缺少必要字段: " ++ field))
  | _ => .error .jsTypeError

/-- The field loop, failing fast at the first violation. -/
def checkFields (result : JsonValue) :
    List (String × String) → Except ValidateErr Unit
  | [] => .ok ()
  | (f, t) :: rest =>
    match checkField result f t with
    | .error e => .error e
    | .ok _ => checkFields result rest

/-- The `caseInfo` sub-object checks (lines 236–243): truthiness of
`caseNumber`, `court`, `parties`, then of `parties.plaintiff` and
`parties.defendant`, with property accesses in source order — an access on a
`null` `caseInfo` raises a raw `TypeError`. -/
def checkCaseInfo (result : JsonValue) : Except ValidateErr Unit :=
  match result with
  | .obj fs =>
    match objGet fs "caseInfo".data with
    | none => .error .jsTypeError
    | some ci =>
      match jsAccess ci "caseNumber".data with
      | .error e => .error e
      | .ok cn =>
        if ¬ truthyOpt cn then .error (.typed "案件資訊不完整")
        else
          match jsAccess ci "court".data with
          | .error e => .error e
          | .ok ct =>
            if ¬ truthyOpt ct then .error (.typed "案件資訊不完整")
            else
              match jsAccess ci "parties".data with
              | .error e => .error e
              | .ok pa =>
                if ¬ truthyOpt pa then .error (.typed "案件資訊不完整")
                else
                  match pa with
                  | some pv =>
                    match jsAccess pv "plaintiff".data with
                    | .error e => .error e
                    | .ok pl =>
                      if ¬ truthyOpt pl then
                        .error (.typed "當事人資訊不完整")
                      else
                        match jsAccess pv "defendant".data with
                        | .error e => .error e
                        | .ok df =>
                          if ¬ truthyOpt df then
                            .error (.typed "當事人資訊不完整")
                          else .ok ()
                  | none => .error .jsTypeError
  | _ => .error .jsTypeError

/-- `GeminiService.validateAnalysisResult`. -/
def validateAnalysisResult (result : JsonValue) : Except ValidateErr Unit :=
  match checkFields result requiredFields with
  | .error e => .error e
  | .ok _ => checkCaseInfo result

/-- Does `checkField` reject this field? -/
def fieldViolates (r : JsonValue) (f t : String) : Bool :=
  match checkField r f t with
  | .ok _ => false
  | .error _ => true

/-- The first field of the schema the loop rejects, if any. -/
def firstOffendingField (r : JsonValue) : Option String :=
  ((requiredFields.find? (fun p => fieldViolates r p.1 p.2)).map (fun p => p.1))

/-- `responseText.match(/\{[\s\S]*\}/)`: the span from the first `\x7b` to
the last `\x7d`, when the latter lies after the former. -/
def extractJsonSpan (l : List Char) : Option (List Char) :=
  let tailFrom := l.dropWhile (fun c => c != '\x7b')
  match tailFrom with
  | [] => none
  | _ :: _ =>
    let afterLast := (tailFrom.reverse.takeWhile (fun c => c != '\x7d')).length
    if afterLast = tailFrom.length then none
    else some (tailFrom.take (tailFrom.length - afterLast))

/-- JSON whitespace (`space`, `tab`, `LF`, `CR` — the only four). -/
def skipWsJson (l : List Char) : List Char :=
  l.dropWhile (fun c => c = ' ' || c = '\t' || c = '\n' || c = '\r')

/-- Hexadecimal digit value. -/
def hexVal (c : Char) : Option Nat :=
  if isDigit c then some (c.toNat - 48)
  else if 97 ≤ c.toNat ∧ c.toNat ≤ 102 then some (c.toNat - 87)
  else if 65 ≤ c.toNat ∧ c.toNat ≤ 70 then some (c.toNat - 55)
  else none

/-- The body of a JSON string after the opening quote, decoded to UTF-16
code units: literal characters (no controls, no `"`, no `\`), the short
escapes, and `\uXXXX` (kept as a raw unit — surrogates included). -/
def stringBodyUnits : List Char → Option (List Nat × List Char)
  | [] => none
  | '"' :: r => some ([], r)
  | '\\' :: 'u' :: h1 :: h2 :: h3 :: h4 :: r =>
    match hexVal h1, hexVal h2, hexVal h3, hexVal h4 with
    | some a, some b, some c, some d =>
      (stringBodyUnits r).map (fun p =>
        ((((a * 16 + b) * 16 + c) * 16 + d) :: p.1, p.2))
    | _, _, _, _ => none
  | '\\' :: e :: r =>
    let short : Option Nat :=
      if e = '"' then some 34
      else if e = '\\' then some 92
      else if e = '/' then some 47
      else if e = 'b' then some 8
      else if e = 'f' then some 12
      else if e = 'n' then some 10
      else if e = 'r' then some 13
      else if e = 't' then some 9
      else none
    match short with
    | some u => (stringBodyUnits r).map (fun p => (u :: p.1, p.2))
    | none => none
  | c :: r =>
    if c.toNat < 0x20 then none
    else (stringBodyUnits r).map (fun p => (c.toNat :: p.1, p.2))

/-- One UTF-16 code unit as a scalar value; a lone surrogate — which is not
a Unicode scalar value — is mapped to U+FFFD, the single point where this
model departs from raw UTF-16 strings. -/
def charOfUnit (u : Nat) : Char :=
  if 0xd800 ≤ u ∧ u ≤ 0xdfff then Char.ofNat 0xfffd else Char.ofNat u

/-- Combine UTF-16 code units into scalar values (surrogate pairs join). -/
def combineUnits : List Nat → List Char
  | [] => []
  | [u] => [charOfUnit u]
  | u1 :: u2 :: rest =>
    if (0xd800 ≤ u1 ∧ u1 ≤ 0xdbff) ∧ (0xdc00 ≤ u2 ∧ u2 ≤ 0xdfff) then
      Char.ofNat (0x10000 + (u1 - 0xd800) * 0x400 + (u2 - 0xdc00)) ::
        combineUnits rest
    else charOfUnit u1 :: combineUnits (u2 :: rest)

/-- The body of a JSON string after the opening quote. -/
def parseStringRest (l : List Char) : Option (List Char × List Char) :=
  (stringBodyUnits l).map (fun p => (combineUnits p.1, p.2))

/-- A JSON number token: `-? (0 | [1-9][0-9]*) (\.[0-9]+)? ([eE][+-]?[0-9]+)?`. -/
def parseNumberTok (l : List Char) : Option (JsonValue × List Char) :=
  let p : Bool × List Char :=
    match l with
    | '-' :: r => (true, r)
    | _ => (false, l)
  match p.2 with
  | [] => none
  | c :: _ =>
    if ¬ isDigit c then none
    else
      let ids := p.2.takeWhile isDigit
      if ids.length > 1 ∧ ids.head? = some '0' then none
      else
        let l2 := p.2.dropWhile isDigit
        let q : Option (List Char × List Char) :=
          match l2 with
          | '.' :: r2 =>
            let fds := r2.takeWhile isDigit
            if fds.isEmpty then none
            else some (fds, r2.dropWhile isDigit)
          | _ => some ([], l2)
        match q with
        | none => none
        | some (fds, l3) =>
          match l3 with
          | e :: r3 =>
            if e = 'e' ∨ e = 'E' then
              let s : Bool × List Char :=
                match r3 with
                | '+' :: r4 => (false, r4)
                | '-' :: r4 => (true, r4)
                | _ => (false, r3)
              let eds := s.2.takeWhile isDigit
              if eds.isEmpty then none
              else some (.num p.1 ids fds (some (s.1, eds)), s.2.dropWhile isDigit)
            else some (.num p.1 ids fds none, l3)
          | [] => some (.num p.1 ids fds none, [])

/-- Array elements after the opening bracket (at least one), given a value
scanner `pv`; elements are separated by commas and the list ends at `]`. -/
def parseArrayItemsWith (pv : List Char → Option (JsonValue × List Char)) :
    Nat → List Char → Option (List JsonValue × List Char)
  | 0, _ => none
  | fuel + 1, l =>
    match pv l with
    | none => none
    | some (v, r) =>
      match skipWsJson r with
      | ',' :: r2 =>
        (parseArrayItemsWith pv fuel r2).map (fun p => (v :: p.1, p.2))
      | ']' :: r2 => some ([v], r2)
      | _ => none

/-- Object members after the opening brace (at least one). -/
def parseMembersWith (pv : List Char → Option (JsonValue × List Char)) :
    Nat → List Char → Option (List (List Char × JsonValue) × List Char)
  | 0, _ => none
  | fuel + 1, l =>
    match skipWsJson l with
    | '"' :: r =>
      match parseStringRest r with
      | none => none
      | some (k, r2) =>
        match skipWsJson r2 with
        | ':' :: r3 =>
          match pv r3 with
          | none => none
          | some (v, r4) =>
            match skipWsJson r4 with
            | ',' :: r5 =>
              (parseMembersWith pv fuel r5).map (fun p => ((k, v) :: p.1, p.2))
            | '\x7d' :: r5 => some ([(k, v)], r5)
            | _ => none
        | _ => none
    | _ => none

/-- A JSON value with leading whitespace, by recursion on fuel (one unit per
nesting level; `length + 1` always suffices). -/
def parseValue : Nat → List Char → Option (JsonValue × List Char)
  | 0, _ => none
  | fuel + 1, l =>
    match skipWsJson l with
    | 'n' :: 'u' :: 'l' :: 'l' :: r => some (.null, r)
    | 't' :: 'r' :: 'u' :: 'e' :: r => some (.bool true, r)
    | 'f' :: 'a' :: 'l' :: 's' :: 'e' :: r => some (.bool false, r)
    | '"' :: r => (parseStringRest r).map (fun p => (.str p.1, p.2))
    | '[' :: r =>
      (match skipWsJson r with
       | ']' :: r2 => some (.arr [], r2)
       | _ =>
         (parseArrayItemsWith (parseValue fuel) (r.length + 1) r).map
           (fun p => (.arr p.1, p.2)))
    | '\x7b' :: r =>
      (match skipWsJson r with
       | '\x7d' :: r2 => some (.obj [], r2)
       | _ =>
         (parseMembersWith (parseValue fuel) (r.length + 1) r).map
           (fun p => (.obj p.1, p.2)))
    | rest => parseNumberTok rest

/-- `JSON.parse`: one value, then only trailing whitespace. -/
def jsonParse (l : List Char) : Option JsonValue :=
  match parseValue (l.length + 1) l with
  | some (v, r) => if (skipWsJson r).isEmpty then some v else none
  | none => none

/-- The failures of `parseJudgmentAnalysis`: no JSON span found
(`'回應中未找到有效的 JSON 格式'`), a `SyntaxError` from `JSON.parse`
(re-thrown as `'AI 回應的 JSON 格式有誤'`), or a validation failure
re-thrown unchanged. -/
inductive AnalysisError where
  | noJsonFound
  | malformedJson
  | validation (e : ValidateErr)
deriving DecidableEq, Repr

/-- `GeminiService.parseJudgmentAnalysis`: brace-span extraction, then
`JSON.parse`, then `validateAnalysisResult`; each failure is distinct (the
`instanceof SyntaxError` test maps exactly the parse failure to
`malformedJson`). -/
def parseJudgmentAnalysis (responseText : String) :
    Except AnalysisError JsonValue :=
  match extractJsonSpan responseText.data with
  | none => .error .noJsonFound
  | some span =>
    match jsonParse span with
    | none => .error .malformedJson
    | some v =>
      match validateAnalysisResult v with
      | .error e => .error (.validation e)
      | .ok _ => .ok v

/-! ## Concrete values used by witness and counterexample statements. -/

/-- Is a validation failure the raw `TypeError` (as opposed to one of the
validator's own typed messages)? -/
def isRawTypeError : ValidateErr → Bool
  | .jsTypeError => true
  | .typed _ => false

/-- A 50-word string (whitespace-split) containing none of the legal
keywords. -/
def fiftyWords : String :=
  "x x x x x x x x x x x x x x x x x x x x x x x x x x x x x x x x x x x x x x x x x x x x x x x x x x"

/-- A structurally complete analysis value, used to form concrete draft
requests. -/
def sampleAnalysis : JudgmentAnalysis :=
  ⟨"s", ⟨"n", "c", ⟨"p", "d"⟩⟩, ["f"], ["u"], ["l"], ["a"], "r"⟩

/-- A parsed reply that passes every top-level shape check but whose
`caseInfo` is JSON `null` (`typeof null` is `'object'`). -/
def nullCaseInfoValue : JsonValue :=
  .obj [("summary".data, .str "s".data),
        ("caseInfo".data, .null),
        ("favorablePoints".data, .arr [.str "f".data]),
        ("unfavorablePoints".data, .arr [.str "u".data]),
        ("legalGrounds".data, .arr [.str "l".data]),
        ("appealableIssues".data, .arr [.str "a".data]),
        ("recommendedStrategy".data, .str "r".data)]

/-- A raw LLM reply that is valid JSON with an empty `favorablePoints`. -/
def emptyFavReply : String :=
  "\x7b\"summary\":\"s\",\"caseInfo\":\x7b\"caseNumber\":\"1\",\"court\":\"c\",\"parties\":\x7b\"plaintiff\":\"p\",\"defendant\":\"d\"\x7d\x7d,\"favorablePoints\":[],\"unfavorablePoints\":[\"u\"],\"legalGrounds\":[\"l\"],\"appealableIssues\":[\"a\"],\"recommendedStrategy\":\"r\"\x7d"

/-- The value `JSON.parse` yields for `emptyFavReply`. -/
def emptyFavValue : JsonValue :=
  .obj [("summary".data, .str "s".data),
        ("caseInfo".data, .obj [("caseNumber".data, .str "1".data),
                                ("court".data, .str "c".data),
                                ("parties".data,
                                 .obj [("plaintiff".data, .str "p".data),
                                       ("defendant".data, .str "d".data)])]),
        ("favorablePoints".data, .arr []),
        ("unfavorablePoints".data, .arr [.str "u".data]),
        ("legalGrounds".data, .arr [.str "l".data]),
        ("appealableIssues".data, .arr [.str "a".data]),
        ("recommendedStrategy".data, .str "r".data)]

/-! ## Normal-form predicates for the normalization pipeline (used to prove
the idempotence law of steps 2–7). -/

/-- Replace every whitespace character by a plain space (what collapsing
does to a list without adjacent whitespace). -/
def relaxWs (l : List Char) : List Char :=
  l.map (fun c => if isWs c then ' ' else c)

/-- No two adjacent whitespace characters. -/
def NoAdjWs (l : List Char) : Prop :=
  List.Chain' (fun a b => ¬ (isWs a = true ∧ isWs b = true)) l

/-- Every whitespace character is a space or a newline. -/
def WsForm (l : List Char) : Prop :=
  ∀ c ∈ l, isWs c = true → c = ' ' ∨ c = '\n'

/-- Every whitespace character is a space. -/
def WsAllSpace (l : List Char) : Prop :=
  ∀ c ∈ l, isWs c = true → c = ' '

/-- Every newline immediately follows sentence-terminal punctuation (and
none starts the list). -/
def NlAfterPunct (l : List Char) : Prop :=
  (∀ c, l.head? = some c → c ≠ '\n') ∧
  List.Chain' (fun a b => b = '\n' → isSentEnd a = true) l

/-- No space immediately follows sentence-terminal punctuation. -/
def NoSpaceAfterPunct (l : List Char) : Prop :=
  List.Chain' (fun a b => b = ' ' → isSentEnd a = false) l

/-- No whitespace immediately follows an ideographic comma. -/
def NoWsAfterComma (l : List Char) : Prop :=
  List.Chain' (fun a b => a = '，' → isWs b = false) l

/-- The first character is not whitespace. -/
def HeadNotWs (l : List Char) : Prop :=
  ∀ c, l.head? = some c → isWs c = false

/-- The last character is not whitespace. -/
def LastNotWs (l : List Char) : Prop :=
  ∀ c, l.getLast? = some c → isWs c = false

/-- The article matcher at this position either fails or matches tightly
(the replacement concatenated with the remainder reproduces the input, i.e.
no whitespace was removed). -/
def artOkAt (l : List Char) : Bool :=
  match tryArticle l with
  | some (rep, rest') => rep ++ rest' == l
  | none => true

/-- `artOkAt` at every position: re-running the article rule changes
nothing anywhere. -/
def artClean : List Char → Bool
  | [] => true
  | c :: r => artOkAt (c :: r) && artClean r

/-- The case-number matcher at this position either fails or matches
tightly. -/
def caseOkAt (l : List Char) : Bool :=
  match tryCase l with
  | some (rep, rest') => rep ++ rest' == l
  | none => true

/-- `caseOkAt` at every position. -/
def caseClean : List Char → Bool
  | [] => true
  | c :: r => caseOkAt (c :: r) && caseClean r

/-- A loose article-citation occurrence: the input contains
`第` + whitespace + digits + whitespace + `條` with at least one real
whitespace character inside — exactly the occurrences the article rule
rewrites non-trivially. -/
def LooseArt (l : List Char) : Prop :=
  ∃ pre u1 ds u2 post,
    l = pre ++ '第' :: (u1 ++ ds ++ u2 ++ '條' :: post) ∧
    (∀ x ∈ u1, isWs x = true) ∧ (∀ x ∈ ds, isDigit x = true) ∧ ds ≠ [] ∧
    (∀ x ∈ u2, isWs x = true) ∧ u1 ++ u2 ≠ []

/-- A loose case-number occurrence: digits + `年度` + ASCII word + `字第` +
digits + `號` with whitespace in at least one of the five gaps. -/
def LooseCase (l : List Char) : Prop :=
  ∃ pre d1 u1 u2 w u3 u4 d2 u5 post,
    l = pre ++ d1 ++ u1 ++ ['年', '度'] ++ u2 ++ w ++ u3 ++ ['字', '第'] ++
      u4 ++ d2 ++ u5 ++ '號' :: post ∧
    (∀ x ∈ d1, isDigit x = true) ∧ d1 ≠ [] ∧
    (∀ x ∈ u1, isWs x = true) ∧ (∀ x ∈ u2, isWs x = true) ∧
    (∀ x ∈ w, isAsciiWord x = true) ∧ w ≠ [] ∧
    (∀ x ∈ u3, isWs x = true) ∧ (∀ x ∈ u4, isWs x = true) ∧
    (∀ x ∈ d2, isDigit x = true) ∧ d2 ≠ [] ∧
    (∀ x ∈ u5, isWs x = true) ∧
    u1 ++ u2 ++ u3 ++ u4 ++ u5 ≠ []

/-- The three pair constraints every stage from sentence-breaking onward
maintains: no whitespace after whitespace, a newline only after
sentence-terminal punctuation, no space after sentence-terminal
punctuation. -/
def QBase (a b : Char) : Prop :=
  (isWs a = true → isWs b = false) ∧ (b = '\n' → isSentEnd a = true) ∧
  (b = ' ' → isSentEnd a = false)

/-- `QBase` plus the comma constraint established by the comma-spacing
stage. -/
def QFull (a b : Char) : Prop :=
  QBase a b ∧ (a = '，' → isWs b = false)

/-- The whitespace normal form of the pipeline's output. -/
def NormalForm (y : List Char) : Prop :=
  NoAdjWs y ∧ WsForm y ∧ NlAfterPunct y ∧ NoSpaceAfterPunct y ∧
  NoWsAfterComma y ∧ HeadNotWs y ∧ LastNotWs y

/-! ## Helper lemmas. -/

/-- A list is a prefix of itself extended on the right. -/
theorem isPrefixList_self_append :
    ∀ s q : List Char, isPrefixList s (s ++ q) = true
  | [], _ => rfl
  | a :: as, q => by
    simp [isPrefixList, isPrefixList_self_append as q]

/-- A prefix occurrence is an occurrence. -/
theorem containsSub_of_isPrefixList (s l : List Char)
    (h : isPrefixList s l = true) : containsSub s l = true := by
  cases l with
  | nil => simpa [containsSub] using h
  | cons c rest => simp [containsSub, h]

/-- A list containing a designated pattern as an infix contains it. -/
theorem containsSub_sandwich (s : List Char) :
    ∀ p q : List Char, containsSub s (p ++ s ++ q) = true := by
  intro p
  induction p with
  | nil =>
    intro q
    simpa using
      containsSub_of_isPrefixList s (s ++ q) (isPrefixList_self_append s q)
  | cons b bs ih =>
    intro q
    have hsplit : (b :: bs) ++ s ++ q = b :: (bs ++ s ++ q) := by simp
    rw [hsplit]
    simp only [containsSub]
    rw [ih q]
    simp

/-- `findFirst` only reports what its matcher matched somewhere. -/
theorem findFirst_some {α : Type} (tm : List Char → Option α) :
    ∀ (l : List Char) (x : α), findFirst tm l = some x →
      ∃ l', tm l' = some x := by
  intro l
  induction l with
  | nil => intro x h; simp [findFirst] at h
  | cons c rest ih =>
    intro x h
    simp only [findFirst] at h
    cases htm : tm (c :: rest) with
    | some y => rw [htm] at h; exact ⟨c :: rest, htm.trans h⟩
    | none => rw [htm] at h; exact ih x h

/-- The tight case-number matcher returns a non-empty span. -/
theorem tryTightCase_ne_nil (l s : List Char) (h : tryTightCase l = some s) :
    s ≠ [] := by
  intro hnil
  subst hnil
  unfold tryTightCase at h
  repeat' first
    | exact Option.noConfusion h
    | split at h
    | dsimp only at h
  injection h with h'
  simp at h'

/-- The district-court matcher returns a non-empty span. -/
theorem tryDistrictCourt_ne_nil (l m : List Char)
    (h : tryDistrictCourt l = some m) : m ≠ [] := by
  intro hnil
  subst hnil
  unfold tryDistrictCourt at h
  repeat' first
    | exact Option.noConfusion h
    | split at h
    | dsimp only at h
  injection h with h'
  simp at h'

/-- The high-court matcher returns a non-empty span. -/
theorem tryHighCourt_ne_nil (l m : List Char)
    (h : tryHighCourt l = some m) : m ≠ [] := by
  intro hnil
  subst hnil
  unfold tryHighCourt at h
  repeat' first
    | exact Option.noConfusion h
    | split at h
    | dsimp only at h
  all_goals (injection h with h'; simp at h')

/-- A literal matcher only ever returns its literal. -/
theorem tryLiteral_eq (lit l m : List Char) (h : tryLiteral lit l = some m) :
    m = lit := by
  unfold tryLiteral at h
  split at h
  · injection h with h'; exact h'.symm
  · exact Option.noConfusion h

/-- The `App.tsx` court alternation returns a non-empty span. -/
theorem tryAppCourt_ne_nil (l m : List Char) (h : tryAppCourt l = some m) :
    m ≠ [] := by
  unfold tryAppCourt at h
  cases hd : tryDistrictCourt l with
  | some x =>
    rw [hd] at h
    injection h with h'
    rw [← h']
    exact tryDistrictCourt_ne_nil l x hd
  | none =>
    rw [hd] at h
    cases h2 : tryLiteral "臺灣高等法院".data l with
    | some x =>
      rw [h2] at h
      injection h with h'
      rw [← h', tryLiteral_eq _ _ _ h2]
      decide
    | none =>
      rw [h2] at h
      rw [tryLiteral_eq _ _ _ h]
      decide

/-! ## Claim theorems. -/

/-- C6: the specification asserts that normalizing text containing
`"112  年度  訴  字第  456  號"` yields `"112年度訴字第456號"`.  The code's
case-number rule `/(\d+)\s*年度\s*(\w+)\s*字第\s*(\d+)\s*號/g` uses
JavaScript `\w`, which matches only ASCII word characters, so the Chinese
case-type word `訴` never matches and the rule cannot fire on any real
Taiwanese case number — contradicting both the rule's own comment
(`修復案號格式`) and the specification.  Whitespace collapse still reduces
the runs to single spaces, so the code returns
`"112 年度 訴 字第 456 號"` instead.  This theorem evaluates the embedded
source at the failing input, for the full `cleanExtractedText` and for the
claim's steps-2–7 pipeline alike. -/
theorem c6_case_number_rule_never_matches_chinese :
    cleanExtractedText "112  年度  訴  字第  456  號" =
      "112 年度 訴 字第 456 號" ∧
    cleanExtractedText "112  年度  訴  字第  456  號" ≠
      "112年度訴字第456號" ∧
    cleanSteps2to7 "112  年度  訴  字第  456  號".data =
      "112 年度 訴 字第 456 號".data := by
  exact ⟨by decide, by decide, by decide⟩

/-- C8: the filing type of a `DocumentGenerationRequest` ranges over the
closed four-value union `民事上訴狀 | 刑事上訴狀 | 答辯狀 | 起訴狀`; a
request with any other filing type is ill-typed and rejected statically (a
caller error), hence before any network call to the LLM boundary is ever
made. -/
theorem c8_filing_types_closed :
    ∀ r : DocumentGenerationRequest,
      r.documentType = .civilAppeal ∨ r.documentType = .criminalAppeal ∨
      r.documentType = .defenseBrief ∨ r.documentType = .complaint := by
  intro r
  cases hdt : r.documentType <;> simp

/-- C3: an upload whose declared media type differs from the single
supported PDF type, or whose byte size is 0 or exceeds the 10 MiB ceiling
(10485760 bytes), makes `extractTextFromPDF` fail with the corresponding
`validateFile` message, and the result does not depend on the decoder's
output — the validation check precedes reading and parsing the binary. -/
theorem c3_invalid_input_fails_before_decoding :
    ∀ (file : UploadedFile) (pages pages' : List (Option (List String))),
      (¬ SUPPORTED_TYPES.contains file.typ ∨ file.size = 0 ∨
        file.size > MAX_FILE_SIZE) →
      (∃ msg, validateFile file = some msg ∧
        extractTextFromPDF file pages = .error msg) ∧
      extractTextFromPDF file pages = extractTextFromPDF file pages' := by
  intro file pages pages' h
  have hv : ∃ msg, validateFile file = some msg := by
    unfold validateFile
    by_cases ht : SUPPORTED_TYPES.contains file.typ
    · rcases h with h | h | h
      · exact absurd ht h
      · refine ⟨"檔案內容為空", ?_⟩
        rw [if_neg (not_not_intro ht), if_neg (by rw [h]; decide), if_pos h]
      · refine ⟨"檔案大小不能超過 10MB", ?_⟩
        rw [if_neg (not_not_intro ht), if_pos h]
    · refine ⟨"請上傳 PDF 格式的檔案", ?_⟩
      rw [if_pos ht]
  rcases hv with ⟨msg, hm⟩
  refine ⟨⟨msg, hm, ?_⟩, ?_⟩ <;> unfold extractTextFromPDF <;> rw [hm]

/-- C3 witness: a `text/plain` upload of 5 bytes is rejected with the
media-type message, whatever the decoder would have produced. -/
theorem c3_witness :
    (∃ msg, validateFile ⟨"text/plain", 5, "a"⟩ = some msg ∧
      extractTextFromPDF ⟨"text/plain", 5, "a"⟩ [some ["判決x"]] =
        .error msg) ∧
    extractTextFromPDF ⟨"text/plain", 5, "a"⟩ [some ["判決x"]] =
      extractTextFromPDF ⟨"text/plain", 5, "a"⟩ [] :=
  c3_invalid_input_fails_before_decoding ⟨"text/plain", 5, "a"⟩
    [some ["判決x"]] [] (Or.inl (by decide))

/-- C7 counterexample: the claim says an empty or whitespace-only LLM reply
makes the drafter fail with a `DraftFailure`.  The code has no such check:
`generateDocument` hands the reply to `formatLegalDocument`, a total
string-to-string post-processing, which for the empty reply returns a
"document" consisting of exactly the filing-type label. -/
theorem c7_counterexample_empty_reply_returns_document :
    generateDocument ⟨.civilAppeal, sampleAnalysis, none⟩ "" =
      "民事上訴狀" := by
  decide

/-- C7 amended: the drafter never fails and performs no JSON parsing — the
reply is accepted as free text by the total function `formatLegalDocument`;
for an empty or whitespace-only reply it returns exactly the filing-type
label as the document (the label is prepended because the reply does not
contain it). -/
theorem c7_amended_empty_reply_yields_label :
    ∀ (req : DocumentGenerationRequest) (reply : String),
      jsTrim reply.data = [] →
      generateDocument req reply = documentTypeLabel req.documentType := by
  intro req reply h
  obtain ⟨dt, a, ci⟩ := req
  cases dt <;>
    · dsimp only [generateDocument, documentTypeLabel]
      unfold formatLegalDocument
      rw [h]
      decide

/-- C7 amended, witness: a whitespace-only reply for a defense brief yields
exactly the label `答辯狀`. -/
theorem c7_amended_witness :
    generateDocument ⟨.defenseBrief, sampleAnalysis, none⟩ "  \n " =
      documentTypeLabel .defenseBrief :=
  c7_amended_empty_reply_yields_label ⟨.defenseBrief, sampleAnalysis, none⟩
    "  \n " (by decide)

/-- C10: schema validation is not total over JSON values that pass the
top-level shape check: for the input whose `caseInfo` is JSON `null`
(`typeof null` evaluates to `'object'`, so `null` satisfies the `'object'`
shape requirement), every top-level field check succeeds, and the subsequent
access to `caseInfo`'s leaf fields throws a raw `TypeError` — not one of the
validator's typed schema messages — so the caller cannot distinguish this
from an internal fault. -/
theorem c10_null_caseinfo_passes_shape_then_type_error :
    checkFields nullCaseInfoValue requiredFields = .ok () ∧
    validateAnalysisResult nullCaseInfoValue = .error .jsTypeError ∧
    (match validateAnalysisResult nullCaseInfoValue with
     | .error e => isRawTypeError e
     | .ok _ => false) = true := by
  exact ⟨rfl, rfl, rfl⟩

/-- C2: the two JSON-extraction failures are distinguished: a reply without
a brace span fails with `noJsonFound`; a reply whose extracted span fails
`JSON.parse` fails with the distinct `malformedJson` (never `noJsonFound`);
and a reply containing no brace characters at all falls in the first case. -/
theorem c2_extraction_failures_distinguished :
    (∀ r : String, extractJsonSpan r.data = none →
      parseJudgmentAnalysis r = .error .noJsonFound) ∧
    (∀ (r : String) (span : List Char),
      extractJsonSpan r.data = some span → jsonParse span = none →
      parseJudgmentAnalysis r = .error .malformedJson) ∧
    (∀ r : String, (∀ c ∈ r.data, c ≠ '\x7b' ∧ c ≠ '\x7d') →
      parseJudgmentAnalysis r = .error .noJsonFound) := by
  have h1 : ∀ r : String, extractJsonSpan r.data = none →
      parseJudgmentAnalysis r = .error .noJsonFound := by
    intro r h
    simp only [parseJudgmentAnalysis, h]
  refine ⟨h1, ?_, ?_⟩
  · intro r span hspan hparse
    simp only [parseJudgmentAnalysis, hspan, hparse]
  · intro r h
    apply h1
    have hall : r.data.dropWhile (fun c => c != '\x7b') = [] := by
      rw [List.dropWhile_eq_nil_iff]
      intro c hc
      simpa [bne_iff_ne] using (h c hc).1
    unfold extractJsonSpan
    rw [hall]

/-- C2 witness: `"hello"` has no span and fails with `noJsonFound`; the
reply `"x\x7bnot json\x7dy"` has the span `"\x7bnot json\x7d"`, which is not
valid JSON, and fails with `malformedJson`; a brace-free reply fails with
`noJsonFound`. -/
theorem c2_witness :
    parseJudgmentAnalysis "hello" = .error .noJsonFound ∧
    parseJudgmentAnalysis "x\x7bnot json\x7dy" = .error .malformedJson ∧
    parseJudgmentAnalysis "no braces at all" = .error .noJsonFound :=
  ⟨c2_extraction_failures_distinguished.1 "hello" rfl,
   c2_extraction_failures_distinguished.2.1 "x\x7bnot json\x7dy"
     "\x7bnot json\x7d".data rfl rfl,
   c2_extraction_failures_distinguished.2.2 "no braces at all" (by decide)⟩

/-- `takeWhile` never lengthens a list. -/
theorem takeWhile_length_le (p : Char → Bool) :
    ∀ l : List Char, (l.takeWhile p).length ≤ l.length := by
  intro l
  induction l with
  | nil => simp
  | cons a as ih =>
    rw [List.takeWhile_cons]
    split
    · simpa using ih
    · simp

/-- A field the loop accepts has an `.ok` check. -/
theorem checkField_of_not_violates (r : JsonValue) (f t : String)
    (h : fieldViolates r f t = false) : checkField r f t = .ok () := by
  unfold fieldViolates at h
  cases hc : checkField r f t with
  | ok u => cases u; rfl
  | error e => rw [hc] at h; exact Bool.noConfusion h

/-- A field the loop rejects has an `.error` check. -/
theorem checkField_of_violates (r : JsonValue) (f t : String)
    (h : fieldViolates r f t = true) : ∃ e, checkField r f t = .error e := by
  unfold fieldViolates at h
  cases hc : checkField r f t with
  | ok u => rw [hc] at h; exact Bool.noConfusion h
  | error e => exact ⟨e, rfl⟩

/-- The loop fails fast: it returns exactly the error of the first
violating field. -/
theorem checkFields_error_of_find :
    ∀ (fs : List (String × String)) (r : JsonValue) (f t : String),
      fs.find? (fun p => fieldViolates r p.1 p.2) = some (f, t) →
      ∃ e, checkField r f t = .error e ∧ checkFields r fs = .error e := by
  intro fs
  induction fs with
  | nil => intro r f t h; simp at h
  | cons p rest ih =>
    intro r f t h
    obtain ⟨p1, p2⟩ := p
    by_cases hv : fieldViolates r p1 p2
    · rw [List.find?_cons_of_pos _ (by simpa using hv)] at h
      injection h with h'
      injection h' with hf1 hf2
      subst hf1
      subst hf2
      obtain ⟨e, he⟩ := checkField_of_violates r p1 p2 hv
      refine ⟨e, he, ?_⟩
      simp only [checkFields]
      rw [he]
    · rw [List.find?_cons_of_neg _ (by simpa using hv)] at h
      obtain ⟨e, he, hfs⟩ := ih r f t h
      refine ⟨e, he, ?_⟩
      simp only [checkFields]
      rw [checkField_of_not_violates r p1 p2 (by simpa using hv)]
      exact hfs

/-- If the loop succeeds, every field's check succeeded. -/
theorem checkFields_ok_all :
    ∀ (fs : List (String × String)) (r : JsonValue),
      checkFields r fs = .ok () →
      ∀ p ∈ fs, checkField r p.1 p.2 = .ok () := by
  intro fs
  induction fs with
  | nil => intro r _ p hp; simp at hp
  | cons q rest ih =>
    intro r h p hp
    obtain ⟨q1, q2⟩ := q
    simp only [checkFields] at h
    cases hc : checkField r q1 q2 with
    | error e => rw [hc] at h; exact Except.noConfusion h
    | ok u =>
      cases u
      rw [hc] at h
      rcases List.mem_cons.mp hp with hp | hp
      · subst hp; exact hc
      · exact ih r h p hp

/-- On an object, every loop error is a typed message naming the field. -/
theorem checkField_obj_error_typed (fs : List (List Char × JsonValue))
    (f t : String) (e : ValidateErr)
    (h : checkField (.obj fs) f t = .error e) :
    ∃ msg, e = .typed msg ∧ containsSub f.data msg.data = true := by
  have hcon : ∀ pre suf : String,
      containsSub f.data (pre ++ f ++ suf).data = true := by
    intro pre suf
    rw [String.data_append, String.data_append]
    exact containsSub_sandwich _ _ _
  have hcon2 : ∀ pre : String, containsSub f.data (pre ++ f).data = true := by
    intro pre
    have := hcon pre ""
    simpa using this
  unfold checkField at h
  repeat' first
    | exact Except.noConfusion h
    | dsimp only at h
    | split at h
  all_goals injection h with h'
  all_goals subst h'
  all_goals
    first
      | exact ⟨_, rfl, hcon2 "分析結果缺少必要字段: "⟩
      | exact ⟨_, rfl, hcon "字段 " " 必須是非空陣列"⟩
      | exact ⟨_, rfl, hcon "字段 " " 必須是字符串"⟩
      | exact ⟨_, rfl, hcon "字段 " " 必須是物件"⟩

/-- A character that is no brace is skipped by the span search. -/
theorem extractJsonSpan_head :
    ∀ (l span : List Char), extractJsonSpan l = some span →
      ∃ r, span = '\x7b' :: r := by
  have hdrop : ∀ (l : List Char) (c : Char) (r : List Char),
      l.dropWhile (fun c => c != '\x7b') = c :: r → c = '\x7b' := by
    intro l
    induction l with
    | nil => intro c r h; simp [List.dropWhile] at h
    | cons a as ih =>
      intro c r h
      rw [List.dropWhile_cons] at h
      split at h
      · exact ih c r h
      · rename_i hne
        injection h with h1 _
        subst h1
        simpa using hne
  intro l span h
  unfold extractJsonSpan at h
  cases htf : l.dropWhile (fun c => c != '\x7b') with
  | nil => rw [htf] at h; exact Option.noConfusion h
  | cons c rest =>
    rw [htf] at h
    dsimp only at h
    split at h
    · exact Option.noConfusion h
    · rename_i hne
      injection h with h'
      have hc := hdrop l c rest htf
      subst hc
      have hlen : (('\x7b' :: rest).reverse.takeWhile
          (fun c => c != '\x7d')).length ≤ rest.length + 1 := by
        calc (('\x7b' :: rest).reverse.takeWhile (fun c => c != '\x7d')).length
            ≤ ('\x7b' :: rest).reverse.length :=
              takeWhile_length_le _ _
          _ = rest.length + 1 := by simp
      refine ⟨(rest.take (rest.length -
        (('\x7b' :: rest).reverse.takeWhile (fun c => c != '\x7d')).length)), ?_⟩
      rw [← h']
      have : ('\x7b' :: rest).length -
          (('\x7b' :: rest).reverse.takeWhile (fun c => c != '\x7d')).length =
          (rest.length -
            (('\x7b' :: rest).reverse.takeWhile (fun c => c != '\x7d')).length) + 1 := by
        simp only [List.length_cons] at hne ⊢
        omega
      rw [this, List.take_succ_cons]

/-- A value parsed from a span that opens with a brace is an object. -/
theorem parseValue_obj (fuel : Nat) (r rest : List Char) (v : JsonValue)
    (h : parseValue fuel ('\x7b' :: r) = some (v, rest)) :
    ∃ fs, v = .obj fs := by
  cases fuel with
  | zero => exact Option.noConfusion h
  | succ n =>
    unfold parseValue at h
    have hws : skipWsJson ('\x7b' :: r) = '\x7b' :: r := by
      unfold skipWsJson
      rw [List.dropWhile_cons_of_neg (by decide)]
    rw [hws] at h
    split at h
    · rename_i rr heq
      injection heq with hc _
      exact absurd hc (by decide)
    · rename_i rr heq
      injection heq with hc _
      exact absurd hc (by decide)
    · rename_i rr heq
      injection heq with hc _
      exact absurd hc (by decide)
    · rename_i rr heq
      injection heq with hc _
      exact absurd hc (by decide)
    · rename_i rr heq
      injection heq with hc _
      exact absurd hc (by decide)
    · rename_i rr heq
      injection heq with _ hr
      subst hr
      split at h
      · injection h with h'
        injection h' with h1 _
        exact ⟨[], h1.symm⟩
      · cases hm : parseMembersWith (parseValue n) (r.length + 1) r with
        | none => rw [hm] at h; exact Option.noConfusion h
        | some p =>
          rw [hm] at h
          dsimp only [Option.map] at h
          injection h with h'
          injection h' with h1 _
          exact ⟨p.1, h1.symm⟩
    · rename_i hx
      exact (hx r rfl).elim

/-- `JSON.parse` of a span opening with a brace yields an object. -/
theorem jsonParse_obj (r : List Char) (v : JsonValue)
    (h : jsonParse ('\x7b' :: r) = some v) : ∃ fs, v = .obj fs := by
  unfold jsonParse at h
  cases hpv : parseValue (('\x7b' :: r).length + 1) ('\x7b' :: r) with
  | none => rw [hpv] at h; exact Option.noConfusion h
  | some p =>
    obtain ⟨v', rest'⟩ := p
    rw [hpv] at h
    dsimp only at h
    split at h
    · injection h with h'
      obtain ⟨fs, hfs⟩ := parseValue_obj _ _ _ _ hpv
      exact ⟨fs, h' ▸ hfs⟩
    · exact Option.noConfusion h

/-- Each list-typed field appears in the schema table with type `array`. -/
theorem listFields_pair_mem (f : String) (hf : f ∈ listFields) :
    (f, "array") ∈ requiredFields := by
  have hf' : f = "favorablePoints" ∨ f = "unfavorablePoints" ∨
      f = "legalGrounds" ∨ f = "appealableIssues" := by
    simpa [listFields] using hf
  rcases hf' with rfl | rfl | rfl | rfl <;> decide

/-- C1: fail-fast schema validation.  First part: whenever the extracted
span of an LLM reply parses as JSON and some required list-typed field is
missing, not a list, or an empty list, `parseJudgmentAnalysis` fails with a
typed schema error naming exactly the first offending field in schema
order.  Second part: an empty required list is never accepted — on any
successfully validated object every list-typed field is a non-empty array. -/
theorem c1_schema_validation_fail_fast :
    (∀ (reply : String) (span : List Char) (v : JsonValue),
      extractJsonSpan reply.data = some span →
      jsonParse span = some v →
      (∃ f, f ∈ listFields ∧ fieldViolates v f "array" = true) →
      ∃ (f : String) (msg : String),
        firstOffendingField v = some f ∧
        parseJudgmentAnalysis reply = .error (.validation (.typed msg)) ∧
        containsSub f.data msg.data = true) ∧
    (∀ (fs : List (List Char × JsonValue)),
      validateAnalysisResult (.obj fs) = .ok () →
      ∀ f ∈ listFields, ∃ l, objGet fs f.data = some (.arr l) ∧ l ≠ []) := by
  constructor
  · intro reply span v hspan hparse hviol
    obtain ⟨rs, hrs⟩ := extractJsonSpan_head reply.data span hspan
    subst hrs
    obtain ⟨fs, hfs⟩ := jsonParse_obj rs v hparse
    have hsome : (requiredFields.find?
        (fun p => fieldViolates v p.1 p.2)).isSome := by
      rw [List.find?_isSome]
      obtain ⟨f, hmem, hv⟩ := hviol
      exact ⟨(f, "array"), listFields_pair_mem f hmem, by simpa using hv⟩
    obtain ⟨q, hq⟩ := Option.isSome_iff_exists.mp hsome
    obtain ⟨qf, qt⟩ := q
    obtain ⟨e, hcf, hcfs⟩ := checkFields_error_of_find requiredFields v qf qt hq
    obtain ⟨msg, hmsg, hconta⟩ :=
      checkField_obj_error_typed fs qf qt e (by rw [← hfs]; exact hcf)
    refine ⟨qf, msg, ?_, ?_, hconta⟩
    · unfold firstOffendingField
      rw [hq]
      rfl
    · simp only [parseJudgmentAnalysis, hspan, hparse]
      unfold validateAnalysisResult
      rw [hcfs, hmsg]
  · intro fs hok f hf
    have hcfok : checkFields (.obj fs) requiredFields = .ok () := by
      unfold validateAnalysisResult at hok
      cases hc : checkFields (.obj fs) requiredFields with
      | error e => rw [hc] at hok; exact Except.noConfusion hok
      | ok u => cases u; rfl
    have hcfield := checkFields_ok_all requiredFields (.obj fs) hcfok
      (f, "array") (listFields_pair_mem f hf)
    unfold checkField at hcfield
    dsimp only at hcfield
    by_cases hany : fs.any (fun p => p.1 == f.data)
    · rw [if_neg (not_not_intro hany), if_pos rfl] at hcfield
      cases hx : objGet fs f.data with
      | none =>
        rw [hx] at hcfield
        exact Except.noConfusion hcfield
      | some w =>
        rw [hx] at hcfield
        cases w with
        | arr l =>
          dsimp only at hcfield
          split at hcfield
          · exact Except.noConfusion hcfield
          · rename_i hne
            exact ⟨l, rfl, by simpa [List.isEmpty_iff] using hne⟩
        | null => exact Except.noConfusion hcfield
        | bool b => exact Except.noConfusion hcfield
        | num a b c d => exact Except.noConfusion hcfield
        | str s => exact Except.noConfusion hcfield
        | obj fs2 => exact Except.noConfusion hcfield
    · rw [if_pos hany] at hcfield
      exact Except.noConfusion hcfield

/-- C1 witness: the concrete reply `emptyFavReply` (valid JSON with an empty
`favorablePoints`) fails with a typed schema message naming
`favorablePoints`, the first offending field. -/
theorem c1_witness :
    ∃ (f : String) (msg : String),
      firstOffendingField emptyFavValue = some f ∧
      parseJudgmentAnalysis emptyFavReply = .error (.validation (.typed msg)) ∧
      containsSub f.data msg.data = true :=
  c1_schema_validation_fail_fast.1 emptyFavReply emptyFavReply.data
    emptyFavValue rfl rfl ⟨"favorablePoints", by decide, by decide⟩

/-- C9 counterexample: the claim says every unmatched field is set to an
explicit not-found sentinel and never left undefined.  The
`PDFService.extractBasicInfo` variant (one of the two cited sources) only
assigns a field when its pattern matched: on input `"x"` every optional
field stays `undefined` (`none`), with no sentinel. -/
theorem c9_counterexample_pdf_fields_left_undefined :
    (pdfExtractBasicInfo "x").caseNumber = none ∧
    (pdfExtractBasicInfo "x").court = none ∧
    (pdfExtractBasicInfo "x").plaintiff = none ∧
    (pdfExtractBasicInfo "x").defendant = none := by
  exact ⟨by decide, by decide, by decide, by decide⟩

/-- C9 amended: both cited `extractBasicInfo` variants are total (they never
fail; in the embedding they are plain functions).  The `App.tsx` variant
returns a structurally fully populated analysis — every field carries either
a match or an explicit sentinel/placeholder, never an empty value.  The
`PDFService` variant guarantees only `rawText`; its pattern fields remain
`undefined` when unmatched. -/
theorem c9_amended_total_and_app_fully_populated :
    (∀ t : String, (pdfExtractBasicInfo t).rawText = t) ∧
    (∀ t : String,
      (appExtractBasicInfo t).summary ≠ "" ∧
      (appExtractBasicInfo t).caseInfo.caseNumber ≠ "" ∧
      (appExtractBasicInfo t).caseInfo.court ≠ "" ∧
      (appExtractBasicInfo t).caseInfo.parties.plaintiff = "請從判決書中確認" ∧
      (appExtractBasicInfo t).caseInfo.parties.defendant = "請從判決書中確認" ∧
      (appExtractBasicInfo t).favorablePoints ≠ [] ∧
      (appExtractBasicInfo t).unfavorablePoints ≠ [] ∧
      (appExtractBasicInfo t).legalGrounds ≠ [] ∧
      (appExtractBasicInfo t).appealableIssues ≠ [] ∧
      (appExtractBasicInfo t).recommendedStrategy ≠ "") := by
  constructor
  · intro t; rfl
  · intro t
    refine ⟨by dsimp only [appExtractBasicInfo]; decide, ?_, ?_, rfl, rfl,
      by dsimp only [appExtractBasicInfo]; decide,
      by dsimp only [appExtractBasicInfo]; decide,
      by dsimp only [appExtractBasicInfo]; decide,
      by dsimp only [appExtractBasicInfo]; decide,
      by dsimp only [appExtractBasicInfo]; decide⟩
    · show (((findFirst tryTightCase t.data).map
        (fun m => (⟨m⟩ : String))).getD "未找到案號") ≠ ""
      cases hfind : findFirst tryTightCase t.data with
      | none => decide
      | some m =>
        obtain ⟨l', hl'⟩ := findFirst_some tryTightCase t.data m hfind
        have hm := tryTightCase_ne_nil l' m hl'
        dsimp only [Option.map, Option.getD]
        intro hc
        apply hm
        have : (⟨m⟩ : String).data = ("" : String).data := by rw [hc]
        simpa using this
    · show (((findFirst tryAppCourt t.data).map
        (fun m => (⟨m⟩ : String))).getD "未找到法院") ≠ ""
      cases hfind : findFirst tryAppCourt t.data with
      | none => decide
      | some m =>
        obtain ⟨l', hl'⟩ := findFirst_some tryAppCourt t.data m hfind
        have hm := tryAppCourt_ne_nil l' m hl'
        dsimp only [Option.map, Option.getD]
        intro hc
        apply hm
        have : (⟨m⟩ : String).data = ("" : String).data := by rw [hc]
        simpa using this

/-- C4: the quality assessment reproduces the decision table exactly: the
issue list contains the short-text issue iff the whitespace-split word count
is below 100, the keyword issue iff fewer than 3 of the 7 fixed legal
keywords occur, and the noise issue iff the noise fraction exceeds 0.3
(modelled exactly as `10·count > 3·length`); quality is `high` iff there are
zero issues and more than 500 words, `medium` iff (not high and) at most one
issue and more than 200 words, else `low`; and a 50-word text with no legal
keywords is `low` with both the short-text and keyword issues present. -/
theorem c4_quality_decision_table :
    ∀ s : String,
      (assessTextQuality s).wordCount = jsWordCount s.data ∧
      (shortTextIssue ∈ (assessTextQuality s).issues ↔
        jsWordCount s.data < 100) ∧
      (keywordIssue ∈ (assessTextQuality s).issues ↔
        foundKeywordCount s.data < 3) ∧
      (noiseIssue ∈ (assessTextQuality s).issues ↔
        noiseCount s.data * 10 > s.data.length * 3) ∧
      ((assessTextQuality s).quality = .high ↔
        ((assessTextQuality s).issues = [] ∧ jsWordCount s.data > 500)) ∧
      ((assessTextQuality s).quality = .medium ↔
        (¬ ((assessTextQuality s).issues = [] ∧ jsWordCount s.data > 500) ∧
          (assessTextQuality s).issues.length ≤ 1 ∧
          jsWordCount s.data > 200)) ∧
      ((assessTextQuality s).quality = .low ↔
        (¬ ((assessTextQuality s).issues = [] ∧ jsWordCount s.data > 500) ∧
          ¬ ((assessTextQuality s).issues.length ≤ 1 ∧
            jsWordCount s.data > 200))) ∧
      (jsWordCount s.data = 50 → foundKeywordCount s.data = 0 →
        (assessTextQuality s).quality = .low ∧
        shortTextIssue ∈ (assessTextQuality s).issues ∧
        keywordIssue ∈ (assessTextQuality s).issues) := by
  intro s
  simp only [assessTextQuality]
  generalize hW : jsWordCount s.data = W
  generalize hK : foundKeywordCount s.data = K
  generalize hN : noiseCount s.data = N
  generalize hL : s.data.length = L
  by_cases h1 : W < 100 <;>
    by_cases h2 : K < 3 <;>
      by_cases h3 : N * 10 > L * 3 <;>
        by_cases h4 : W > 500 <;>
          by_cases h5 : W > 200 <;>
            simp [h1, h2, h3, h4, h5, shortTextIssue, keywordIssue,
              noiseIssue] <;>
              omega

/-- C4 witness: the concrete 50-word keyword-free text `fiftyWords` is
classified `low` with both the short-text and keyword-coverage issues. -/
theorem c4_witness :
    (assessTextQuality fiftyWords).quality = .low ∧
    shortTextIssue ∈ (assessTextQuality fiftyWords).issues ∧
    keywordIssue ∈ (assessTextQuality fiftyWords).issues :=
  (c4_quality_decision_table fiftyWords).2.2.2.2.2.2.2 (by decide) (by decide)

/-! ## Scanner infrastructure lemmas (toward the idempotence law C5). -/

/-- The article matcher triggers only at `第`. -/
theorem tryArticle_none_of_ne (c : Char) (r : List Char) (h : c ≠ '第') :
    tryArticle (c :: r) = none := by
  unfold tryArticle
  simp [h]

/-- The case-number matcher triggers only at a digit. -/
theorem tryCase_none_of_not_digit (c : Char) (r : List Char)
    (h : isDigit c = false) : tryCase (c :: r) = none := by
  unfold tryCase
  simp [h]

/-- Characterization of a successful article match: the input decomposes as
`第`, whitespace, digits, whitespace, `條`, remainder — with the component
equations of the deterministic scan. -/
theorem tryArticle_spec (c : Char) (r : List Char) (rep rest' : List Char)
    (h : tryArticle (c :: r) = some (rep, rest')) :
    c = '第' ∧
    ∃ w1 d w2,
      r = w1 ++ d ++ w2 ++ '條' :: rest' ∧
      rep = '第' :: (d ++ ['條']) ∧
      w1 = r.takeWhile isWs ∧
      d = (r.dropWhile isWs).takeWhile isDigit ∧
      w2 = ((r.dropWhile isWs).dropWhile isDigit).takeWhile isWs ∧
      d ≠ [] := by
  unfold tryArticle at h
  dsimp only at h
  by_cases hc : c = '第'
  · subst hc
    rw [if_pos rfl] at h
    refine ⟨rfl, ?_⟩
    by_cases hds : ((r.dropWhile isWs).takeWhile isDigit).isEmpty
    · rw [if_pos hds] at h
      exact Option.noConfusion h
    · rw [if_neg hds] at h
      cases h2 : ((r.dropWhile isWs).dropWhile isDigit).dropWhile isWs with
      | nil => rw [h2] at h; exact Option.noConfusion h
      | cons d2 r3 =>
        rw [h2] at h
        dsimp only at h
        by_cases hd2 : d2 = '條'
        · subst hd2
          rw [if_pos rfl] at h
          injection h with h'
          injection h' with hrep hrest
          refine ⟨r.takeWhile isWs, (r.dropWhile isWs).takeWhile isDigit,
            ((r.dropWhile isWs).dropWhile isDigit).takeWhile isWs,
            ?_, hrep.symm, rfl, rfl, rfl, by simpa [List.isEmpty_iff] using hds⟩
          subst hrest
          have e1 : List.takeWhile isWs r ++ List.dropWhile isWs r = r := by
            rw [List.takeWhile_append_dropWhile]
          have e2 : List.takeWhile isDigit (List.dropWhile isWs r) ++
              List.dropWhile isDigit (List.dropWhile isWs r) =
              List.dropWhile isWs r := by
            rw [List.takeWhile_append_dropWhile]
          have e3 : List.takeWhile isWs
                ((List.dropWhile isWs r).dropWhile isDigit) ++
              List.dropWhile isWs ((List.dropWhile isWs r).dropWhile isDigit) =
              (List.dropWhile isWs r).dropWhile isDigit := by
            rw [List.takeWhile_append_dropWhile]
          apply Eq.symm
          simp only [List.append_assoc]
          conv_rhs => rw [← e1]
          congr 1
          conv_rhs => rw [← e2]
          congr 1
          conv_rhs => rw [← e3]
          congr 1
          exact h2.symm
        · rw [if_neg hd2] at h
          exact Option.noConfusion h
  · rw [if_neg hc] at h
    exact Option.noConfusion h

/-- A successful article match consumes at least one character. -/
theorem tryArticle_consumes (l rep rest' : List Char)
    (h : tryArticle l = some (rep, rest')) : rest'.length < l.length := by
  cases l with
  | nil => exact Option.noConfusion h
  | cons c r =>
    obtain ⟨hc, w1, d, w2, hr, _, _, _, _, _⟩ := tryArticle_spec c r rep rest' h
    subst hr
    simp
    omega

/-- Characterization of a successful case-number match: the input
decomposes into digits, whitespace, `年度`, whitespace, an ASCII word,
whitespace, `字第`, whitespace, digits, whitespace, `號`, remainder. -/
theorem tryCase_spec (l rep rest' : List Char)
    (h : tryCase l = some (rep, rest')) :
    ∃ d1 u1 u2 w u3 u4 d2 u5,
      l = d1 ++ u1 ++ ['年', '度'] ++ u2 ++ w ++ u3 ++ ['字', '第'] ++ u4 ++
        d2 ++ u5 ++ '號' :: rest' ∧
      rep = d1 ++ ['年', '度'] ++ w ++ ['字', '第'] ++ d2 ++ ['號'] ∧
      (∀ x ∈ d1, isDigit x = true) ∧ d1 ≠ [] ∧
      (∀ x ∈ u1, isWs x = true) ∧
      (∀ x ∈ u2, isWs x = true) ∧
      (∀ x ∈ w, isAsciiWord x = true) ∧ w ≠ [] ∧
      (∀ x ∈ u3, isWs x = true) ∧
      (∀ x ∈ u4, isWs x = true) ∧
      (∀ x ∈ d2, isDigit x = true) ∧ d2 ≠ [] ∧
      (∀ x ∈ u5, isWs x = true) := by
  unfold tryCase at h
  cases l with
  | nil => exact Option.noConfusion h
  | cons c r =>
    dsimp only at h
    by_cases hc : isDigit c
    · rw [if_pos hc] at h
      split at h
      · rename_i r2 h1
        by_cases hw : ((r2.dropWhile isWs).takeWhile isAsciiWord).isEmpty
        · rw [if_pos hw] at h
          exact Option.noConfusion h
        · rw [if_neg hw] at h
          split at h
          · rename_i r5 h2
            by_cases hd2 : ((r5.dropWhile isWs).takeWhile isDigit).isEmpty
            · rw [if_pos hd2] at h
              exact Option.noConfusion h
            · rw [if_neg hd2] at h
              split at h
              · rename_i r8 h3
                injection h with h'
                injection h' with hrep hrest
                subst hrest
                have D : (c :: r) =
                    (c :: r).takeWhile isDigit ++
                    (((c :: r).dropWhile isDigit).takeWhile isWs ++
                    ('年' :: '度' ::
                    (r2.takeWhile isWs ++
                    ((r2.dropWhile isWs).takeWhile isAsciiWord ++
                    (((r2.dropWhile isWs).dropWhile isAsciiWord).takeWhile isWs ++
                    ('字' :: '第' ::
                    (r5.takeWhile isWs ++
                    ((r5.dropWhile isWs).takeWhile isDigit ++
                    (((r5.dropWhile isWs).dropWhile isDigit).takeWhile isWs ++
                    ('號' :: r8)))))))))) := by
                  conv_lhs =>
                    rw [← List.takeWhile_append_dropWhile isDigit (c :: r)]
                    rw [← List.takeWhile_append_dropWhile isWs
                        ((c :: r).dropWhile isDigit), h1]
                    rw [← List.takeWhile_append_dropWhile isWs r2,
                      ← List.takeWhile_append_dropWhile isAsciiWord
                        (r2.dropWhile isWs),
                      ← List.takeWhile_append_dropWhile isWs
                        ((r2.dropWhile isWs).dropWhile isAsciiWord), h2]
                    rw [← List.takeWhile_append_dropWhile isWs r5,
                      ← List.takeWhile_append_dropWhile isDigit
                        (r5.dropWhile isWs),
                      ← List.takeWhile_append_dropWhile isWs
                        ((r5.dropWhile isWs).dropWhile isDigit), h3]
                refine ⟨(c :: r).takeWhile isDigit,
                  ((c :: r).dropWhile isDigit).takeWhile isWs,
                  r2.takeWhile isWs,
                  (r2.dropWhile isWs).takeWhile isAsciiWord,
                  ((r2.dropWhile isWs).dropWhile isAsciiWord).takeWhile isWs,
                  r5.takeWhile isWs,
                  (r5.dropWhile isWs).takeWhile isDigit,
                  ((r5.dropWhile isWs).dropWhile isDigit).takeWhile isWs,
                  by simpa [List.append_assoc] using D, hrep.symm,
                  fun x hx => List.mem_takeWhile_imp hx,
                  by rw [List.takeWhile_cons_of_pos hc]; simp,
                  fun x hx => List.mem_takeWhile_imp hx,
                  fun x hx => List.mem_takeWhile_imp hx,
                  fun x hx => List.mem_takeWhile_imp hx,
                  by simpa [List.isEmpty_iff] using hw,
                  fun x hx => List.mem_takeWhile_imp hx,
                  fun x hx => List.mem_takeWhile_imp hx,
                  fun x hx => List.mem_takeWhile_imp hx,
                  by simpa [List.isEmpty_iff] using hd2,
                  fun x hx => List.mem_takeWhile_imp hx⟩
              · exact Option.noConfusion h
          · exact Option.noConfusion h
      · exact Option.noConfusion h
    · rw [if_neg hc] at h
      exact Option.noConfusion h

/-! ## Character-class disjointness. -/

/-- ASCII digits are not whitespace. -/
theorem digit_not_ws (c : Char) (h : isDigit c = true) : isWs c = false := by
  simp only [isDigit, Bool.and_eq_true, decide_eq_true_eq] at h
  simp only [isWs, Bool.or_eq_false_iff, Bool.and_eq_false_iff,
    decide_eq_false_iff_not]
  omega

/-- ASCII word characters are not whitespace. -/
theorem aw_not_ws (c : Char) (h : isAsciiWord c = true) : isWs c = false := by
  simp only [isAsciiWord, isDigit, Bool.or_eq_true, Bool.and_eq_true,
    decide_eq_true_eq] at h
  rcases h with ((h | h) | h) | h
  · simp only [isWs, Bool.or_eq_false_iff, Bool.and_eq_false_iff,
      decide_eq_false_iff_not]
    omega
  · simp only [isWs, Bool.or_eq_false_iff, Bool.and_eq_false_iff,
      decide_eq_false_iff_not]
    omega
  · simp only [isWs, Bool.or_eq_false_iff, Bool.and_eq_false_iff,
      decide_eq_false_iff_not]
    omega
  · subst h
    decide

/-- Whitespace characters are not digits. -/
theorem ws_not_digit (c : Char) (h : isWs c = true) : isDigit c = false := by
  cases hd : isDigit c with
  | false => rfl
  | true => rw [digit_not_ws c hd] at h; exact Bool.noConfusion h

/-- Whitespace characters are not ASCII word characters. -/
theorem ws_not_aw (c : Char) (h : isWs c = true) : isAsciiWord c = false := by
  cases hd : isAsciiWord c with
  | false => rfl
  | true => rw [aw_not_ws c hd] at h; exact Bool.noConfusion h

/-! ## takeWhile and dropWhile over concatenations. -/

/-- Dropping a satisfying block. -/
theorem dropWhile_append_all (p : Char → Bool) :
    ∀ (a b : List Char), (∀ x ∈ a, p x = true) →
      List.dropWhile p (a ++ b) = List.dropWhile p b
  | [], _, _ => rfl
  | x :: a, b, h => by
    have hx : p x = true := h x (by simp)
    simp only [List.cons_append, List.dropWhile_cons_of_pos hx]
    exact dropWhile_append_all p a b (fun y hy => h y (by simp [hy]))

/-- Taking a satisfying block that is stopped by the next character. -/
theorem takeWhile_append_stop (p : Char → Bool) :
    ∀ (a b : List Char), (∀ x ∈ a, p x = true) →
      (∀ c, b.head? = some c → p c = false) →
      List.takeWhile p (a ++ b) = a
  | [], b, _, hb => by
    cases b with
    | nil => rfl
    | cons c r =>
      simp only [List.nil_append]
      rw [List.takeWhile_cons_of_neg]
      rw [hb c rfl]
      exact Bool.false_ne_true
  | x :: a, b, h, hb => by
    have hx : p x = true := h x (by simp)
    simp only [List.cons_append, List.takeWhile_cons_of_pos hx]
    rw [takeWhile_append_stop p a b (fun y hy => h y (by simp [hy])) hb]

/-- A unique marker character splits a concatenation unambiguously. -/
theorem append_eq_append_unique (x : Char) :
    ∀ (a q b r : List Char), a ++ x :: b = q ++ x :: r →
      x ∉ a → x ∉ b → a = q ∧ b = r
  | [], q, b, r, h, _, hxb => by
    cases q with
    | nil =>
      simp only [List.nil_append, List.cons.injEq] at h
      exact ⟨rfl, h.2⟩
    | cons y q' =>
      simp only [List.nil_append, List.cons_append, List.cons.injEq] at h
      obtain ⟨hxy, hb⟩ := h
      exact absurd (by rw [hb]; simp) hxb
  | z :: a', q, b, r, h, hxa, hxb => by
    cases q with
    | nil =>
      simp only [List.cons_append, List.nil_append, List.cons.injEq] at h
      exact absurd (by simp [h.1]) hxa
    | cons y q' =>
      simp only [List.cons_append, List.cons.injEq] at h
      obtain ⟨hzy, h'⟩ := h
      have hrec := append_eq_append_unique x a' q' b r h'
        (fun hm => hxa (by simp [hm])) hxb
      exact ⟨by rw [hzy, hrec.1], hrec.2⟩

/-! ## Generic facts about the global-replace scanner. -/

/-- If every replacement starts with the character it replaces, the scanner
preserves the head of the list. -/
theorem scanGo_head (tm : List Char → Option (List Char × List Char))
    (hhead : ∀ l rep r', tm l = some (rep, r') → rep.head? = l.head?) :
    ∀ (fuel : Nat) (l : List Char), (scanGo tm fuel l).head? = l.head?
  | 0, _ => rfl
  | _ + 1, [] => rfl
  | fuel + 1, c :: rest => by
    simp only [scanGo]
    cases htm : tm (c :: rest) with
    | none => rfl
    | some pr =>
      obtain ⟨rep, r'⟩ := pr
      have hh := hhead _ _ _ htm
      cases rep with
      | nil => simp at hh
      | cons a t =>
        simp only [List.head?] at hh
        simp only [List.cons_append, List.head?]
        exact hh

/-- Peeling a prefix off the scanner output: either the prefix was copied
verbatim from the input, or a replacement started somewhere inside it. -/
theorem scanGo_prefix_cases (tm : List Char → Option (List Char × List Char)) :
    ∀ (a : List Char) (fuel : Nat) (l b : List Char),
      scanGo tm fuel l = a ++ b →
      (∃ c fuel2, l = a ++ c ∧ scanGo tm fuel2 c = b) ∨
      (∃ a1 a2 c rep r' fuel2, a = a1 ++ a2 ∧ a2 ≠ [] ∧ l = a1 ++ c ∧
        tm c = some (rep, r') ∧ a2 ++ b = rep ++ scanGo tm fuel2 r')
  | [], fuel, l, b, h => Or.inl ⟨l, fuel, rfl, h⟩
  | x :: a', fuel, l, b, h => by
    cases fuel with
    | zero =>
      exact Or.inl ⟨b, 0, by simpa [scanGo] using h, rfl⟩
    | succ fuel =>
      cases l with
      | nil => exact absurd h (by simp [scanGo])
      | cons d r =>
        simp only [scanGo] at h
        cases htm : tm (d :: r) with
        | some pr =>
          obtain ⟨rep, r'⟩ := pr
          rw [htm] at h
          exact Or.inr ⟨[], x :: a', d :: r, rep, r', fuel, rfl,
            List.cons_ne_nil x a', rfl, htm, h.symm⟩
        | none =>
          rw [htm] at h
          simp only [List.cons_append, List.cons.injEq] at h
          obtain ⟨hdx, h'⟩ := h
          rcases scanGo_prefix_cases tm a' fuel r b h' with
            ⟨c, fuel2, hr, hb⟩ | ⟨a1, a2, c, rep, r', fuel2, ha, hne, hl, ht, he⟩
          · exact Or.inl ⟨c, fuel2, by rw [hdx, hr]; rfl, hb⟩
          · exact Or.inr ⟨x :: a1, a2, c, rep, r', fuel2, by rw [ha]; rfl, hne,
              by rw [hdx, hl]; rfl, ht, he⟩

/-- If every position of the input is clean for the matcher (no match, or a
match whose replacement restores the input), scanning is the identity. -/
theorem scanGo_id (tm : List Char → Option (List Char × List Char))
    (good : List Char → Prop)
    (hgood : ∀ l, good l → ∀ rep r', tm l = some (rep, r') → rep ++ r' = l)
    (htail : ∀ c rest, good (c :: rest) → good rest) :
    ∀ (fuel : Nat) (l : List Char), good l → scanGo tm fuel l = l := by
  have gs : ∀ a b : List Char, good (a ++ b) → good b := by
    intro a
    induction a with
    | nil => intro b h; exact h
    | cons x a ih => intro b h; exact ih b (htail x (a ++ b) h)
  intro fuel
  induction fuel with
  | zero => intro l _; rfl
  | succ fuel ih =>
    intro l hl
    cases l with
    | nil => rfl
    | cons c rest =>
      simp only [scanGo]
      cases htm : tm (c :: rest) with
      | none => dsimp only; rw [ih rest (htail c rest hl)]
      | some pr =>
        obtain ⟨rep, r'⟩ := pr
        have he := hgood _ hl _ _ htm
        dsimp only
        rw [ih r' (gs rep r' (by rw [he]; exact hl))]
        exact he

/-- Whitespace in the scanner output comes from the input, provided
replacements are whitespace-free and replace a genuine span. -/
theorem scanGo_ws_mem (tm : List Char → Option (List Char × List Char))
    (hrep : ∀ l rep r', tm l = some (rep, r') → ∀ c ∈ rep, isWs c = false)
    (hspan : ∀ l rep r', tm l = some (rep, r') → ∃ span, l = span ++ r') :
    ∀ (fuel : Nat) (l : List Char) (c : Char),
      c ∈ scanGo tm fuel l → isWs c = true → c ∈ l
  | 0, _, _, hm, _ => hm
  | _ + 1, [], _, hm, _ => absurd hm (by simp [scanGo])
  | fuel + 1, d :: rest, c, hm, hws => by
    simp only [scanGo] at hm
    cases htm : tm (d :: rest) with
    | none =>
      rw [htm] at hm
      rcases List.mem_cons.mp hm with h | h
      · exact h ▸ List.mem_cons_self d rest
      · exact List.mem_cons_of_mem d (scanGo_ws_mem tm hrep hspan fuel rest c h hws)
    | some pr =>
      obtain ⟨rep, r'⟩ := pr
      rw [htm] at hm
      rcases List.mem_append.mp hm with h | h
      · rw [hrep _ _ _ htm c h] at hws; exact Bool.noConfusion hws
      · have hc := scanGo_ws_mem tm hrep hspan fuel r' c h hws
        obtain ⟨span, hsp⟩ := hspan _ _ _ htm
        rw [hsp]
        exact List.mem_append_right span hc

/-! ## Generic facts about the whitespace-run rewriter. -/

/-- Output characters come from the input or the inserted text. -/
theorem wsRunAux_mem (trig : Char → Bool) (ins : List Char) :
    ∀ (l : List Char) (p d : Bool) (c : Char),
      c ∈ wsRunAux trig ins p d l → c ∈ l ∨ c ∈ ins := by
  intro l
  induction l with
  | nil => intro p d c h; simp [wsRunAux] at h
  | cons x rest ih =>
    intro p d c h
    simp only [wsRunAux] at h
    by_cases h1 : (d && isWs x) = true
    · rw [if_pos h1] at h
      rcases ih false true c h with h' | h'
      · exact Or.inl (List.mem_cons_of_mem x h')
      · exact Or.inr h'
    · rw [if_neg h1] at h
      by_cases h2 : (p && isWs x) = true
      · rw [if_pos h2] at h
        rcases List.mem_append.mp h with h' | h'
        · exact Or.inr h'
        · rcases ih false true c h' with h'' | h''
          · exact Or.inl (List.mem_cons_of_mem x h'')
          · exact Or.inr h''
      · rw [if_neg h2] at h
        rcases List.mem_cons.mp h with h' | h'
        · exact Or.inl (h' ▸ List.mem_cons_self x rest)
        · rcases ih (trig x) false c h' with h'' | h''
          · exact Or.inl (List.mem_cons_of_mem x h'')
          · exact Or.inr h''

/-- From the start state the rewriter preserves the head of the list. -/
theorem wsRunAux_head_ff (trig : Char → Bool) (ins : List Char)
    (l : List Char) :
    (wsRunAux trig ins false false l).head? = l.head? := by
  cases l with
  | nil => rfl
  | cons c rest => simp [wsRunAux]

/-- When the head is not whitespace, the rewriter's state is irrelevant. -/
theorem wsRunAux_state_nonws (trig : Char → Bool) (ins : List Char)
    (l : List Char) (h : ∀ c, l.head? = some c → isWs c = false) (p d : Bool) :
    wsRunAux trig ins p d l = wsRunAux trig ins false false l := by
  cases l with
  | nil => rfl
  | cons c rest =>
    have hc : isWs c = false := h c rfl
    simp [wsRunAux, hc]

/-! ## Matching on explicit decompositions. -/

/-- A decomposed loose-or-tight article occurrence is matched exactly. -/
theorem tryArticle_of_decomp (u1 ds u2 post : List Char)
    (hu1 : ∀ x ∈ u1, isWs x = true) (hds : ∀ x ∈ ds, isDigit x = true)
    (hne : ds ≠ []) (hu2 : ∀ x ∈ u2, isWs x = true) :
    tryArticle ('第' :: (u1 ++ ds ++ u2 ++ '條' :: post)) =
      some ('第' :: (ds ++ ['條']), post) := by
  obtain ⟨d0, ds', rfl⟩ : ∃ d0 ds', ds = d0 :: ds' := by
    cases ds with
    | nil => exact absurd rfl hne
    | cons a b => exact ⟨a, b, rfl⟩
  have hR : u1 ++ (d0 :: ds') ++ u2 ++ '條' :: post =
      u1 ++ ((d0 :: ds') ++ (u2 ++ '條' :: post)) := by
    simp
  have e1 : List.dropWhile isWs (u1 ++ ((d0 :: ds') ++ (u2 ++ '條' :: post))) =
      (d0 :: ds') ++ (u2 ++ '條' :: post) := by
    rw [dropWhile_append_all isWs u1 _ hu1]
    exact List.dropWhile_cons_of_neg
      (by rw [digit_not_ws d0 (hds d0 (by simp))]; decide)
  have e2 : List.takeWhile isDigit ((d0 :: ds') ++ (u2 ++ '條' :: post)) =
      d0 :: ds' := by
    refine takeWhile_append_stop isDigit _ _ hds ?_
    intro c hc
    cases u2 with
    | nil =>
      simp only [List.nil_append, List.head?, Option.some.injEq] at hc
      rw [← hc]; decide
    | cons y u2' =>
      simp only [List.cons_append, List.head?, Option.some.injEq] at hc
      rw [← hc]
      exact ws_not_digit y (hu2 y (by simp))
  have e3 : List.dropWhile isDigit ((d0 :: ds') ++ (u2 ++ '條' :: post)) =
      u2 ++ '條' :: post := by
    rw [dropWhile_append_all isDigit (d0 :: ds') _ hds]
    cases u2 with
    | nil => exact List.dropWhile_cons_of_neg (by decide)
    | cons y u2' =>
      exact List.dropWhile_cons_of_neg
        (by rw [ws_not_digit y (hu2 y (by simp))]; decide)
  have e4 : List.dropWhile isWs (u2 ++ '條' :: post) = '條' :: post := by
    rw [dropWhile_append_all isWs u2 _ hu2]
    exact List.dropWhile_cons_of_neg (by decide)
  rw [hR]
  unfold tryArticle
  dsimp only
  rw [if_pos rfl]
  rw [e1, e2, e3, e4]
  rw [if_neg (by simp)]
  dsimp only
  rw [if_pos rfl]
  rfl

/-- A decomposed loose-or-tight case-number occurrence is matched exactly. -/
theorem tryCase_of_decomp (d1 u1 u2 w u3 u4 d2 u5 post : List Char)
    (hd1 : ∀ x ∈ d1, isDigit x = true) (hd1n : d1 ≠ [])
    (hu1 : ∀ x ∈ u1, isWs x = true) (hu2 : ∀ x ∈ u2, isWs x = true)
    (hw : ∀ x ∈ w, isAsciiWord x = true) (hwn : w ≠ [])
    (hu3 : ∀ x ∈ u3, isWs x = true) (hu4 : ∀ x ∈ u4, isWs x = true)
    (hd2 : ∀ x ∈ d2, isDigit x = true) (hd2n : d2 ≠ [])
    (hu5 : ∀ x ∈ u5, isWs x = true) :
    tryCase (d1 ++ u1 ++ ['年', '度'] ++ u2 ++ w ++ u3 ++ ['字', '第'] ++
        u4 ++ d2 ++ u5 ++ '號' :: post) =
      some (d1 ++ ['年', '度'] ++ w ++ ['字', '第'] ++ d2 ++ ['號'], post) := by
  obtain ⟨a0, d1', rfl⟩ : ∃ a0 d1', d1 = a0 :: d1' := by
    cases d1 with
    | nil => exact absurd rfl hd1n
    | cons a b => exact ⟨a, b, rfl⟩
  obtain ⟨w0, w', rfl⟩ : ∃ w0 w', w = w0 :: w' := by
    cases w with
    | nil => exact absurd rfl hwn
    | cons a b => exact ⟨a, b, rfl⟩
  obtain ⟨b0, d2', rfl⟩ : ∃ b0 d2', d2 = b0 :: d2' := by
    cases d2 with
    | nil => exact absurd rfl hd2n
    | cons a b => exact ⟨a, b, rfl⟩
  have hR : (a0 :: d1') ++ u1 ++ ['年', '度'] ++ u2 ++ (w0 :: w') ++ u3 ++
      ['字', '第'] ++ u4 ++ (b0 :: d2') ++ u5 ++ '號' :: post =
      a0 :: (d1' ++ (u1 ++ ('年' :: '度' :: (u2 ++ ((w0 :: w') ++ (u3 ++
        ('字' :: '第' :: (u4 ++ ((b0 :: d2') ++ (u5 ++
        '號' :: post))))))))))  := by
    simp
  have e1 : List.takeWhile isDigit (a0 :: (d1' ++ (u1 ++ ('年' :: '度' ::
      (u2 ++ ((w0 :: w') ++ (u3 ++ ('字' :: '第' :: (u4 ++ ((b0 :: d2') ++
      (u5 ++ '號' :: post))))))))))) = a0 :: d1' := by
    refine takeWhile_append_stop isDigit (a0 :: d1') _ hd1 ?_
    intro c hc
    cases u1 with
    | nil =>
      simp only [List.nil_append, List.head?, Option.some.injEq] at hc
      rw [← hc]; decide
    | cons y u1' =>
      simp only [List.cons_append, List.head?, Option.some.injEq] at hc
      rw [← hc]
      exact ws_not_digit y (hu1 y (by simp))
  have e2 : List.dropWhile isDigit (a0 :: (d1' ++ (u1 ++ ('年' :: '度' ::
      (u2 ++ ((w0 :: w') ++ (u3 ++ ('字' :: '第' :: (u4 ++ ((b0 :: d2') ++
      (u5 ++ '號' :: post))))))))))) = u1 ++ ('年' :: '度' :: (u2 ++
      ((w0 :: w') ++ (u3 ++ ('字' :: '第' :: (u4 ++ ((b0 :: d2') ++
      (u5 ++ '號' :: post)))))))) := by
    have h' : List.dropWhile isDigit ((a0 :: d1') ++ (u1 ++ ('年' :: '度' ::
        (u2 ++ ((w0 :: w') ++ (u3 ++ ('字' :: '第' :: (u4 ++ ((b0 :: d2') ++
        (u5 ++ '號' :: post)))))))))) = u1 ++ ('年' :: '度' :: (u2 ++
        ((w0 :: w') ++ (u3 ++ ('字' :: '第' :: (u4 ++ ((b0 :: d2') ++
        (u5 ++ '號' :: post)))))))) := by
      rw [dropWhile_append_all isDigit (a0 :: d1') _ hd1]
      cases u1 with
      | nil => exact List.dropWhile_cons_of_neg (by decide)
      | cons y u1' =>
        exact List.dropWhile_cons_of_neg
          (by rw [ws_not_digit y (hu1 y (by simp))]; decide)
    exact h' 
  have e3 : List.dropWhile isWs (u1 ++ ('年' :: '度' :: (u2 ++ ((w0 :: w') ++
      (u3 ++ ('字' :: '第' :: (u4 ++ ((b0 :: d2') ++ (u5 ++
      '號' :: post))))))))) = '年' :: '度' :: (u2 ++ ((w0 :: w') ++ (u3 ++
      ('字' :: '第' :: (u4 ++ ((b0 :: d2') ++ (u5 ++ '號' :: post))))))) := by
    rw [dropWhile_append_all isWs u1 _ hu1]
    exact List.dropWhile_cons_of_neg (by decide)
  have e4 : List.dropWhile isWs (u2 ++ ((w0 :: w') ++ (u3 ++ ('字' :: '第' ::
      (u4 ++ ((b0 :: d2') ++ (u5 ++ '號' :: post))))))) = (w0 :: w') ++
      (u3 ++ ('字' :: '第' :: (u4 ++ ((b0 :: d2') ++ (u5 ++
      '號' :: post))))) := by
    rw [dropWhile_append_all isWs u2 _ hu2]
    exact List.dropWhile_cons_of_neg
      (by rw [aw_not_ws w0 (hw w0 (by simp))]; decide)
  have e5 : List.takeWhile isAsciiWord ((w0 :: w') ++ (u3 ++ ('字' :: '第' ::
      (u4 ++ ((b0 :: d2') ++ (u5 ++ '號' :: post)))))) = w0 :: w' := by
    refine takeWhile_append_stop isAsciiWord (w0 :: w') _ hw ?_
    intro c hc
    cases u3 with
    | nil =>
      simp only [List.nil_append, List.head?, Option.some.injEq] at hc
      rw [← hc]; decide
    | cons y u3' =>
      simp only [List.cons_append, List.head?, Option.some.injEq] at hc
      rw [← hc]
      exact ws_not_aw y (hu3 y (by simp))
  have e6 : List.dropWhile isAsciiWord ((w0 :: w') ++ (u3 ++ ('字' :: '第' ::
      (u4 ++ ((b0 :: d2') ++ (u5 ++ '號' :: post)))))) = u3 ++
      ('字' :: '第' :: (u4 ++ ((b0 :: d2') ++ (u5 ++ '號' :: post)))) := by
    rw [dropWhile_append_all isAsciiWord (w0 :: w') _ hw]
    cases u3 with
    | nil => exact List.dropWhile_cons_of_neg (by decide)
    | cons y u3' =>
      exact List.dropWhile_cons_of_neg
        (by rw [ws_not_aw y (hu3 y (by simp))]; decide)
  have e7 : List.dropWhile isWs (u3 ++ ('字' :: '第' :: (u4 ++ ((b0 :: d2') ++
      (u5 ++ '號' :: post))))) = '字' :: '第' :: (u4 ++ ((b0 :: d2') ++
      (u5 ++ '號' :: post))) := by
    rw [dropWhile_append_all isWs u3 _ hu3]
    exact List.dropWhile_cons_of_neg (by decide)
  have e8 : List.dropWhile isWs (u4 ++ ((b0 :: d2') ++ (u5 ++
      '號' :: post))) = (b0 :: d2') ++ (u5 ++ '號' :: post) := by
    rw [dropWhile_append_all isWs u4 _ hu4]
    exact List.dropWhile_cons_of_neg
      (by rw [digit_not_ws b0 (hd2 b0 (by simp))]; decide)
  have e9 : List.takeWhile isDigit ((b0 :: d2') ++ (u5 ++ '號' :: post)) =
      b0 :: d2' := by
    refine takeWhile_append_stop isDigit (b0 :: d2') _ hd2 ?_
    intro c hc
    cases u5 with
    | nil =>
      simp only [List.nil_append, List.head?, Option.some.injEq] at hc
      rw [← hc]; decide
    | cons y u5' =>
      simp only [List.cons_append, List.head?, Option.some.injEq] at hc
      rw [← hc]
      exact ws_not_digit y (hu5 y (by simp))
  have e10 : List.dropWhile isDigit ((b0 :: d2') ++ (u5 ++ '號' :: post)) =
      u5 ++ '號' :: post := by
    rw [dropWhile_append_all isDigit (b0 :: d2') _ hd2]
    cases u5 with
    | nil => exact List.dropWhile_cons_of_neg (by decide)
    | cons y u5' =>
      exact List.dropWhile_cons_of_neg
        (by rw [ws_not_digit y (hu5 y (by simp))]; decide)
  have e11 : List.dropWhile isWs (u5 ++ '號' :: post) = '號' :: post := by
    rw [dropWhile_append_all isWs u5 _ hu5]
    exact List.dropWhile_cons_of_neg (by decide)
  rw [hR]
  simp only [tryCase]
  rw [if_pos (hd1 a0 (by simp))]
  rw [e2, e3]
  split
  · rename_i r2 heq
    injection heq with hy heq
    injection heq with hy2 heq
    subst heq
    rw [e4, e5]
    rw [if_neg (by simp)]
    rw [e6, e7]
    split
    · rename_i r5 heq2
      injection heq2 with hz heq2
      injection heq2 with hz2 heq2
      subst heq2
      rw [e8, e9]
      rw [if_neg (by simp)]
      rw [e10, e11]
      split
      · rename_i r8 heq3
        injection heq3 with hn heq3
        subst heq3
        rw [e1]
      · rename_i hx
        exact (hx post rfl).elim
    · rename_i hx
      exact (hx (u4 ++ ((b0 :: d2') ++ (u5 ++ '號' :: post))) rfl).elim
  · rename_i hx
    exact (hx (u2 ++ ((w0 :: w') ++ (u3 ++ ('字' :: '第' :: (u4 ++
      ((b0 :: d2') ++ (u5 ++ '號' :: post))))))) rfl).elim

/-- Head of an append with a non-empty left part. -/
theorem head?_append_left (a b : List Char) (h : a ≠ []) :
    (a ++ b).head? = a.head? := by
  cases a with
  | nil => exact absurd rfl h
  | cons x t => rfl

/-- A whitespace-free list is a chain for any relation that holds into
non-whitespace characters. -/
theorem chain'_of_nonws (Q : Char → Char → Prop)
    (hQ : ∀ a b, isWs b = false → Q a b) :
    ∀ (l : List Char), (∀ c ∈ l, isWs c = false) → List.Chain' Q l
  | [], _ => List.chain'_nil
  | [_], _ => List.chain'_singleton _
  | a :: b :: t, h => by
    rw [List.chain'_cons]
    exact ⟨hQ a b (h b (by simp)),
      chain'_of_nonws Q hQ (b :: t) (fun c hc => h c (by simp [hc]))⟩

/-- The article matcher's span package: the matched span, its non-emptiness,
and head, last and whitespace facts about the replacement. -/
theorem tryArticle_pack (l rep r' : List Char)
    (h : tryArticle l = some (rep, r')) :
    ∃ span, l = span ++ r' ∧ rep ≠ [] ∧ rep.head? = span.head? ∧
      rep.getLast? = span.getLast? ∧ ∀ c ∈ rep, isWs c = false := by
  cases l with
  | nil => exact Option.noConfusion h
  | cons c r =>
    obtain ⟨hc, w1, d, w2, hr, hrep, hw1, hd, hw2, hdne⟩ :=
      tryArticle_spec c r rep r' h
    subst hc
    refine ⟨('第' :: (w1 ++ d ++ w2)) ++ ['條'], ?_, ?_, ?_, ?_, ?_⟩
    · rw [hr]; simp
    · rw [hrep]; simp
    · rw [hrep]; rfl
    · rw [hrep]
      show (('第' :: d) ++ ['條']).getLast? = _
      rw [List.getLast?_concat, List.getLast?_concat]
    · intro x hx
      rw [hrep] at hx
      rcases List.mem_cons.mp hx with h1 | h1
      · subst h1; decide
      · rcases List.mem_append.mp h1 with h2 | h2
        · subst hd
          exact digit_not_ws x (List.mem_takeWhile_imp h2)
        · rw [List.mem_singleton.mp h2]; decide

/-- The case-number matcher's span package. -/
theorem tryCase_pack (l rep r' : List Char)
    (h : tryCase l = some (rep, r')) :
    ∃ span, l = span ++ r' ∧ rep ≠ [] ∧ rep.head? = span.head? ∧
      rep.getLast? = span.getLast? ∧ ∀ c ∈ rep, isWs c = false := by
  obtain ⟨d1, u1, u2, w, u3, u4, d2, u5, hl, hrep, hd1, hd1n, hu1, hu2, hw,
    hwn, hu3, hu4, hd2, hd2n, hu5⟩ := tryCase_spec l rep r' h
  refine ⟨d1 ++ u1 ++ ['年', '度'] ++ u2 ++ w ++ u3 ++ ['字', '第'] ++ u4 ++
    d2 ++ u5 ++ ['號'], ?_, ?_, ?_, ?_, ?_⟩
  · rw [hl]; simp
  · rw [hrep]
    cases d1 with
    | nil => exact absurd rfl hd1n
    | cons a t => simp
  · rw [hrep]
    cases d1 with
    | nil => exact absurd rfl hd1n
    | cons a t => simp
  · rw [hrep]
    rw [List.getLast?_concat, List.getLast?_concat]
  · intro x hx
    rw [hrep] at hx
    simp only [List.append_assoc, List.mem_append, List.mem_cons,
      List.not_mem_nil, or_false] at hx
    rcases hx with h1 | (h1 | h1) | h1 | (h1 | h1) | h1 | h1
    · exact digit_not_ws x (hd1 x h1)
    · subst h1; decide
    · subst h1; decide
    · exact aw_not_ws x (hw x h1)
    · subst h1; decide
    · subst h1; decide
    · exact digit_not_ws x (hd2 x h1)
    · subst h1; decide

/-- The scanner preserves any chain relation that holds into non-whitespace
characters, for matchers whose replacements are solid (whitespace-free,
non-empty, and agreeing with the span's first and last characters). -/
theorem scanGo_chain (tm : List Char → Option (List Char × List Char))
    (Q : Char → Char → Prop) (hQ : ∀ a b, isWs b = false → Q a b)
    (hspec : ∀ l rep r', tm l = some (rep, r') →
      ∃ span, l = span ++ r' ∧ rep ≠ [] ∧ rep.head? = span.head? ∧
        rep.getLast? = span.getLast? ∧ ∀ c ∈ rep, isWs c = false) :
    ∀ (fuel : Nat) (l : List Char), List.Chain' Q l →
      List.Chain' Q (scanGo tm fuel l) := by
  have hhead : ∀ l rep r', tm l = some (rep, r') → rep.head? = l.head? := by
    intro l rep r' htm
    obtain ⟨span, hl, hne, hh, _, _⟩ := hspec l rep r' htm
    have hsp : span ≠ [] := by
      intro he
      rw [he] at hh
      cases rep with
      | nil => exact hne rfl
      | cons a t => exact Option.noConfusion hh
    rw [hl, head?_append_left span r' hsp, hh]
  intro fuel
  induction fuel with
  | zero => intro l hl; exact hl
  | succ fuel ih =>
    intro l hl
    cases l with
    | nil => exact hl
    | cons c rest =>
      simp only [scanGo]
      cases htm : tm (c :: rest) with
      | none =>
        dsimp only
        rw [List.chain'_cons']
        refine ⟨?_, ih rest (List.chain'_cons'.mp hl).2⟩
        intro y hy
        rw [scanGo_head tm hhead fuel rest] at hy
        exact (List.chain'_cons'.mp hl).1 y hy
      | some pr =>
        obtain ⟨rep, r'⟩ := pr
        dsimp only
        obtain ⟨span, hsp, hne, hh, hlast, hws⟩ := hspec _ _ _ htm
        rw [hsp] at hl
        rw [List.chain'_append] at hl
        obtain ⟨hc1, hc2, hc3⟩ := hl
        rw [List.chain'_append]
        refine ⟨chain'_of_nonws Q hQ rep hws, ih r' hc2, ?_⟩
        intro x hx y hy
        rw [scanGo_head tm hhead fuel r'] at hy
        rw [hlast] at hx
        exact hc3 x hx y hy

/-- Chain transfer for the rewriter with empty insertion (pure deletion of
whitespace runs after trigger characters).  The input chain hypothesis is
weakened at exactly the pairs the rewriter deletes: whitespace following a
trigger. -/
theorem wsRunAux_chain_nil (trig : Char → Bool) (Q : Char → Char → Prop)
    (hskip : ∀ c z, trig c = true → isWs z = false → Q c z) :
    ∀ (l : List Char) (p d : Bool) (prev : Char),
      (d = false → List.Chain' (fun a b =>
          (isWs b = true → trig a = false → Q a b) ∧
          (isWs b = false → Q a b)) (prev :: l)) →
      (d = true → (∀ z, isWs z = false → Q prev z) ∧
        List.Chain' (fun a b =>
          (isWs b = true → trig a = false → Q a b) ∧
          (isWs b = false → Q a b)) l) →
      (d = false → p = trig prev) →
      List.Chain' Q (prev :: wsRunAux trig [] p d l) := by
  intro l
  induction l with
  | nil =>
    intro p d prev h1 h2 h3
    simp only [wsRunAux]
    exact List.chain'_singleton prev
  | cons c rest ih =>
    intro p d prev h1 h2 h3
    simp only [wsRunAux]
    by_cases hdw : (d && isWs c) = true
    · rw [if_pos hdw]
      obtain ⟨hd, hwc⟩ := Bool.and_eq_true_iff.mp hdw
      exact ih false true prev (fun hx => Bool.noConfusion hx)
        (fun _ => ⟨(h2 hd).1, (List.chain'_cons'.mp (h2 hd).2).2⟩)
        (fun hx => Bool.noConfusion hx)
    · rw [if_neg hdw]
      by_cases hpw : (p && isWs c) = true
      · rw [if_pos hpw]
        obtain ⟨hp, hwc⟩ := Bool.and_eq_true_iff.mp hpw
        have hd0 : d = false := by
          cases hd2 : d with
          | false => rfl
          | true => rw [hd2] at hdw; simp [hwc] at hdw
        have htp : trig prev = true := by rw [← h3 hd0]; exact hp
        have hrest : List.Chain' (fun a b =>
            (isWs b = true → trig a = false → Q a b) ∧
            (isWs b = false → Q a b)) rest :=
          (List.chain'_cons'.mp (List.chain'_cons'.mp (h1 hd0)).2).2
        simp only [List.nil_append]
        exact ih false true prev (fun hx => Bool.noConfusion hx)
          (fun _ => ⟨fun z hz => hskip prev z htp hz, hrest⟩)
          (fun hx => Bool.noConfusion hx)
      · rw [if_neg hpw]
        have hQpc : Q prev c := by
          cases hd2 : d with
          | true =>
            have hwc : isWs c = false := by
              cases hwc2 : isWs c with
              | false => rfl
              | true => rw [hd2, hwc2] at hdw; simp at hdw
            exact (h2 hd2).1 c hwc
          | false =>
            have hpair := (List.chain'_cons'.mp (h1 hd2)).1 c rfl
            cases hwc2 : isWs c with
            | false => exact hpair.2 hwc2
            | true =>
              have hp0 : p = false := by
                cases hp2 : p with
                | false => rfl
                | true => rw [hp2, hwc2] at hpw; simp at hpw
              have : trig prev = false := by rw [← h3 hd2, hp0]
              exact hpair.1 hwc2 this
        have hcrest : List.Chain' (fun a b =>
            (isWs b = true → trig a = false → Q a b) ∧
            (isWs b = false → Q a b)) (c :: rest) := by
          cases hd2 : d with
          | false => exact (List.chain'_cons'.mp (h1 hd2)).2
          | true => exact (h2 hd2).2
        rw [List.chain'_cons]
        exact ⟨hQpc, ih (trig c) false c (fun _ => hcrest)
          (fun hx => Bool.noConfusion hx) (fun _ => rfl)⟩

/-- Chain transfer for the rewriter with a one-character insertion. -/
theorem wsRunAux_chain_single (trig : Char → Bool) (i : Char)
    (Q : Char → Char → Prop)
    (htrigQ : ∀ c, trig c = true → Q c i)
    (hlast : ∀ z, isWs z = false → Q i z) :
    ∀ (l : List Char) (p d : Bool) (prev : Char),
      (d = false → List.Chain' (fun a b =>
          (isWs b = true → trig a = false → Q a b) ∧
          (isWs b = false → Q a b)) (prev :: l)) →
      (d = true → (∀ z, isWs z = false → Q prev z) ∧
        List.Chain' (fun a b =>
          (isWs b = true → trig a = false → Q a b) ∧
          (isWs b = false → Q a b)) l) →
      (d = false → p = trig prev) →
      List.Chain' Q (prev :: wsRunAux trig [i] p d l) := by
  intro l
  induction l with
  | nil =>
    intro p d prev h1 h2 h3
    simp only [wsRunAux]
    exact List.chain'_singleton prev
  | cons c rest ih =>
    intro p d prev h1 h2 h3
    simp only [wsRunAux]
    by_cases hdw : (d && isWs c) = true
    · rw [if_pos hdw]
      obtain ⟨hd, hwc⟩ := Bool.and_eq_true_iff.mp hdw
      exact ih false true prev (fun hx => Bool.noConfusion hx)
        (fun _ => ⟨(h2 hd).1, (List.chain'_cons'.mp (h2 hd).2).2⟩)
        (fun hx => Bool.noConfusion hx)
    · rw [if_neg hdw]
      by_cases hpw : (p && isWs c) = true
      · rw [if_pos hpw]
        obtain ⟨hp, hwc⟩ := Bool.and_eq_true_iff.mp hpw
        have hd0 : d = false := by
          cases hd2 : d with
          | false => rfl
          | true => rw [hd2] at hdw; simp [hwc] at hdw
        have htp : trig prev = true := by rw [← h3 hd0]; exact hp
        have hrest : List.Chain' (fun a b =>
            (isWs b = true → trig a = false → Q a b) ∧
            (isWs b = false → Q a b)) rest :=
          (List.chain'_cons'.mp (List.chain'_cons'.mp (h1 hd0)).2).2
        simp only [List.cons_append, List.nil_append]
        rw [List.chain'_cons]
        exact ⟨htrigQ prev htp, ih false true i (fun hx => Bool.noConfusion hx)
          (fun _ => ⟨fun z hz => hlast z hz, hrest⟩)
          (fun hx => Bool.noConfusion hx)⟩
      · rw [if_neg hpw]
        have hQpc : Q prev c := by
          cases hd2 : d with
          | true =>
            have hwc : isWs c = false := by
              cases hwc2 : isWs c with
              | false => rfl
              | true => rw [hd2, hwc2] at hdw; simp at hdw
            exact (h2 hd2).1 c hwc
          | false =>
            have hpair := (List.chain'_cons'.mp (h1 hd2)).1 c rfl
            cases hwc2 : isWs c with
            | false => exact hpair.2 hwc2
            | true =>
              have hp0 : p = false := by
                cases hp2 : p with
                | false => rfl
                | true => rw [hp2, hwc2] at hpw; simp at hpw
              have : trig prev = false := by rw [← h3 hd2, hp0]
              exact hpair.1 hwc2 this
        have hcrest : List.Chain' (fun a b =>
            (isWs b = true → trig a = false → Q a b) ∧
            (isWs b = false → Q a b)) (c :: rest) := by
          cases hd2 : d with
          | false => exact (List.chain'_cons'.mp (h1 hd2)).2
          | true => exact (h2 hd2).2
        rw [List.chain'_cons]
        exact ⟨hQpc, ih (trig c) false c (fun _ => hcrest)
          (fun hx => Bool.noConfusion hx) (fun _ => rfl)⟩

/-! ## Whitespace collapsing: output facts and the identity on normal
forms. -/

/-- Every whitespace character the collapser emits is a plain space. -/
theorem collapseWsAux_ws_all :
    ∀ (l : List Char) (b : Bool) (c : Char), c ∈ collapseWsAux b l →
      isWs c = true → c = ' '
  | [], b, c, hm, _ => absurd hm (by simp [collapseWsAux])
  | x :: rest, b, c, hm, hws => by
    simp only [collapseWsAux] at hm
    by_cases hx : isWs x = true
    · rw [if_pos hx] at hm
      cases b with
      | true => exact collapseWsAux_ws_all rest true c hm hws
      | false =>
        rcases List.mem_cons.mp hm with h | h
        · exact h
        · exact collapseWsAux_ws_all rest true c h hws
    · rw [if_neg hx] at hm
      rcases List.mem_cons.mp hm with h | h
      · rw [h] at hws; exact absurd hws (by simpa using hx)
      · exact collapseWsAux_ws_all rest false c h hws

/-- After a whitespace run has been emitted, the next emitted character is
not whitespace. -/
theorem collapseWsAux_head_true :
    ∀ (l : List Char) (x : Char), (collapseWsAux true l).head? = some x →
      isWs x = false
  | [], x, h => by simp [collapseWsAux] at h
  | c :: rest, x, h => by
    simp only [collapseWsAux] at h
    by_cases hc : isWs c = true
    · rw [if_pos hc] at h
      exact collapseWsAux_head_true rest x h
    · rw [if_neg hc] at h
      simp only [List.head?, Option.some.injEq] at h
      rw [← h]
      simpa using hc

/-- The collapser's output has no adjacent whitespace. -/
theorem collapseWsAux_noAdj :
    ∀ (l : List Char) (b : Bool),
      List.Chain' (fun a b => ¬ (isWs a = true ∧ isWs b = true))
        (collapseWsAux b l)
  | [], _ => List.chain'_nil
  | c :: rest, b => by
    simp only [collapseWsAux]
    by_cases hc : isWs c = true
    · rw [if_pos hc]
      cases b with
      | true => exact collapseWsAux_noAdj rest true
      | false =>
        rw [if_neg (by decide)]
        rw [List.chain'_cons']
        refine ⟨?_, collapseWsAux_noAdj rest true⟩
        intro y hy
        intro hcon
        rw [collapseWsAux_head_true rest y hy] at hcon
        exact Bool.noConfusion hcon.2
    · rw [if_neg hc]
      rw [List.chain'_cons']
      refine ⟨?_, collapseWsAux_noAdj rest false⟩
      intro y hy
      intro hcon
      exact hc hcon.1

/-- The collapsed text has only spaces for whitespace. -/
theorem collapseWs_wsAllSpace (l : List Char) : WsAllSpace (collapseWs l) :=
  fun c hm hws => collapseWsAux_ws_all l false c hm hws

/-- The collapsed text has no adjacent whitespace. -/
theorem collapseWs_noAdj (l : List Char) : NoAdjWs (collapseWs l) :=
  collapseWsAux_noAdj l false

/-- With a non-whitespace head the collapser's state is irrelevant. -/
theorem collapseWsAux_state (rest : List Char)
    (h : ∀ x, rest.head? = some x → isWs x = false) :
    collapseWsAux true rest = collapseWsAux false rest := by
  cases rest with
  | nil => rfl
  | cons x t =>
    have hx : isWs x = false := h x rfl
    simp [collapseWsAux, hx]

/-- On input without adjacent whitespace, collapsing only relaxes each
whitespace character to a space. -/
theorem collapseWs_eq_relax :
    ∀ (l : List Char), NoAdjWs l → collapseWs l = relaxWs l := by
  have aux : ∀ (l : List Char),
      List.Chain' (fun a b => ¬ (isWs a = true ∧ isWs b = true)) l →
      collapseWsAux false l = relaxWs l := by
    intro l
    induction l with
    | nil => intro _; rfl
    | cons c rest ih =>
      intro hch
      obtain ⟨hpair, htail⟩ := List.chain'_cons'.mp hch
      simp only [collapseWsAux, relaxWs, List.map_cons]
      by_cases hc : isWs c = true
      · rw [if_pos hc, if_pos hc]
        have hstate : collapseWsAux true rest = collapseWsAux false rest := by
          refine collapseWsAux_state rest ?_
          intro x hx
          cases hxw : isWs x with
          | false => rfl
          | true => exact absurd ⟨hc, hxw⟩ (hpair x hx)
        rw [hstate, ih htail]
        rfl
      · rw [if_neg hc, if_neg hc]
        rw [ih htail]
        rfl
  intro l hl
  exact aux l hl

/-! ## Pipeline support lemmas. -/

/-- Sentence-terminal punctuation is not whitespace. -/
theorem sentEnd_not_ws (c : Char) (h : isSentEnd c = true) :
    isWs c = false := by
  simp only [isSentEnd, Bool.or_eq_true, decide_eq_true_eq] at h
  rcases h with (h | h) | h <;> (subst h; decide)

/-- Non-whitespace on the right suffices for `QBase`. -/
theorem qbase_of_nonws (a b : Char) (h : isWs b = false) : QBase a b := by
  refine ⟨fun _ => h, fun hb => ?_, fun hb => ?_⟩
  · subst hb; exact absurd h (by decide)
  · subst hb; exact absurd h (by decide)

/-- Non-whitespace on the right suffices for `QFull`. -/
theorem qfull_of_nonws (a b : Char) (h : isWs b = false) : QFull a b :=
  ⟨qbase_of_nonws a b h, fun _ => h⟩

/-- Chains can be weakened using membership of both endpoints. -/
theorem chain'_imp_mem {P R : Char → Char → Prop} :
    ∀ (l : List Char), List.Chain' P l →
      (∀ a b, a ∈ l → b ∈ l → P a b → R a b) → List.Chain' R l
  | [], _, _ => List.chain'_nil
  | c :: rest, hch, himp => by
    obtain ⟨hpair, htail⟩ := List.chain'_cons'.mp hch
    rw [List.chain'_cons']
    refine ⟨?_, chain'_imp_mem rest htail ?_⟩
    · intro y hy
      exact himp c y (by simp) (List.mem_cons_of_mem c
        (List.mem_of_mem_head? hy)) (hpair y hy)
    · intro a b ha hb hp
      exact himp a b (List.mem_cons_of_mem c ha) (List.mem_cons_of_mem c hb) hp

/-- A chain on a middle segment of a chained concatenation. -/
theorem chain'_middle {Q : Char → Char → Prop} (a m b : List Char)
    (h : List.Chain' Q (a ++ m ++ b)) : List.Chain' Q m := by
  have h1 : List.Chain' Q (a ++ (m ++ b)) := by
    rw [← List.append_assoc]; exact h
  have h2 := (List.chain'_append.mp h1).2.1
  exact (List.chain'_append.mp h2).1

/-- The last element of a concatenation with a non-empty right part. -/
theorem getLast?_append_right :
    ∀ (a b : List Char), b ≠ [] → (a ++ b).getLast? = b.getLast?
  | [], _, _ => rfl
  | x :: a, b, h => by
    have ha := getLast?_append_right a b h
    rw [List.cons_append]
    cases hab : a ++ b with
    | nil => exact absurd (List.append_eq_nil.mp hab).2 h
    | cons z t =>
      rw [List.getLast?_cons_cons]
      rw [← hab]
      exact ha

/-- The head surviving `dropWhile` fails the predicate. -/
theorem dropWhile_head_not (p : Char → Bool) :
    ∀ (l : List Char) (c : Char), (l.dropWhile p).head? = some c →
      p c = false
  | [], c, h => by simp at h
  | x :: rest, c, h => by
    by_cases hx : p x = true
    · rw [List.dropWhile_cons_of_pos hx] at h
      exact dropWhile_head_not p rest c h
    · rw [List.dropWhile_cons_of_neg hx] at h
      simp only [List.head?, Option.some.injEq] at h
      rw [← h]
      simpa using hx

/-- The trimmed text sits between two whitespace blocks of the input. -/
theorem jsTrim_decomp (l : List Char) :
    ∃ a b, l = a ++ jsTrim l ++ b ∧ (∀ x ∈ a, isWs x = true) ∧
      (∀ x ∈ b, isWs x = true) := by
  refine ⟨l.takeWhile isWs,
    ((l.dropWhile isWs).reverse.takeWhile isWs).reverse, ?_, ?_, ?_⟩
  · simp only [List.append_assoc]
    conv_lhs => rw [← List.takeWhile_append_dropWhile isWs l]
    congr 1
    have h2 : (l.dropWhile isWs).reverse =
        (l.dropWhile isWs).reverse.takeWhile isWs ++
        (l.dropWhile isWs).reverse.dropWhile isWs :=
      (List.takeWhile_append_dropWhile _ _).symm
    calc l.dropWhile isWs = (l.dropWhile isWs).reverse.reverse := by
          rw [List.reverse_reverse]
    _ = ((l.dropWhile isWs).reverse.takeWhile isWs ++
        (l.dropWhile isWs).reverse.dropWhile isWs).reverse := by rw [← h2]
    _ = ((l.dropWhile isWs).reverse.dropWhile isWs).reverse ++
        ((l.dropWhile isWs).reverse.takeWhile isWs).reverse := by
          rw [List.reverse_append]
    _ = jsTrim l ++ ((l.dropWhile isWs).reverse.takeWhile isWs).reverse := rfl
  · intro x hx
    exact List.mem_takeWhile_imp hx
  · intro x hx
    exact List.mem_takeWhile_imp (List.mem_reverse.mp hx)

/-- The trimmed text does not start with whitespace. -/
theorem jsTrim_head (l : List Char) :
    ∀ c, (jsTrim l).head? = some c → isWs c = false := by
  intro c hc
  unfold jsTrim at hc
  rw [List.head?_reverse] at hc
  have hsplit := List.takeWhile_append_dropWhile isWs (l.dropWhile isWs).reverse
  have hne : (l.dropWhile isWs).reverse.dropWhile isWs ≠ [] := by
    intro h0
    rw [h0] at hc
    simp at hc
  have hgl := getLast?_append_right
    ((l.dropWhile isWs).reverse.takeWhile isWs)
    ((l.dropWhile isWs).reverse.dropWhile isWs) hne
  rw [hsplit] at hgl
  rw [hc] at hgl
  rw [List.getLast?_reverse] at hgl
  exact dropWhile_head_not isWs l c hgl

/-- The trimmed text does not end with whitespace. -/
theorem jsTrim_last (l : List Char) :
    ∀ c, (jsTrim l).getLast? = some c → isWs c = false := by
  intro c hc
  unfold jsTrim at hc
  rw [List.getLast?_reverse] at hc
  exact dropWhile_head_not isWs _ c hc

/-- Solid matchers preserve the head through a match. -/
theorem pack_head (tm : List Char → Option (List Char × List Char))
    (hspec : ∀ l rep r', tm l = some (rep, r') →
      ∃ span, l = span ++ r' ∧ rep ≠ [] ∧ rep.head? = span.head? ∧
        rep.getLast? = span.getLast? ∧ ∀ c ∈ rep, isWs c = false) :
    ∀ l rep r', tm l = some (rep, r') → rep.head? = l.head? := by
  intro l rep r' htm
  obtain ⟨span, hl, hne, hh, _, _⟩ := hspec l rep r' htm
  have hsp : span ≠ [] := by
    intro he
    rw [he] at hh
    cases rep with
    | nil => exact hne rfl
    | cons a t => exact Option.noConfusion hh
  rw [hl, head?_append_left span r' hsp, hh]

/-! ## Stage facts for the normalization pipeline. -/

/-- The collapsed text never starts with a newline. -/
theorem collapse_head_not_nl (l : List Char) :
    ∀ c, (collapseWs l).head? = some c → c ≠ '\n' := by
  intro c hc
  have hcm := List.mem_of_mem_head? hc
  cases hcw : isWs c with
  | true => rw [collapseWs_wsAllSpace l c hcm hcw]; decide
  | false =>
    intro he
    rw [he] at hcw
    exact absurd hcw (by decide)

/-- Sentence breaking on collapsed text yields the base pair constraints. -/
theorem break_stage (x : List Char) (hws : WsAllSpace x) (hadj : NoAdjWs x) :
    List.Chain' QBase (breakSentences x) := by
  have hmain := wsRunAux_chain_single isSentEnd '\n' QBase
    (fun c hc => ⟨fun hw => absurd hw (by simp [sentEnd_not_ws c hc]),
      fun _ => hc, fun hsp => absurd hsp (by decide)⟩)
    (fun z hz => qbase_of_nonws '\n' z hz)
    x false false 'A' ?_ ?_ ?_
  · exact (List.chain'_cons'.mp hmain).2
  · intro _
    rw [List.chain'_cons']
    constructor
    · intro y hy
      constructor
      · intro hwy _
        refine ⟨fun h => absurd h (by decide), fun hnl => ?_,
          fun _ => by decide⟩
        rw [hws y (List.mem_of_mem_head? hy) hwy] at hnl
        exact absurd hnl (by decide)
      · intro hwy
        exact qbase_of_nonws 'A' y hwy
    · refine chain'_imp_mem x hadj ?_
      intro a b ha hb hP
      constructor
      · intro hwb htrig
        refine ⟨fun hwa => absurd ⟨hwa, hwb⟩ hP, fun hnl => ?_, fun _ => ?_⟩
        · rw [hws b hb hwb] at hnl
          exact absurd hnl (by decide)
        · simpa using htrig
      · intro hwb
        exact qbase_of_nonws a b hwb
  · intro hx
    exact Bool.noConfusion hx
  · intro _
    decide

/-- Sentence breaking preserves the head. -/
theorem break_head (x : List Char) :
    (breakSentences x).head? = x.head? :=
  wsRunAux_head_ff isSentEnd ['\n'] x

/-- Sentence breaking turns all-space text into space-or-newline text. -/
theorem break_wsform (x : List Char) (hws : WsAllSpace x) :
    WsForm (breakSentences x) := by
  intro c hcm hcw
  rcases wsRunAux_mem isSentEnd ['\n'] x false false c hcm with h | h
  · exact Or.inl (hws c h hcw)
  · right
    simpa using h

/-- The article-rule projections of its span package. -/
theorem tryArticle_rep_ws (l rep r' : List Char)
    (h : tryArticle l = some (rep, r')) : ∀ c ∈ rep, isWs c = false := by
  obtain ⟨sp, _, _, _, _, hws⟩ := tryArticle_pack l rep r' h
  exact hws

/-- The article rule consumes a span. -/
theorem tryArticle_span (l rep r' : List Char)
    (h : tryArticle l = some (rep, r')) : ∃ span, l = span ++ r' := by
  obtain ⟨sp, hsp, _, _, _, _⟩ := tryArticle_pack l rep r' h
  exact ⟨sp, hsp⟩

/-- The case-rule projections of its span package. -/
theorem tryCase_rep_ws (l rep r' : List Char)
    (h : tryCase l = some (rep, r')) : ∀ c ∈ rep, isWs c = false := by
  obtain ⟨sp, _, _, _, _, hws⟩ := tryCase_pack l rep r' h
  exact hws

/-- The case rule consumes a span. -/
theorem tryCase_span (l rep r' : List Char)
    (h : tryCase l = some (rep, r')) : ∃ span, l = span ++ r' := by
  obtain ⟨sp, hsp, _, _, _, _⟩ := tryCase_pack l rep r' h
  exact ⟨sp, hsp⟩

/-- The article stage preserves base pair constraints. -/
theorem artStage_chain (x : List Char) (h : List.Chain' QBase x) :
    List.Chain' QBase (fixArticleNumbers x) :=
  scanGo_chain tryArticle QBase (fun a b hb => qbase_of_nonws a b hb)
    tryArticle_pack x.length x h

/-- The article stage preserves the head. -/
theorem artStage_head (x : List Char) :
    (fixArticleNumbers x).head? = x.head? :=
  scanGo_head tryArticle (pack_head tryArticle tryArticle_pack) x.length x

/-- The article stage preserves the whitespace form. -/
theorem artStage_wsform (x : List Char) (h : WsForm x) :
    WsForm (fixArticleNumbers x) := by
  intro c hcm hcw
  exact h c (scanGo_ws_mem tryArticle tryArticle_rep_ws tryArticle_span
    x.length x c hcm hcw) hcw

/-- The case-number stage preserves base pair constraints. -/
theorem caseStage_chain (x : List Char) (h : List.Chain' QBase x) :
    List.Chain' QBase (fixCaseNumbers x) :=
  scanGo_chain tryCase QBase (fun a b hb => qbase_of_nonws a b hb)
    tryCase_pack x.length x h

/-- The case-number stage preserves the head. -/
theorem caseStage_head (x : List Char) :
    (fixCaseNumbers x).head? = x.head? :=
  scanGo_head tryCase (pack_head tryCase tryCase_pack) x.length x

/-- The case-number stage preserves the whitespace form. -/
theorem caseStage_wsform (x : List Char) (h : WsForm x) :
    WsForm (fixCaseNumbers x) := by
  intro c hcm hcw
  exact h c (scanGo_ws_mem tryCase tryCase_rep_ws tryCase_span
    x.length x c hcm hcw) hcw

/-- The comma stage establishes the full pair constraints. -/
theorem comma_stage (x : List Char) (hch : List.Chain' QBase x)
    (hhead : ∀ c, x.head? = some c → c ≠ '\n') :
    List.Chain' QFull (fixCommaSpacing x) := by
  have hmain := wsRunAux_chain_nil (fun c => c = '，') QFull
    (fun c z _ hz => qfull_of_nonws c z hz)
    x false false 'A' ?_ ?_ ?_
  · exact (List.chain'_cons'.mp hmain).2
  · intro _
    rw [List.chain'_cons']
    constructor
    · intro y hy
      constructor
      · intro hwy _
        refine ⟨⟨fun h => absurd h (by decide), fun hnl => ?_,
          fun _ => by decide⟩, fun hA => absurd hA (by decide)⟩
        exact absurd hnl (hhead y hy)
      · intro hwy
        exact qfull_of_nonws 'A' y hwy
    · refine chain'_imp_mem x hch ?_
      intro a b _ _ hP
      constructor
      · intro hwb htrig
        refine ⟨hP, fun hA => ?_⟩
        exact absurd hA (of_decide_eq_false htrig)
      · intro hwb
        exact qfull_of_nonws a b hwb
  · intro hx
    exact Bool.noConfusion hx
  · intro _
    decide

/-- The comma stage preserves the head. -/
theorem comma_head (x : List Char) :
    (fixCommaSpacing x).head? = x.head? :=
  wsRunAux_head_ff (fun c => c = '，') [] x

/-- The comma stage preserves the whitespace form. -/
theorem comma_wsform (x : List Char) (h : WsForm x) :
    WsForm (fixCommaSpacing x) := by
  intro c hcm hcw
  rcases wsRunAux_mem (fun c => c = '，') [] x false false c hcm with hm | hm
  · exact h c hm hcw
  · exact absurd hm (by simp)

/-- The period stage preserves the full pair constraints. -/
theorem period_stage (x : List Char) (hch : List.Chain' QFull x)
    (hhead : ∀ c, x.head? = some c → c ≠ '\n') :
    List.Chain' QFull (fixPeriodSpacing x) := by
  have hmain := wsRunAux_chain_single (fun c => c = '。') '\n' QFull
    (fun c hc => by
      have hc' : c = '。' := of_decide_eq_true hc
      subst hc'
      exact ⟨⟨fun h => absurd h (by decide), fun _ => by decide,
        fun h => absurd h (by decide)⟩, fun h => absurd h (by decide)⟩)
    (fun z hz => qfull_of_nonws '\n' z hz)
    x false false 'A' ?_ ?_ ?_
  · exact (List.chain'_cons'.mp hmain).2
  · intro _
    rw [List.chain'_cons']
    constructor
    · intro y hy
      constructor
      · intro hwy _
        refine ⟨⟨fun h => absurd h (by decide), fun hnl => ?_,
          fun _ => by decide⟩, fun hA => absurd hA (by decide)⟩
        exact absurd hnl (hhead y hy)
      · intro hwy
        exact qfull_of_nonws 'A' y hwy
    · refine chain'_imp_mem x hch ?_
      intro a b _ _ hP
      constructor
      · intro _ _
        exact hP
      · intro hwb
        exact qfull_of_nonws a b hwb
  · intro hx
    exact Bool.noConfusion hx
  · intro _
    decide

/-- The period stage preserves the head. -/
theorem period_head (x : List Char) :
    (fixPeriodSpacing x).head? = x.head? :=
  wsRunAux_head_ff (fun c => c = '。') ['\n'] x

/-- The period stage preserves the whitespace form. -/
theorem period_wsform (x : List Char) (h : WsForm x) :
    WsForm (fixPeriodSpacing x) := by
  intro c hcm hcw
  rcases wsRunAux_mem (fun c => c = '。') ['\n'] x false false c hcm with hm | hm
  · exact h c hm hcw
  · right
    simpa using hm

/-- Trimming a fully constrained text produces the whitespace normal form. -/
theorem trim_normal (x : List Char) (hch : List.Chain' QFull x)
    (hws : WsForm x) : NormalForm (jsTrim x) := by
  obtain ⟨ta, tb, hdec, _, _⟩ := jsTrim_decomp x
  have hych : List.Chain' QFull (jsTrim x) := by
    refine chain'_middle ta (jsTrim x) tb ?_
    rw [← hdec]
    exact hch
  refine ⟨?_, ?_, ⟨?_, ?_⟩, ?_, ?_, ?_, ?_⟩
  · refine hych.imp ?_
    intro a b hq hcon
    rw [hq.1.1 hcon.1] at hcon
    exact Bool.noConfusion hcon.2
  · intro c hcm hcw
    refine hws c ?_ hcw
    rw [hdec]
    simp only [List.append_assoc, List.mem_append]
    exact Or.inr (Or.inl hcm)
  · intro c hc
    intro he
    rw [he] at hc
    have := jsTrim_head x '\n' hc
    exact absurd this (by decide)
  · refine hych.imp ?_
    intro a b hq
    exact hq.1.2.1
  · refine hych.imp ?_
    intro a b hq
    exact hq.1.2.2
  · refine hych.imp ?_
    intro a b hq
    exact hq.2
  · exact jsTrim_head x
  · exact jsTrim_last x

/-- Normalization steps 2 through 7 produce the whitespace normal form. -/
theorem cleanSteps2to7_normal (l : List Char) :
    NormalForm (cleanSteps2to7 l) := by
  have h1ws := collapseWs_wsAllSpace l
  have h1adj := collapseWs_noAdj l
  have h1nl := collapse_head_not_nl l
  have h2ch := break_stage (collapseWs l) h1ws h1adj
  have h2ws := break_wsform (collapseWs l) h1ws
  have h2nl : ∀ c, (breakSentences (collapseWs l)).head? = some c →
      c ≠ '\n' := by
    intro c hc
    rw [break_head] at hc
    exact h1nl c hc
  have h3ch := artStage_chain _ h2ch
  have h3ws := artStage_wsform _ h2ws
  have h3nl : ∀ c,
      (fixArticleNumbers (breakSentences (collapseWs l))).head? = some c →
      c ≠ '\n' := by
    intro c hc
    rw [artStage_head] at hc
    exact h2nl c hc
  have h4ch := caseStage_chain _ h3ch
  have h4ws := caseStage_wsform _ h3ws
  have h4nl : ∀ c, (fixCaseNumbers (fixArticleNumbers (breakSentences
      (collapseWs l)))).head? = some c → c ≠ '\n' := by
    intro c hc
    rw [caseStage_head] at hc
    exact h3nl c hc
  have h5ch := comma_stage _ h4ch h4nl
  have h5ws := comma_wsform _ h4ws
  have h5nl : ∀ c, (fixCommaSpacing (fixCaseNumbers (fixArticleNumbers
      (breakSentences (collapseWs l))))).head? = some c → c ≠ '\n' := by
    intro c hc
    rw [comma_head] at hc
    exact h4nl c hc
  have h6ch := period_stage _ h5ch h5nl
  have h6ws := period_wsform _ h5ws
  exact trim_normal _ h6ch h6ws

/-! ## Second-pass identities on the whitespace normal form. -/

/-- `dropWhile` is the identity when the head already fails the predicate. -/
theorem dropWhile_id_of_head (p : Char → Bool) (l : List Char)
    (h : ∀ c, l.head? = some c → p c = false) : l.dropWhile p = l := by
  cases l with
  | nil => rfl
  | cons c rest =>
    exact List.dropWhile_cons_of_neg (by rw [h c rfl]; exact Bool.false_ne_true)

/-- Trimming is the identity on text with clean ends. -/
theorem jsTrim_id (y : List Char) (hh : HeadNotWs y) (hl : LastNotWs y) :
    jsTrim y = y := by
  unfold jsTrim
  rw [dropWhile_id_of_head isWs y hh]
  rw [dropWhile_id_of_head isWs y.reverse]
  · rw [List.reverse_reverse]
  · intro c hc
    rw [List.head?_reverse] at hc
    exact hl c hc

/-- The article stage is the identity on article-clean text. -/
theorem fixArticle_id (y : List Char) (h : artClean y = true) :
    fixArticleNumbers y = y := by
  unfold fixArticleNumbers scanRep
  refine scanGo_id tryArticle (fun l => artClean l = true) ?_ ?_ y.length y h
  · intro l hl rep r' htm
    cases l with
    | nil => exact Option.noConfusion htm
    | cons c rest =>
      have hok : artOkAt (c :: rest) = true := by
        have := hl
        simp only [artClean, Bool.and_eq_true] at this
        exact this.1
      unfold artOkAt at hok
      rw [htm] at hok
      exact eq_of_beq hok
  · intro c rest hl
    simp only [artClean, Bool.and_eq_true] at hl
    exact hl.2

/-- The case-number stage is the identity on case-clean text. -/
theorem fixCase_id (y : List Char) (h : caseClean y = true) :
    fixCaseNumbers y = y := by
  unfold fixCaseNumbers scanRep
  refine scanGo_id tryCase (fun l => caseClean l = true) ?_ ?_ y.length y h
  · intro l hl rep r' htm
    cases l with
    | nil => exact Option.noConfusion htm
    | cons c rest =>
      have hok : caseOkAt (c :: rest) = true := by
        have := hl
        simp only [caseClean, Bool.and_eq_true] at this
        exact this.1
      unfold caseOkAt at hok
      rw [htm] at hok
      exact eq_of_beq hok
  · intro c rest hl
    simp only [caseClean, Bool.and_eq_true] at hl
    exact hl.2

/-- The comma stage is the identity when no whitespace follows a comma. -/
theorem comma_id :
    ∀ (y : List Char) (p : Bool),
      List.Chain' (fun a b => a = '，' → isWs b = false) y →
      (p = true → ∀ c, y.head? = some c → isWs c = false) →
      wsRunAux (fun c => c = '，') [] p false y = y
  | [], _, _, _ => rfl
  | c :: r, p, hch, hhead => by
    obtain ⟨hpair, htail⟩ := List.chain'_cons'.mp hch
    simp only [wsRunAux]
    rw [if_neg (by simp)]
    have hpw : (p && isWs c) = false := by
      cases hp : p with
      | false => rfl
      | true =>
        rw [hhead hp c rfl]
        rfl
    rw [if_neg (by simp [hpw])]
    rw [comma_id r (decide (c = '，')) htail ?_]
    intro hp y2 hy2
    have hc : c = '，' := of_decide_eq_true hp
    exact hpair y2 hy2 hc

/-- The period stage is the identity on the whitespace normal form. -/
theorem period_id :
    ∀ (y : List Char) (p : Bool),
      WsForm y → List.Chain' QFull y →
      (p = true → ∀ c, y.head? = some c → isWs c = true → c = '\n') →
      wsRunAux (fun c => c = '。') ['\n'] p false y = y
  | [], _, _, _, _ => rfl
  | c :: r, p, hws, hch, hhead => by
    obtain ⟨hpair, htail⟩ := List.chain'_cons'.mp hch
    simp only [wsRunAux]
    rw [if_neg (by simp)]
    by_cases hwc : isWs c = true
    · cases hp : p with
      | false =>
        rw [if_neg (by simp)]
        rw [period_id r (decide (c = '。')) (fun x hx hw => hws x
          (List.mem_cons_of_mem c hx) hw) htail ?_]
        intro hptr
        have hc : c = '。' := of_decide_eq_true hptr
        rw [hc] at hwc
        exact absurd hwc (by decide)
      | true =>
        rw [if_pos (by simp [hwc])]
        have hc : c = '\n' := hhead hp c rfl hwc
        have hrhead : ∀ x, r.head? = some x → isWs x = false := by
          intro x hx
          cases hxw : isWs x with
          | false => rfl
          | true => exact absurd hxw (by simpa using (hpair x hx).1.1 hwc)
        rw [wsRunAux_state_nonws _ _ r hrhead false true]
        rw [period_id r false (fun x hx hw => hws x
          (List.mem_cons_of_mem c hx) hw) htail
          (fun hx => Bool.noConfusion hx)]
        rw [hc]
        rfl
    · rw [if_neg (by simp [hwc])]
      rw [period_id r (decide (c = '。')) (fun x hx hw => hws x
        (List.mem_cons_of_mem c hx) hw) htail ?_]
      intro hptr x hx hxw
      have hc : c = '。' := of_decide_eq_true hptr
      rcases hws x (List.mem_cons_of_mem c (List.mem_of_mem_head? hx)) hxw
        with hsp | hnl
      · exfalso
        have h3 := (hpair x hx).1.2.2 hsp
        rw [hc] at h3
        exact absurd h3 (by decide)
      · exact hnl

/-- Breaking sentences after relaxing is the identity on the whitespace
normal form: each newline (which sits after sentence punctuation) is first
relaxed to a space and then restored by the rule. -/
theorem break_relax :
    ∀ (y : List Char) (p : Bool),
      WsForm y → List.Chain' QFull y →
      (p = true → ∀ c, y.head? = some c → isWs c = true → c = '\n') →
      (p = false → ∀ c, y.head? = some c → c ≠ '\n') →
      wsRunAux isSentEnd ['\n'] p false (relaxWs y) = y
  | [], _, _, _, _, _ => rfl
  | c :: r, p, hws, hch, hpt, hpf => by
    obtain ⟨hpair, htail⟩ := List.chain'_cons'.mp hch
    have hwsr : WsForm r := fun x hx hw => hws x (List.mem_cons_of_mem c hx) hw
    have hrel : relaxWs (c :: r) =
        (if isWs c = true then ' ' else c) :: relaxWs r := rfl
    rw [hrel]
    by_cases hwc : isWs c = true
    · rw [if_pos hwc]
      have hrhead : ∀ x, r.head? = some x → isWs x = false := by
        intro x hx
        cases hxw : isWs x with
        | false => rfl
        | true => exact absurd hxw (by simpa using (hpair x hx).1.1 hwc)
      have hrnl : ∀ x, r.head? = some x → x ≠ '\n' := by
        intro x hx he
        have := hrhead x hx
        rw [he] at this
        exact absurd this (by decide)
      have hIH : wsRunAux isSentEnd ['\n'] false false (relaxWs r) = r :=
        break_relax r false hwsr htail (fun hx => Bool.noConfusion hx)
          (fun _ => hrnl)
      simp only [wsRunAux]
      rw [if_neg (by simp)]
      cases hp : p with
      | true =>
        rw [if_pos (by decide)]
        have hc : c = '\n' := hpt hp c rfl hwc
        have hrelaxhead : ∀ x, (relaxWs r).head? = some x →
            isWs x = false := by
          intro x hx
          cases hr : r with
          | nil => rw [hr] at hx; simp [relaxWs] at hx
          | cons h t =>
            rw [hr] at hx
            have hrel2 : relaxWs (h :: t) =
                (if isWs h = true then ' ' else h) :: relaxWs t := rfl
            rw [hrel2] at hx
            simp only [List.head?, Option.some.injEq] at hx
            have hh : isWs h = false := hrhead h (by rw [hr]; rfl)
            rw [← hx]
            rw [if_neg (by simp [hh])]
            exact hh
        rw [wsRunAux_state_nonws _ _ (relaxWs r) hrelaxhead false true]
        rw [hIH, hc]
        rfl
      | false =>
        rw [if_neg (by simp)]
        have hc : c = ' ' := by
          rcases hws c (by simp) hwc with h | h
          · exact h
          · exact absurd h (hpf hp c rfl)
        have hse : isSentEnd ' ' = false := by decide
        rw [hse]
        have hrnl2 : ∀ x, r.head? = some x → x ≠ '\n' := by
          intro x hx he
          have h2 := (hpair x hx).1.2.1 he
          rw [hc] at h2
          exact absurd h2 (by decide)
        rw [break_relax r false hwsr htail (fun hx => Bool.noConfusion hx)
          (fun _ => hrnl2)]
        rw [hc]
    · rw [if_neg hwc]
      simp only [wsRunAux]
      rw [if_neg (by simp)]
      rw [if_neg (by simp [hwc])]
      have hp't : isSentEnd c = true → ∀ x, r.head? = some x →
          isWs x = true → x = '\n' := by
        intro hsc x hx hxw
        rcases hws x (List.mem_cons_of_mem c (List.mem_of_mem_head? hx)) hxw
          with h | h
        · exfalso
          have h3 := (hpair x hx).1.2.2 h
          rw [h3] at hsc
          exact Bool.noConfusion hsc
        · exact h
      have hp'f : isSentEnd c = false → ∀ x, r.head? = some x →
          x ≠ '\n' := by
        intro hsc x hx he
        have h2 := (hpair x hx).1.2.1 he
        rw [h2] at hsc
        exact Bool.noConfusion hsc
      rw [break_relax r (isSentEnd c) hwsr htail hp't hp'f]

/-! ## Loose occurrences and per-position cleanliness. -/

/-- A failure of article cleanliness exhibits a loose article occurrence. -/
theorem artClean_false_loose :
    ∀ (y : List Char), artClean y = false → LooseArt y
  | [], h => absurd h (by simp [artClean])
  | c :: r, h => by
    rw [artClean, Bool.and_eq_false_iff] at h
    rcases h with h | h
    · unfold artOkAt at h
      cases htm : tryArticle (c :: r) with
      | none => rw [htm] at h; exact absurd h (by simp)
      | some pr =>
        obtain ⟨rep, rest'⟩ := pr
        rw [htm] at h
        dsimp only at h
        have hne : rep ++ rest' ≠ c :: r := by
          intro he
          rw [he] at h
          simp at h
        obtain ⟨hc, w1, d, w2, hr, hrep, hw1, hd, hw2, hdne⟩ :=
          tryArticle_spec c r rep rest' htm
        subst hc
        refine ⟨[], w1, d, w2, rest', by rw [hr]; rfl, ?_, ?_, hdne, ?_, ?_⟩
        · intro x hx
          rw [hw1] at hx
          exact List.mem_takeWhile_imp hx
        · intro x hx
          rw [hd] at hx
          exact List.mem_takeWhile_imp hx
        · intro x hx
          rw [hw2] at hx
          exact List.mem_takeWhile_imp hx
        · intro hnil
          obtain ⟨h1, h2⟩ := List.append_eq_nil.mp hnil
          subst h1
          subst h2
          apply hne
          rw [hrep, hr]
          simp
    · obtain ⟨pre, u1, ds, u2, post, hl, h1, h2, h3, h4, h5⟩ :=
        artClean_false_loose r h
      exact ⟨c :: pre, u1, ds, u2, post, by rw [hl]; rfl, h1, h2, h3, h4, h5⟩

/-- A failure of case-number cleanliness exhibits a loose case
occurrence. -/
theorem caseClean_false_loose :
    ∀ (y : List Char), caseClean y = false → LooseCase y
  | [], h => absurd h (by simp [caseClean])
  | c :: r, h => by
    rw [caseClean, Bool.and_eq_false_iff] at h
    rcases h with h | h
    · unfold caseOkAt at h
      cases htm : tryCase (c :: r) with
      | none => rw [htm] at h; exact absurd h (by simp)
      | some pr =>
        obtain ⟨rep, rest'⟩ := pr
        rw [htm] at h
        dsimp only at h
        have hne : rep ++ rest' ≠ c :: r := by
          intro he
          rw [he] at h
          simp at h
        obtain ⟨d1, u1, u2, w, u3, u4, d2, u5, hl, hrep, hd1, hd1n, hu1, hu2,
          hw, hwn, hu3, hu4, hd2, hd2n, hu5⟩ :=
          tryCase_spec (c :: r) rep rest' htm
        refine ⟨[], d1, u1, u2, w, u3, u4, d2, u5, rest',
          by rw [hl]; simp, hd1, hd1n, hu1, hu2, hw, hwn, hu3, hu4, hd2,
          hd2n, hu5, ?_⟩
        intro hnil
        obtain ⟨h1, h2⟩ := List.append_eq_nil.mp hnil
        obtain ⟨h3, h4⟩ := List.append_eq_nil.mp h1
        obtain ⟨h5, h6⟩ := List.append_eq_nil.mp h3
        obtain ⟨h7, h8⟩ := List.append_eq_nil.mp h5
        subst h2; subst h4; subst h6; subst h7; subst h8
        apply hne
        rw [hrep, hl]
        simp
    · obtain ⟨pre, d1, u1, u2, w, u3, u4, d2, u5, post, hl, hx⟩ :=
        caseClean_false_loose r h
      exact ⟨c :: pre, d1, u1, u2, w, u3, u4, d2, u5, post,
        by rw [hl]; rfl, hx⟩

/-- Article cleanliness from absence of loose occurrences. -/
theorem artClean_of_notLoose (y : List Char) (h : ¬ LooseArt y) :
    artClean y = true := by
  cases hc : artClean y with
  | true => rfl
  | false => exact absurd (artClean_false_loose y hc) h

/-- Case cleanliness from absence of loose occurrences. -/
theorem caseClean_of_notLoose (y : List Char) (h : ¬ LooseCase y) :
    caseClean y = true := by
  cases hc : caseClean y with
  | true => rfl
  | false => exact absurd (caseClean_false_loose y hc) h

/-! ## Lifting loose occurrences back through the whitespace stages. -/

/-- A trigger-free prefix of the rewriter's output (from the start state) is
a prefix of the input. -/
theorem wsRunAux_prefix_lift (trig : Char → Bool) (ins : List Char) :
    ∀ (p : List Char), (∀ c ∈ p, trig c = false) →
      ∀ (l : List Char), (∃ q, wsRunAux trig ins false false l = p ++ q) →
      ∃ q', l = p ++ q'
  | [], _, l, _ => ⟨l, rfl⟩
  | c :: p', hp, l, ⟨q, hq⟩ => by
    cases l with
    | nil => exact absurd hq (by simp [wsRunAux])
    | cons d r =>
      simp only [wsRunAux] at hq
      rw [if_neg (by simp), if_neg (by simp)] at hq
      simp only [List.cons_append, List.cons.injEq] at hq
      obtain ⟨hdc, hq'⟩ := hq
      subst hdc
      have htc : trig d = false := hp d (by simp)
      rw [htc] at hq'
      obtain ⟨q', hq''⟩ := wsRunAux_prefix_lift trig ins p'
        (fun x hx => hp x (by simp [hx])) r ⟨q, hq'⟩
      exact ⟨q', by rw [hq'']; rfl⟩

/-- A trigger-free, newline-free-headed segment of the rewriter's output is
a segment of the input. -/
theorem wsRunAux_infix_lift (trig : Char → Bool) (ins : List Char)
    (hins : ins = [] ∨ ins = ['\n'])
    (p : List Char) (hp : ∀ c ∈ p, trig c = false)
    (hh : ∀ c, p.head? = some c → c ≠ '\n') :
    ∀ (l : List Char) (pp dd : Bool) (pre post : List Char),
      wsRunAux trig ins pp dd l = pre ++ p ++ post →
      ∃ pre' post', l = pre' ++ p ++ post'
  | [], pp, dd, pre, post, heq => by
    simp only [wsRunAux] at heq
    obtain ⟨h1, hpost⟩ := List.append_eq_nil.mp heq.symm
    obtain ⟨hpre, hpn⟩ := List.append_eq_nil.mp h1
    exact ⟨[], [], by rw [hpn]; rfl⟩
  | c :: r, pp, dd, pre, post, heq => by
    simp only [wsRunAux] at heq
    by_cases hdw : (dd && isWs c) = true
    · rw [if_pos hdw] at heq
      obtain ⟨pre', post', hl⟩ :=
        wsRunAux_infix_lift trig ins hins p hp hh r false true pre post heq
      exact ⟨c :: pre', post', by rw [hl]; rfl⟩
    · rw [if_neg hdw] at heq
      by_cases hpw : (pp && isWs c) = true
      · rw [if_pos hpw] at heq
        obtain ⟨W, hW⟩ : ∃ W, wsRunAux trig ins false true r = W := ⟨_, rfl⟩
        rw [hW] at heq
        rcases hins with hi | hi
        · rw [hi] at heq
          rw [List.nil_append] at heq
          obtain ⟨pre', post', hl⟩ := wsRunAux_infix_lift trig ins
            (Or.inl hi) p hp hh r false true pre post (by rw [hW]; exact heq)
          exact ⟨c :: pre', post', by rw [hl]; rfl⟩
        · rw [hi] at heq
          cases pre with
          | nil =>
            cases hp0 : p with
            | nil => exact ⟨[], c :: r, by simp⟩
            | cons x pt =>
              rw [hp0] at heq
              simp only [List.nil_append, List.cons_append,
                List.cons.injEq] at heq
              exact absurd heq.1.symm (hh x (by rw [hp0]; rfl))
          | cons z pre' =>
            simp only [List.cons_append, List.cons.injEq] at heq
            obtain ⟨pre2, post2, hl⟩ := wsRunAux_infix_lift trig ins
              (Or.inr hi) p hp hh r false true pre' post
              (by rw [hW]; exact heq.2)
            exact ⟨c :: pre2, post2, by rw [hl]; rfl⟩
      · rw [if_neg hpw] at heq
        cases pre with
        | nil =>
          cases hp0 : p with
          | nil => exact ⟨[], c :: r, by simp⟩
          | cons x pt =>
            rw [hp0] at heq
            simp only [List.nil_append, List.cons_append,
              List.cons.injEq] at heq
            obtain ⟨hcx, heq'⟩ := heq
            have htc : trig c = false := by
              rw [hcx]
              exact hp x (by rw [hp0]; simp)
            rw [htc] at heq'
            obtain ⟨q', hq⟩ := wsRunAux_prefix_lift trig ins pt
              (fun a ha => hp a (by rw [hp0]; simp [ha])) r ⟨post, heq'⟩
            refine ⟨[], q', ?_⟩
            rw [hq, hcx]
            rfl
        | cons z pre' =>
          simp only [List.cons_append, List.cons.injEq] at heq
          obtain ⟨hcz, heq'⟩ := heq
          obtain ⟨pre2, post2, hl⟩ := wsRunAux_infix_lift trig ins hins
            p hp hh r (trig c) false pre' post heq'
          exact ⟨c :: pre2, post2, by rw [hl]; rfl⟩

/-- Loose article occurrences lift back through a whitespace stage whose
trigger is inert on the pattern's characters. -/
theorem looseArt_lift_wsRun (trig : Char → Bool) (ins : List Char)
    (hins : ins = [] ∨ ins = ['\n'])
    (ht1 : trig '第' = false) (ht2 : trig '條' = false)
    (htw : ∀ c, isWs c = true → trig c = false)
    (htd : ∀ c, isDigit c = true → trig c = false)
    (x : List Char) :
    LooseArt (wsRunAux trig ins false false x) → LooseArt x := by
  rintro ⟨pre, u1, ds, u2, post, hl, hu1, hds, hdne, hu2, hne⟩
  have hl' : wsRunAux trig ins false false x =
      pre ++ ('第' :: (u1 ++ ds ++ u2 ++ ['條'])) ++ post := by
    rw [hl]
    simp
  have hp : ∀ c ∈ '第' :: (u1 ++ ds ++ u2 ++ ['條']), trig c = false := by
    intro c hc
    rcases List.mem_cons.mp hc with h | h
    · rw [h]; exact ht1
    · simp only [List.append_assoc, List.mem_append, List.mem_cons,
        List.not_mem_nil, or_false] at h
      rcases h with h | h | h | h
      · exact htw c (hu1 c h)
      · exact htd c (hds c h)
      · exact htw c (hu2 c h)
      · rw [h]; exact ht2
  obtain ⟨pre', post', hx⟩ := wsRunAux_infix_lift trig ins hins
    ('第' :: (u1 ++ ds ++ u2 ++ ['條'])) hp
    (fun c hc => by
      simp only [List.head?, Option.some.injEq] at hc
      rw [← hc]; decide)
    x false false pre post hl'
  refine ⟨pre', u1, ds, u2, post', ?_, hu1, hds, hdne, hu2, hne⟩
  rw [hx]
  simp

/-- Loose case-number occurrences lift back through a whitespace stage whose
trigger is inert on the pattern's characters. -/
theorem looseCase_lift_wsRun (trig : Char → Bool) (ins : List Char)
    (hins : ins = [] ∨ ins = ['\n'])
    (hts : trig '年' = false ∧ trig '度' = false ∧ trig '字' = false ∧
      trig '第' = false ∧ trig '號' = false)
    (htw : ∀ c, isWs c = true → trig c = false)
    (htd : ∀ c, isDigit c = true → trig c = false)
    (hta : ∀ c, isAsciiWord c = true → trig c = false)
    (x : List Char) :
    LooseCase (wsRunAux trig ins false false x) → LooseCase x := by
  rintro ⟨pre, d1, u1, u2, w, u3, u4, d2, u5, post, hl, hd1, hd1n, hu1, hu2,
    hw, hwn, hu3, hu4, hd2, hd2n, hu5, hne⟩
  obtain ⟨a0, d1t, hd10⟩ : ∃ a0 d1t, d1 = a0 :: d1t := by
    cases d1 with
    | nil => exact absurd rfl hd1n
    | cons a b => exact ⟨a, b, rfl⟩
  have hl' : wsRunAux trig ins false false x =
      pre ++ (d1 ++ u1 ++ ['年', '度'] ++ u2 ++ w ++ u3 ++ ['字', '第'] ++
        u4 ++ d2 ++ u5 ++ ['號']) ++ post := by
    rw [hl]
    simp
  have hp : ∀ c ∈ d1 ++ u1 ++ ['年', '度'] ++ u2 ++ w ++ u3 ++
      ['字', '第'] ++ u4 ++ d2 ++ u5 ++ ['號'], trig c = false := by
    intro c hc
    simp only [List.append_assoc, List.mem_append, List.mem_cons,
      List.not_mem_nil, or_false] at hc
    rcases hc with h | h | (h | h) | h | h | h | (h | h) | h | h | h | h
    · exact htd c (hd1 c h)
    · exact htw c (hu1 c h)
    · rw [h]; exact hts.1
    · rw [h]; exact hts.2.1
    · exact htw c (hu2 c h)
    · exact hta c (hw c h)
    · exact htw c (hu3 c h)
    · rw [h]; exact hts.2.2.1
    · rw [h]; exact hts.2.2.2.1
    · exact htw c (hu4 c h)
    · exact htd c (hd2 c h)
    · exact htw c (hu5 c h)
    · rw [h]; exact hts.2.2.2.2
  obtain ⟨pre', post', hx⟩ := wsRunAux_infix_lift trig ins hins
    (d1 ++ u1 ++ ['年', '度'] ++ u2 ++ w ++ u3 ++ ['字', '第'] ++ u4 ++
      d2 ++ u5 ++ ['號']) hp
    (fun c hc => by
      rw [hd10] at hc
      simp only [List.cons_append, List.head?, Option.some.injEq] at hc
      rw [← hc]
      intro he
      have := hd1 a0 (by rw [hd10]; simp)
      rw [he] at this
      exact absurd this (by decide))
    x false false pre post hl'
  refine ⟨pre', d1, u1, u2, w, u3, u4, d2, u5, post', ?_, hd1, hd1n, hu1,
    hu2, hw, hwn, hu3, hu4, hd2, hd2n, hu5, hne⟩
  rw [hx]
  simp

/-- Loose occurrences lift back through trimming. -/
theorem looseArt_lift_trim (x : List Char) :
    LooseArt (jsTrim x) → LooseArt x := by
  rintro ⟨pre, u1, ds, u2, post, hl, hu1, hds, hdne, hu2, hne⟩
  obtain ⟨ta, tb, hdec, _, _⟩ := jsTrim_decomp x
  refine ⟨ta ++ pre, u1, ds, u2, post ++ tb, ?_, hu1, hds, hdne, hu2, hne⟩
  rw [hdec, hl]
  simp

/-- Loose case occurrences lift back through trimming. -/
theorem looseCase_lift_trim (x : List Char) :
    LooseCase (jsTrim x) → LooseCase x := by
  rintro ⟨pre, d1, u1, u2, w, u3, u4, d2, u5, post, hl, hrest⟩
  obtain ⟨ta, tb, hdec, _, _⟩ := jsTrim_decomp x
  refine ⟨ta ++ pre, d1, u1, u2, w, u3, u4, d2, u5, post ++ tb, ?_, hrest⟩
  rw [hdec, hl]
  simp

/-! ## Alignment lemmas for scanner outputs. -/

/-- Splitting a two-part concatenation against an arbitrary
prefix/suffix split. -/
theorem suffix_of_append (l1 l2 pre m : List Char)
    (h : l1 ++ l2 = pre ++ m) :
    (∃ m1 pre1, l1 = pre1 ++ m1 ∧ m1 ≠ [] ∧ m = m1 ++ l2) ∨
    (∃ pre2, pre = l1 ++ pre2 ∧ l2 = pre2 ++ m) := by
  rcases List.append_eq_append_iff.mp h with ⟨a', ha1, ha2⟩ | ⟨a', ha1, ha2⟩
  · exact Or.inr ⟨a', ha1, ha2⟩
  · by_cases hn : a' = []
    · subst hn
      refine Or.inr ⟨[], by simpa using ha1.symm, by simpa using ha2.symm⟩
    · exact Or.inl ⟨a', pre, ha1, hn, ha2⟩

/-- Two digit-then-whitespace runs ending at distinct stop characters can
never produce equal lists. -/
theorem align_stop (s t : Char) (hst : s ≠ t)
    (htw : isWs t = false) (htd : isDigit t = false)
    (a U D V X R : List Char)
    (ha : ∀ x ∈ a, isDigit x = true) (hU : ∀ x ∈ U, isWs x = true)
    (hD : ∀ x ∈ D, isDigit x = true) (hV : ∀ x ∈ V, isWs x = true)
    (hsw : isWs s = false) (hsd : isDigit s = false)
    (heq : a ++ (U ++ s :: X) = D ++ (V ++ t :: R)) : False := by
  have h1 := congrArg (fun z => List.dropWhile isWs
    (List.dropWhile isDigit z)) heq
  simp only at h1
  rw [dropWhile_append_all isDigit a _ ha,
    dropWhile_append_all isDigit D _ hD] at h1
  rw [dropWhile_id_of_head isDigit (U ++ s :: X) ?_,
    dropWhile_id_of_head isDigit (V ++ t :: R) ?_] at h1
  · rw [dropWhile_append_all isWs U _ hU,
      dropWhile_append_all isWs V _ hV] at h1
    rw [List.dropWhile_cons_of_neg (by rw [hsw]; exact Bool.false_ne_true),
      List.dropWhile_cons_of_neg (by rw [htw]; exact Bool.false_ne_true)]
      at h1
    exact hst (List.cons.injEq .. |>.mp h1).1
  · intro c hc
    cases hV2 : V with
    | nil =>
      rw [hV2] at hc
      simp only [List.nil_append, List.head?, Option.some.injEq] at hc
      rw [← hc]
      exact htd
    | cons y V' =>
      rw [hV2] at hc
      simp only [List.cons_append, List.head?, Option.some.injEq] at hc
      rw [← hc]
      exact ws_not_digit y (hV y (by rw [hV2]; simp))
  · intro c hc
    cases hU2 : U with
    | nil =>
      rw [hU2] at hc
      simp only [List.nil_append, List.head?, Option.some.injEq] at hc
      rw [← hc]
      exact hsd
    | cons y U' =>
      rw [hU2] at hc
      simp only [List.cons_append, List.head?, Option.some.injEq] at hc
      rw [← hc]
      exact ws_not_digit y (hU y (by rw [hU2]; simp))

/-- An ASCII-word block followed by whitespace and `字` can never align with
digits followed by whitespace and `年`. -/
theorem align_word_vs_year
    (wb U D V X R : List Char)
    (hwb : ∀ x ∈ wb, isAsciiWord x = true) (hU : ∀ x ∈ U, isWs x = true)
    (hD : ∀ x ∈ D, isDigit x = true) (hV : ∀ x ∈ V, isWs x = true)
    (heq : wb ++ (U ++ '字' :: X) = D ++ (V ++ '年' :: R)) : False := by
  have h1 := congrArg (fun z => List.dropWhile isWs
    (List.dropWhile isDigit z)) heq
  simp only at h1
  rw [dropWhile_append_all isDigit D _ hD] at h1
  rw [dropWhile_id_of_head isDigit (V ++ '年' :: R) ?_] at h1
  · rw [dropWhile_append_all isWs V _ hV] at h1
    rw [List.dropWhile_cons_of_neg (by decide)] at h1
    have hsplit := List.takeWhile_append_dropWhile isDigit wb
    rw [← hsplit] at h1
    rw [List.append_assoc] at h1
    rw [dropWhile_append_all isDigit (wb.takeWhile isDigit) _
      (fun x hx => List.mem_takeWhile_imp hx)] at h1
    cases hwb2 : wb.dropWhile isDigit with
    | nil =>
      rw [hwb2] at h1
      simp only [List.nil_append] at h1
      rw [dropWhile_id_of_head isDigit (U ++ '字' :: X) ?_] at h1
      · rw [dropWhile_append_all isWs U _ hU] at h1
        rw [List.dropWhile_cons_of_neg (by decide)] at h1
        exact absurd (List.cons.injEq .. |>.mp h1).1 (by decide)
      · intro c hc
        cases hU2 : U with
        | nil =>
          rw [hU2] at hc
          simp only [List.nil_append, List.head?, Option.some.injEq] at hc
          rw [← hc]; decide
        | cons y U' =>
          rw [hU2] at hc
          simp only [List.cons_append, List.head?, Option.some.injEq] at hc
          rw [← hc]
          exact ws_not_digit y (hU y (by rw [hU2]; simp))
    | cons z wb2 =>
      rw [hwb2] at h1
      have hz1 : isDigit z = false := by
        have := dropWhile_head_not isDigit wb z (by rw [hwb2]; rfl)
        exact this
      have hz2 : isAsciiWord z = true := by
        refine hwb z ?_
        have hsub := List.dropWhile_sublist (p := isDigit) (l := wb)
        rw [hwb2] at hsub
        exact hsub.mem (by simp)
      rw [List.cons_append, List.dropWhile_cons_of_neg
        (by rw [hz1]; exact Bool.false_ne_true)] at h1
      rw [List.dropWhile_cons_of_neg
        (by rw [aw_not_ws z hz2]; exact Bool.false_ne_true)] at h1
      have hzy : z = '年' := (List.cons.injEq .. |>.mp h1).1
      rw [hzy] at hz2
      exact absurd hz2 (by decide)
  · intro c hc
    cases hV2 : V with
    | nil =>
      rw [hV2] at hc
      simp only [List.nil_append, List.head?, Option.some.injEq] at hc
      rw [← hc]; decide
    | cons y V' =>
      rw [hV2] at hc
      simp only [List.cons_append, List.head?, Option.some.injEq] at hc
      rw [← hc]
      exact ws_not_digit y (hV y (by rw [hV2]; simp))

/-- The central alignment: a tight case-number replacement laid over the
case-number pattern forces every whitespace gap of the pattern to be
empty. -/
theorem align_case_main
    (d1b w d2 X D1 U1 U2 W U3 U4 D2 U5 Y : List Char)
    (hd1b : ∀ x ∈ d1b, isDigit x = true)
    (hw : ∀ x ∈ w, isAsciiWord x = true) (hwn : w ≠ [])
    (hd2 : ∀ x ∈ d2, isDigit x = true) (hd2n : d2 ≠ [])
    (hD1 : ∀ x ∈ D1, isDigit x = true)
    (hU1 : ∀ x ∈ U1, isWs x = true) (hU2 : ∀ x ∈ U2, isWs x = true)
    (hW : ∀ x ∈ W, isAsciiWord x = true)
    (hU3 : ∀ x ∈ U3, isWs x = true) (hU4 : ∀ x ∈ U4, isWs x = true)
    (hD2 : ∀ x ∈ D2, isDigit x = true)
    (hU5 : ∀ x ∈ U5, isWs x = true)
    (heq : d1b ++ ('年' :: '度' :: (w ++ ('字' :: '第' ::
        (d2 ++ '號' :: X)))) =
      D1 ++ (U1 ++ ('年' :: '度' :: (U2 ++ (W ++ (U3 ++ ('字' :: '第' ::
        (U4 ++ (D2 ++ (U5 ++ '號' :: Y)))))))))) :
    U1 = [] ∧ U2 = [] ∧ U3 = [] ∧ U4 = [] ∧ U5 = [] := by
  have hstopU1 : ∀ c, (U1 ++ ('年' :: '度' :: (U2 ++ (W ++ (U3 ++
      ('字' :: '第' :: (U4 ++ (D2 ++ (U5 ++ '號' :: Y))))))))).head? =
      some c → isDigit c = false := by
    intro c hc
    cases hU1c : U1 with
    | nil =>
      rw [hU1c] at hc
      simp only [List.nil_append, List.head?, Option.some.injEq] at hc
      rw [← hc]; decide
    | cons y U1' =>
      rw [hU1c] at hc
      simp only [List.cons_append, List.head?, Option.some.injEq] at hc
      rw [← hc]
      exact ws_not_digit y (hU1 y (by rw [hU1c]; simp))
  have h2 := congrArg (List.dropWhile isDigit) heq
  simp only at h2
  rw [dropWhile_append_all isDigit d1b _ hd1b,
    dropWhile_append_all isDigit D1 _ hD1] at h2
  rw [List.dropWhile_cons_of_neg (by decide)] at h2
  rw [dropWhile_id_of_head isDigit _ hstopU1] at h2
  have hU1nil : U1 = [] := by
    cases hU1c : U1 with
    | nil => rfl
    | cons y U1' =>
      rw [hU1c] at h2
      simp only [List.cons_append, List.cons.injEq] at h2
      have hyw := hU1 y (by rw [hU1c]; simp)
      rw [← h2.1] at hyw
      exact absurd hyw (by decide)
  subst hU1nil
  simp only [List.nil_append, List.cons.injEq, true_and] at h2
  obtain ⟨w0, w', hw0⟩ : ∃ w0 w', w = w0 :: w' := by
    cases w with
    | nil => exact absurd rfl hwn
    | cons a b => exact ⟨a, b, rfl⟩
  have hU2nil : U2 = [] := by
    cases hU2c : U2 with
    | nil => rfl
    | cons y U2' =>
      rw [hU2c, hw0] at h2
      simp only [List.cons_append, List.cons.injEq] at h2
      have hyw := hU2 y (by rw [hU2c]; simp)
      rw [← h2.1] at hyw
      rw [aw_not_ws w0 (hw w0 (by rw [hw0]; simp))] at hyw
      exact Bool.noConfusion hyw
  subst hU2nil
  rw [List.nil_append] at h2
  -- h2 : w ++ (字 :: 第 :: (d2 ++ 號 :: X)) = W ++ (U3 ++ (字 :: 第 :: ...))
  have h3 := congrArg (List.dropWhile isAsciiWord) h2
  simp only at h3
  rw [dropWhile_append_all isAsciiWord w _ hw,
    dropWhile_append_all isAsciiWord W _ hW] at h3
  rw [List.dropWhile_cons_of_neg (by decide)] at h3
  rw [dropWhile_id_of_head isAsciiWord _ ?_] at h3
  · have hU3nil : U3 = [] := by
      cases hU3c : U3 with
      | nil => rfl
      | cons y U3' =>
        rw [hU3c] at h3
        simp only [List.cons_append, List.cons.injEq] at h3
        have hyw := hU3 y (by rw [hU3c]; simp)
        rw [← h3.1] at hyw
        exact absurd hyw (by decide)
    subst hU3nil
    simp only [List.nil_append, List.cons.injEq, true_and] at h3
    -- h3 : d2 ++ 號 :: X = U4 ++ (D2 ++ (U5 ++ 號 :: Y))
    obtain ⟨e0, d2', he0⟩ : ∃ e0 d2', d2 = e0 :: d2' := by
      cases d2 with
      | nil => exact absurd rfl hd2n
      | cons a b => exact ⟨a, b, rfl⟩
    have hU4nil : U4 = [] := by
      cases hU4c : U4 with
      | nil => rfl
      | cons y U4' =>
        rw [hU4c, he0] at h3
        simp only [List.cons_append, List.cons.injEq] at h3
        have hyw := hU4 y (by rw [hU4c]; simp)
        rw [← h3.1] at hyw
        rw [digit_not_ws e0 (hd2 e0 (by rw [he0]; simp))] at hyw
        exact Bool.noConfusion hyw
    subst hU4nil
    rw [List.nil_append] at h3
    -- h3 : d2 ++ 號 :: X = D2 ++ (U5 ++ 號 :: Y)
    have h4 := congrArg (List.dropWhile isDigit) h3
    simp only at h4
    rw [dropWhile_append_all isDigit d2 _ hd2,
      dropWhile_append_all isDigit D2 _ hD2] at h4
    rw [List.dropWhile_cons_of_neg (by decide)] at h4
    rw [dropWhile_id_of_head isDigit _ ?_] at h4
    · have hU5nil : U5 = [] := by
        cases hU5c : U5 with
        | nil => rfl
        | cons y U5' =>
          rw [hU5c] at h4
          simp only [List.cons_append, List.cons.injEq] at h4
          have hyw := hU5 y (by rw [hU5c]; simp)
          rw [← h4.1] at hyw
          exact absurd hyw (by decide)
      exact ⟨rfl, rfl, rfl, rfl, hU5nil⟩
    · intro c hc
      cases hU5c : U5 with
      | nil =>
        rw [hU5c] at hc
        simp only [List.nil_append, List.head?, Option.some.injEq] at hc
        rw [← hc]; decide
      | cons y U5' =>
        rw [hU5c] at hc
        simp only [List.cons_append, List.head?, Option.some.injEq] at hc
        rw [← hc]
        exact ws_not_digit y (hU5 y (by rw [hU5c]; simp))
  · intro c hc
    cases hU3c : U3 with
    | nil =>
      rw [hU3c] at hc
      simp only [List.nil_append, List.head?, Option.some.injEq] at hc
      rw [← hc]; decide
    | cons y U3' =>
      rw [hU3c] at hc
      simp only [List.cons_append, List.head?, Option.some.injEq] at hc
      rw [← hc]
      exact ws_not_aw y (hU3 y (by rw [hU3c]; simp))

/-- The output of the article rule has no loose article occurrence. -/
theorem art_scan_noLoose :
    ∀ (fuel : Nat) (l : List Char), l.length ≤ fuel →
      ¬ LooseArt (scanGo tryArticle fuel l) := by
  intro fuel
  induction fuel with
  | zero =>
    intro l hl hLoose
    have hl0 : l = [] := List.length_eq_zero.mp (Nat.le_zero.mp hl)
    rw [hl0] at hLoose
    obtain ⟨pre, u1, ds, u2, post, heq, _⟩ := hLoose
    simp [scanGo] at heq
  | succ fuel ih =>
    intro l hl hLoose
    cases l with
    | nil =>
      obtain ⟨pre, u1, ds, u2, post, heq, _⟩ := hLoose
      simp [scanGo] at heq
    | cons c rest =>
      simp only [scanGo] at hLoose
      cases htm : tryArticle (c :: rest) with
      | some pr =>
        obtain ⟨rep, rest'⟩ := pr
        rw [htm] at hLoose
        dsimp only at hLoose
        have hlen : rest'.length ≤ fuel := by
          have hcon := tryArticle_consumes (c :: rest) rep rest' htm
          simp only [List.length_cons] at hcon hl
          omega
        have hIH := ih rest' hlen
        obtain ⟨hc, w1, d, w2, hr, hrep, hw1, hd, hw2, hdne⟩ :=
          tryArticle_spec c rest rep rest' htm
        have hdmem : ∀ x ∈ d, isDigit x = true := by
          intro x hx
          rw [hd] at hx
          exact List.mem_takeWhile_imp hx
        obtain ⟨pre, u1, ds, u2, post, heq, hu1m, hdsm, hdsne, hu2m, hne⟩ :=
          hLoose
        cases pre with
        | nil =>
          rw [hrep] at heq
          simp only [List.nil_append, List.cons_append, List.cons.injEq]
            at heq
          have E : d ++ '條' :: scanGo tryArticle fuel rest' =
              u1 ++ (ds ++ (u2 ++ '條' :: post)) := by
            have := heq.2
            simpa [List.append_assoc] using this
          obtain ⟨d0, dt, hd0⟩ : ∃ d0 dt, d = d0 :: dt := by
            cases d with
            | nil => exact absurd rfl hdne
            | cons a b => exact ⟨a, b, rfl⟩
          have hu1nil : u1 = [] := by
            cases hu1c : u1 with
            | nil => rfl
            | cons y u1t =>
              rw [hu1c, hd0] at E
              simp only [List.cons_append, List.cons.injEq] at E
              have hyw := hu1m y (by rw [hu1c]; simp)
              rw [← E.1] at hyw
              rw [digit_not_ws d0 (hdmem d0 (by rw [hd0]; simp))] at hyw
              exact Bool.noConfusion hyw
          subst hu1nil
          rw [List.nil_append] at E
          have h4 := congrArg (List.dropWhile isDigit) E
          simp only at h4
          rw [dropWhile_append_all isDigit d _ hdmem,
            dropWhile_append_all isDigit ds _ hdsm] at h4
          rw [List.dropWhile_cons_of_neg (by decide)] at h4
          rw [dropWhile_id_of_head isDigit _ ?_] at h4
          · have hu2nil : u2 = [] := by
              cases hu2c : u2 with
              | nil => rfl
              | cons y u2t =>
                rw [hu2c] at h4
                simp only [List.cons_append, List.cons.injEq] at h4
                have hyw := hu2m y (by rw [hu2c]; simp)
                rw [← h4.1] at hyw
                exact absurd hyw (by decide)
            subst hu2nil
            exact hne rfl
          · intro x hx
            cases hu2c : u2 with
            | nil =>
              rw [hu2c] at hx
              simp only [List.nil_append, List.head?, Option.some.injEq]
                at hx
              rw [← hx]; decide
            | cons y u2t =>
              rw [hu2c] at hx
              simp only [List.cons_append, List.head?, Option.some.injEq]
                at hx
              rw [← hx]
              exact ws_not_digit y (hu2m y (by rw [hu2c]; simp))
        | cons z pre' =>
          rw [hrep] at heq
          simp only [List.cons_append, List.cons.injEq] at heq
          have E2 : (d ++ ['條']) ++ scanGo tryArticle fuel rest' =
              pre' ++ ('第' :: (u1 ++ ds ++ u2 ++ '條' :: post)) := by
            simpa [List.append_assoc] using heq.2
          rcases suffix_of_append (d ++ ['條']) (scanGo tryArticle fuel rest')
            pre' ('第' :: (u1 ++ ds ++ u2 ++ '條' :: post)) E2 with
            ⟨m1, pre1, hsplit, hm1ne, hm⟩ | ⟨pre2, hpre2, hO'⟩
          · cases m1 with
            | nil => exact absurd rfl hm1ne
            | cons mh m1t =>
              simp only [List.cons_append, List.cons.injEq] at hm
              have hmh : mh = '第' := hm.1.symm
              have hmem : mh ∈ d ++ ['條'] := by
                rw [hsplit]
                exact List.mem_append_right pre1 (by simp)
              rcases List.mem_append.mp hmem with h | h
              · have := hdmem mh h
                rw [hmh] at this
                exact absurd this (by decide)
              · rw [List.mem_singleton.mp h] at hmh
                exact absurd hmh (by decide)
          · exact hIH ⟨pre2, u1, ds, u2, post, hO', hu1m, hdsm, hdsne,
              hu2m, hne⟩
      | none =>
        rw [htm] at hLoose
        dsimp only at hLoose
        have hIH : ¬ LooseArt (scanGo tryArticle fuel rest) := by
          refine ih rest ?_
          simp only [List.length_cons] at hl
          omega
        obtain ⟨pre, u1, ds, u2, post, heq, hu1m, hdsm, hdsne, hu2m, hne⟩ :=
          hLoose
        cases pre with
        | cons z pre' =>
          simp only [List.cons_append, List.cons.injEq] at heq
          exact hIH ⟨pre', u1, ds, u2, post, heq.2, hu1m, hdsm, hdsne,
            hu2m, hne⟩
        | nil =>
          simp only [List.nil_append, List.cons.injEq] at heq
          obtain ⟨hc, hO'⟩ := heq
          have hO'eq : scanGo tryArticle fuel rest =
              (u1 ++ ds ++ u2 ++ ['條']) ++ post := by
            rw [hO']
            simp
          rcases scanGo_prefix_cases tryArticle (u1 ++ ds ++ u2 ++ ['條'])
            fuel rest post hO'eq with
            ⟨c2, fuel2, hrest, hb⟩ | ⟨a1, a2, c2, rep2, r2', fuel2, ha,
              ha2ne, hrest, htm2, he2⟩
          · have hmatch := tryArticle_of_decomp u1 ds u2 c2 hu1m hdsm
              hdsne hu2m
            rw [hc, hrest] at htm
            rw [show (u1 ++ ds ++ u2 ++ ['條']) ++ c2 =
                u1 ++ ds ++ u2 ++ '條' :: c2 by simp] at htm
            rw [hmatch] at htm
            exact Option.noConfusion htm
          · have hrep2head : rep2.head? = some '第' := by
              cases c2 with
              | nil => exact Option.noConfusion htm2
              | cons c3 r3 =>
                obtain ⟨hc3, w1', d', w2', _, hrep2, _⟩ :=
                  tryArticle_spec c3 r3 rep2 r2' htm2
                rw [hrep2]
                rfl
            cases a2 with
            | nil => exact absurd rfl ha2ne
            | cons ah a2t =>
              cases rep2 with
              | nil => exact Option.noConfusion hrep2head
              | cons rh rt =>
                simp only [List.head?, Option.some.injEq] at hrep2head
                simp only [List.cons_append, List.cons.injEq] at he2
                have hah : ah = '第' := by rw [he2.1, hrep2head]
                have hmem : ah ∈ u1 ++ ds ++ u2 ++ ['條'] := by
                  rw [ha]
                  exact List.mem_append_right a1 (by simp)
                simp only [List.append_assoc, List.mem_append,
                  List.mem_cons, List.not_mem_nil, or_false] at hmem
                rcases hmem with h | h | h | h
                · have := hu1m ah h
                  rw [hah] at this
                  exact absurd this (by decide)
                · have := hdsm ah h
                  rw [hah] at this
                  exact absurd this (by decide)
                · have := hu2m ah h
                  rw [hah] at this
                  exact absurd this (by decide)
                · rw [h] at hah
                  exact absurd hah (by decide)

/-- Non-empty suffixes of a two-character literal block. -/
theorem pair_suffix (x y : Char) (p m : List Char) (h : [x, y] = p ++ m)
    (hne : m ≠ []) : m = [x, y] ∨ m = [y] := by
  cases p with
  | nil => exact Or.inl h.symm
  | cons a p' =>
    simp only [List.cons_append, List.cons.injEq] at h
    obtain ⟨hxa, h2⟩ := h
    cases p' with
    | nil => exact Or.inr h2.symm
    | cons b p'' =>
      simp only [List.cons_append, List.cons.injEq] at h2
      exact absurd (List.append_eq_nil.mp h2.2.symm).2 hne

/-- Non-empty suffixes of a one-character literal block. -/
theorem single_suffix (x : Char) (p m : List Char) (h : [x] = p ++ m)
    (hne : m ≠ []) : m = [x] := by
  cases p with
  | nil => exact h.symm
  | cons a p' =>
    simp only [List.cons_append, List.cons.injEq] at h
    exact absurd (List.append_eq_nil.mp h.2.symm).2 hne

/-- A tight case-number replacement followed by anything can contain the
case-number pattern only inside the trailing part. -/
theorem caseRep_split_align
    (d1 w d2 O' pre D1 U1 U2 W U3 U4 D2 U5 post : List Char)
    (hd1 : ∀ x ∈ d1, isDigit x = true)
    (hw : ∀ x ∈ w, isAsciiWord x = true) (hwn : w ≠ [])
    (hd2 : ∀ x ∈ d2, isDigit x = true) (hd2n : d2 ≠ [])
    (hD1 : ∀ x ∈ D1, isDigit x = true) (hD1n : D1 ≠ [])
    (hU1 : ∀ x ∈ U1, isWs x = true) (hU2 : ∀ x ∈ U2, isWs x = true)
    (hWc : ∀ x ∈ W, isAsciiWord x = true)
    (hU3 : ∀ x ∈ U3, isWs x = true) (hU4 : ∀ x ∈ U4, isWs x = true)
    (hD2c : ∀ x ∈ D2, isDigit x = true)
    (hU5 : ∀ x ∈ U5, isWs x = true)
    (hne : U1 ++ U2 ++ U3 ++ U4 ++ U5 ≠ [])
    (heq : (d1 ++ ['年', '度'] ++ w ++ ['字', '第'] ++ d2 ++ ['號']) ++ O' =
      pre ++ (D1 ++ (U1 ++ ('年' :: '度' :: (U2 ++ (W ++ (U3 ++
        ('字' :: '第' :: (U4 ++ (D2 ++ (U5 ++ '號' :: post))))))))))) :
    ∃ pre2, O' = pre2 ++ (D1 ++ (U1 ++ ('年' :: '度' :: (U2 ++ (W ++
      (U3 ++ ('字' :: '第' :: (U4 ++ (D2 ++ (U5 ++ '號' :: post)))))))))) := by
  obtain ⟨a0, D1t, ha0⟩ : ∃ a0 D1t, D1 = a0 :: D1t := by
    cases D1 with
    | nil => exact absurd rfl hD1n
    | cons a b => exact ⟨a, b, rfl⟩
  have ha0d : isDigit a0 = true := hD1 a0 (by rw [ha0]; simp)
  have hQh : (D1 ++ (U1 ++ ('年' :: '度' :: (U2 ++ (W ++ (U3 ++
      ('字' :: '第' :: (U4 ++ (D2 ++ (U5 ++ '號' :: post)))))))))).head? =
      some a0 := by
    rw [ha0]
    rfl
  have heq1 : d1 ++ (['年', '度'] ++ (w ++ (['字', '第'] ++ (d2 ++
      (['號'] ++ O'))))) = pre ++ (D1 ++ (U1 ++ ('年' :: '度' :: (U2 ++
      (W ++ (U3 ++ ('字' :: '第' :: (U4 ++ (D2 ++ (U5 ++
      '號' :: post)))))))))) := by
    rw [← heq]
    simp
  rcases suffix_of_append d1 _ pre _ heq1 with
    ⟨m1, p1, hm1split, hm1ne, hm1⟩ | ⟨q1, hq1, hr1⟩
  · -- the pattern would begin inside the leading digits: full alignment
    exfalso
    have hm1d : ∀ x ∈ m1, isDigit x = true := by
      intro x hx
      exact hd1 x (by rw [hm1split]; exact List.mem_append_right p1 hx)
    have halign := align_case_main m1 w d2 O' D1 U1 U2 W U3 U4 D2 U5 post
      hm1d hw hwn hd2 hd2n hD1 hU1 hU2 hWc hU3 hU4 hD2c hU5 ?_
    · obtain ⟨e1, e2, e3, e4, e5⟩ := halign
      apply hne
      rw [e1, e2, e3, e4, e5]
      rfl
    · simpa using hm1.symm
  · rcases suffix_of_append ['年', '度'] _ q1 _ hr1 with
      ⟨m2, p2, hm2split, hm2ne, hm2⟩ | ⟨q2, hq2, hr2⟩
    · exfalso
      rcases pair_suffix '年' '度' p2 m2 hm2split hm2ne with h2 | h2
      · rw [h2] at hm2
        have : a0 = '年' := by
          have := congrArg List.head? hm2
          rw [hQh] at this
          simp only [List.cons_append, List.head?, Option.some.injEq] at this
          exact this
        rw [this] at ha0d
        exact absurd ha0d (by decide)
      · rw [h2] at hm2
        have : a0 = '度' := by
          have := congrArg List.head? hm2
          rw [hQh] at this
          simp only [List.cons_append, List.head?, Option.some.injEq] at this
          exact this
        rw [this] at ha0d
        exact absurd ha0d (by decide)
    · rcases suffix_of_append w _ q2 _ hr2 with
        ⟨m3, p3, hm3split, hm3ne, hm3⟩ | ⟨q3, hq3, hr3⟩
      · exfalso
        have hm3a : ∀ x ∈ m3, isAsciiWord x = true := by
          intro x hx
          exact hw x (by rw [hm3split]; exact List.mem_append_right p3 hx)
        refine align_word_vs_year m3 [] D1 U1
          ('第' :: (d2 ++ ('號' :: O'))) ('度' :: (U2 ++ (W ++ (U3 ++
            ('字' :: '第' :: (U4 ++ (D2 ++ (U5 ++ '號' :: post))))))))
          hm3a (by intro x hx; simp at hx) hD1 hU1 ?_
        simpa using hm3.symm
      · rcases suffix_of_append ['字', '第'] _ q3 _ hr3 with
          ⟨m4, p4, hm4split, hm4ne, hm4⟩ | ⟨q4, hq4, hr4⟩
        · exfalso
          rcases pair_suffix '字' '第' p4 m4 hm4split hm4ne with h4 | h4
          · rw [h4] at hm4
            have : a0 = '字' := by
              have := congrArg List.head? hm4
              rw [hQh] at this
              simp only [List.cons_append, List.head?,
                Option.some.injEq] at this
              exact this
            rw [this] at ha0d
            exact absurd ha0d (by decide)
          · rw [h4] at hm4
            have : a0 = '第' := by
              have := congrArg List.head? hm4
              rw [hQh] at this
              simp only [List.cons_append, List.head?,
                Option.some.injEq] at this
              exact this
            rw [this] at ha0d
            exact absurd ha0d (by decide)
        · rcases suffix_of_append d2 _ q4 _ hr4 with
            ⟨m5, p5, hm5split, hm5ne, hm5⟩ | ⟨q5, hq5, hr5⟩
          · exfalso
            have hm5d : ∀ x ∈ m5, isDigit x = true := by
              intro x hx
              exact hd2 x (by rw [hm5split]; exact List.mem_append_right p5 hx)
            refine align_stop '號' '年' (by decide) (by decide) (by decide)
              m5 [] D1 U1 O' ('度' :: (U2 ++ (W ++ (U3 ++ ('字' :: '第' ::
                (U4 ++ (D2 ++ (U5 ++ '號' :: post))))))))
              hm5d (by intro x hx; simp at hx) hD1 hU1
              (by decide) (by decide) ?_
            simpa using hm5.symm
          · rcases suffix_of_append ['號'] _ q5 _ hr5 with
              ⟨m6, p6, hm6split, hm6ne, hm6⟩ | ⟨q6, hq6, hr6⟩
            · exfalso
              have h6 := single_suffix '號' p6 m6 hm6split hm6ne
              rw [h6] at hm6
              have : a0 = '號' := by
                have := congrArg List.head? hm6
                rw [hQh] at this
                simp only [List.cons_append, List.head?,
                  Option.some.injEq] at this
                exact this
              rw [this] at ha0d
              exact absurd ha0d (by decide)
            · exact ⟨q6, hr6⟩

/-- A non-empty suffix of the case-number pattern block can never begin a
tight case-number replacement. -/
theorem casePattern_vs_caseRep
    (D1t U1 U2 W U3 U4 D2 U5 : List Char)
    (hD1t : ∀ x ∈ D1t, isDigit x = true)
    (hU1 : ∀ x ∈ U1, isWs x = true) (hU2 : ∀ x ∈ U2, isWs x = true)
    (hWc : ∀ x ∈ W, isAsciiWord x = true)
    (hU3 : ∀ x ∈ U3, isWs x = true) (hU4 : ∀ x ∈ U4, isWs x = true)
    (hD2c : ∀ x ∈ D2, isDigit x = true)
    (hU5 : ∀ x ∈ U5, isWs x = true)
    (hne : U1 ++ U2 ++ U3 ++ U4 ++ U5 ≠ [])
    (d1' w' d2' O2 b : List Char)
    (hd1' : ∀ x ∈ d1', isDigit x = true) (hd1'n : d1' ≠ [])
    (hw' : ∀ x ∈ w', isAsciiWord x = true) (hw'n : w' ≠ [])
    (hd2' : ∀ x ∈ d2', isDigit x = true) (hd2'n : d2' ≠ [])
    (a1 a2 : List Char) (ha2ne : a2 ≠ [])
    (hsplit : D1t ++ (U1 ++ (['年', '度'] ++ (U2 ++ (W ++ (U3 ++
      (['字', '第'] ++ (U4 ++ (D2 ++ (U5 ++ ['號']))))))))) = a1 ++ a2)
    (heq : a2 ++ b = d1' ++ ('年' :: '度' :: (w' ++ ('字' :: '第' ::
      (d2' ++ '號' :: O2))))) :
    False := by
  obtain ⟨e0, d1t', he0⟩ : ∃ e0 d1t', d1' = e0 :: d1t' := by
    cases d1' with
    | nil => exact absurd rfl hd1'n
    | cons a t => exact ⟨a, t, rfl⟩
  obtain ⟨ah, a2t, ha2eq⟩ : ∃ ah a2t, a2 = ah :: a2t := by
    cases a2 with
    | nil => exact absurd rfl ha2ne
    | cons a t => exact ⟨a, t, rfl⟩
  have hahd : isDigit ah = true := by
    rw [ha2eq, he0] at heq
    simp only [List.cons_append, List.cons.injEq] at heq
    rw [heq.1]
    exact hd1' e0 (by rw [he0]; simp)
  rcases suffix_of_append D1t _ a1 _ hsplit with
    ⟨m1, p1, hm1split, hm1ne, hm1⟩ | ⟨q1, hq1, hr1⟩
  · have hm1d : ∀ x ∈ m1, isDigit x = true := by
      intro x hx
      exact hD1t x (by rw [hm1split]; exact List.mem_append_right p1 hx)
    have heq2 : d1' ++ ('年' :: '度' :: (w' ++ ('字' :: '第' ::
        (d2' ++ '號' :: O2)))) = m1 ++ (U1 ++ ('年' :: '度' :: (U2 ++
        (W ++ (U3 ++ ('字' :: '第' :: (U4 ++ (D2 ++
        (U5 ++ '號' :: b))))))))) := by
      rw [← heq, hm1]
      simp
    obtain ⟨e1, e2, e3, e4, e5⟩ := align_case_main d1' w' d2' O2 m1 U1 U2 W
      U3 U4 D2 U5 b hd1' hw' hw'n hd2' hd2'n hm1d hU1 hU2 hWc hU3 hU4
      hD2c hU5 heq2
    apply hne
    rw [e1, e2, e3, e4, e5]
    rfl
  · rcases suffix_of_append U1 _ q1 _ hr1 with
      ⟨m2, p2, hm2split, hm2ne, hm2⟩ | ⟨q2, hq2, hr2⟩
    · obtain ⟨y, mt, hy⟩ : ∃ y mt, m2 = y :: mt := by
        cases m2 with
        | nil => exact absurd rfl hm2ne
        | cons a t => exact ⟨a, t, rfl⟩
      have hymem : y ∈ U1 := by
        rw [hm2split, hy]
        exact List.mem_append_right p2 (by simp)
      have hyw := hU1 y hymem
      have hya : y = ah := by
        rw [ha2eq, hy] at hm2
        simp only [List.cons_append, List.cons.injEq] at hm2
        exact hm2.1.symm
      rw [hya] at hyw
      rw [ws_not_digit ah hyw] at hahd
      exact Bool.noConfusion hahd
    · rcases suffix_of_append ['年', '度'] _ q2 _ hr2 with
        ⟨m3, p3, hm3split, hm3ne, hm3⟩ | ⟨q3, hq3, hr3⟩
      · have hy : ah = '年' ∨ ah = '度' := by
          rcases pair_suffix '年' '度' p3 m3 hm3split hm3ne with h3 | h3
          · rw [h3] at hm3
            rw [ha2eq] at hm3
            simp only [List.cons_append, List.cons.injEq] at hm3
            exact Or.inl hm3.1
          · rw [h3] at hm3
            rw [ha2eq] at hm3
            simp only [List.cons_append, List.cons.injEq] at hm3
            exact Or.inr hm3.1
        rcases hy with h | h
        · rw [h] at hahd
          exact absurd hahd (by decide)
        · rw [h] at hahd
          exact absurd hahd (by decide)
      · rcases suffix_of_append U2 _ q3 _ hr3 with
          ⟨m4, p4, hm4split, hm4ne, hm4⟩ | ⟨q4, hq4, hr4⟩
        · obtain ⟨y, mt, hy⟩ : ∃ y mt, m4 = y :: mt := by
            cases m4 with
            | nil => exact absurd rfl hm4ne
            | cons a t => exact ⟨a, t, rfl⟩
          have hymem : y ∈ U2 := by
            rw [hm4split, hy]
            exact List.mem_append_right p4 (by simp)
          have hyw := hU2 y hymem
          have hya : y = ah := by
            rw [ha2eq, hy] at hm4
            simp only [List.cons_append, List.cons.injEq] at hm4
            exact hm4.1.symm
          rw [hya] at hyw
          rw [ws_not_digit ah hyw] at hahd
          exact Bool.noConfusion hahd
        · rcases suffix_of_append W _ q4 _ hr4 with
            ⟨m5, p5, hm5split, hm5ne, hm5⟩ | ⟨q5, hq5, hr5⟩
          · have hm5a : ∀ x ∈ m5, isAsciiWord x = true := by
              intro x hx
              refine hWc x ?_
              rw [hm5split]
              exact List.mem_append_right p5 hx
            refine align_word_vs_year m5 U3
              d1' [] ('第' :: (U4 ++ (D2 ++ (U5 ++ '號' :: b))))
              ('度' :: (w' ++ ('字' :: '第' :: (d2' ++ '號' :: O2))))
              hm5a hU3 hd1' (by intro x hx; simp at hx) ?_
            have h5eq := heq
            rw [hm5] at h5eq
            simpa using h5eq
          · rcases suffix_of_append U3 _ q5 _ hr5 with
              ⟨m5b, p5b, hm5bsplit, hm5bne, hm5b⟩ | ⟨q5b, hq5b, hr5b⟩
            · obtain ⟨y, mt, hy⟩ : ∃ y mt, m5b = y :: mt := by
                cases m5b with
                | nil => exact absurd rfl hm5bne
                | cons a t => exact ⟨a, t, rfl⟩
              have hymem : y ∈ U3 := by
                rw [hm5bsplit, hy]
                exact List.mem_append_right p5b (by simp)
              have hyw := hU3 y hymem
              have hya : y = ah := by
                rw [ha2eq, hy] at hm5b
                simp only [List.cons_append, List.cons.injEq] at hm5b
                exact hm5b.1.symm
              rw [hya] at hyw
              rw [ws_not_digit ah hyw] at hahd
              exact Bool.noConfusion hahd
            rcases suffix_of_append ['字', '第'] _ q5b _ hr5b with
              ⟨m6, p6, hm6split, hm6ne, hm6⟩ | ⟨q6, hq6, hr6⟩
            · have hy : ah = '字' ∨ ah = '第' := by
                rcases pair_suffix '字' '第' p6 m6 hm6split hm6ne with h6 | h6
                · rw [h6] at hm6
                  rw [ha2eq] at hm6
                  simp only [List.cons_append, List.cons.injEq] at hm6
                  exact Or.inl hm6.1
                · rw [h6] at hm6
                  rw [ha2eq] at hm6
                  simp only [List.cons_append, List.cons.injEq] at hm6
                  exact Or.inr hm6.1
              rcases hy with h | h
              · rw [h] at hahd
                exact absurd hahd (by decide)
              · rw [h] at hahd
                exact absurd hahd (by decide)
            · rcases suffix_of_append U4 _ q6 _ hr6 with
                ⟨m7, p7, hm7split, hm7ne, hm7⟩ | ⟨q7, hq7, hr7⟩
              · obtain ⟨y, mt, hy⟩ : ∃ y mt, m7 = y :: mt := by
                  cases m7 with
                  | nil => exact absurd rfl hm7ne
                  | cons a t => exact ⟨a, t, rfl⟩
                have hymem : y ∈ U4 := by
                  rw [hm7split, hy]
                  exact List.mem_append_right p7 (by simp)
                have hyw := hU4 y hymem
                have hya : y = ah := by
                  rw [ha2eq, hy] at hm7
                  simp only [List.cons_append, List.cons.injEq] at hm7
                  exact hm7.1.symm
                rw [hya] at hyw
                rw [ws_not_digit ah hyw] at hahd
                exact Bool.noConfusion hahd
              · rcases suffix_of_append D2 _ q7 _ hr7 with
                  ⟨m8, p8, hm8split, hm8ne, hm8⟩ | ⟨q8, hq8, hr8⟩
                · have hm8d : ∀ x ∈ m8, isDigit x = true := by
                    intro x hx
                    refine hD2c x ?_
                    rw [hm8split]
                    exact List.mem_append_right p8 hx
                  refine align_stop '號' '年' (by decide) (by decide)
                    (by decide) m8 U5 d1' [] b
                    ('度' :: (w' ++ ('字' :: '第' :: (d2' ++ '號' :: O2))))
                    hm8d hU5 hd1' (by intro x hx; simp at hx)
                    (by decide) (by decide) ?_
                  have h8eq := heq
                  rw [hm8] at h8eq
                  simpa using h8eq
                · rcases suffix_of_append U5 _ q8 _ hr8 with
                    ⟨m9, p9, hm9split, hm9ne, hm9⟩ | ⟨q9, hq9, hr9⟩
                  · obtain ⟨y, mt, hy⟩ : ∃ y mt, m9 = y :: mt := by
                      cases m9 with
                      | nil => exact absurd rfl hm9ne
                      | cons a t => exact ⟨a, t, rfl⟩
                    have hymem : y ∈ U5 := by
                      rw [hm9split, hy]
                      exact List.mem_append_right p9 (by simp)
                    have hyw := hU5 y hymem
                    have hya : y = ah := by
                      rw [ha2eq, hy] at hm9
                      simp only [List.cons_append, List.cons.injEq] at hm9
                      exact hm9.1.symm
                    rw [hya] at hyw
                    rw [ws_not_digit ah hyw] at hahd
                    exact Bool.noConfusion hahd
                  · have h9 := single_suffix '號' q9 a2 hr9 ha2ne
                    rw [h9] at ha2eq
                    simp only [List.cons.injEq] at ha2eq
                    rw [← ha2eq.1] at hahd
                    exact absurd hahd (by decide)

/-- A successful case-number match consumes at least one character. -/
theorem tryCase_consumes (l rep rest' : List Char)
    (h : tryCase l = some (rep, rest')) : rest'.length < l.length := by
  obtain ⟨span, hsp, hne, hh, _, _⟩ := tryCase_pack l rep rest' h
  have hspn : span ≠ [] := by
    intro he
    rw [he] at hh
    cases rep with
    | nil => exact hne rfl
    | cons a t => exact Option.noConfusion hh
  have hpos : 0 < span.length := List.length_pos.mpr hspn
  rw [hsp, List.length_append]
  omega

/-- The output of the case-number rule has no loose case occurrence. -/
theorem case_scan_noLoose :
    ∀ (fuel : Nat) (l : List Char), l.length ≤ fuel →
      ¬ LooseCase (scanGo tryCase fuel l) := by
  intro fuel
  induction fuel with
  | zero =>
    intro l hl hLoose
    have hl0 : l = [] := List.length_eq_zero.mp (Nat.le_zero.mp hl)
    rw [hl0] at hLoose
    obtain ⟨pre, d1, u1, u2, w, u3, u4, d2, u5, post, heq, _⟩ := hLoose
    simp [scanGo] at heq
  | succ fuel ih =>
    intro l hl hLoose
    cases l with
    | nil =>
      obtain ⟨pre, d1, u1, u2, w, u3, u4, d2, u5, post, heq, _⟩ := hLoose
      simp [scanGo] at heq
    | cons c rest =>
      simp only [scanGo] at hLoose
      cases htm : tryCase (c :: rest) with
      | some pr =>
        obtain ⟨rep, rest'⟩ := pr
        rw [htm] at hLoose
        dsimp only at hLoose
        have hlen : rest'.length ≤ fuel := by
          have hcon := tryCase_consumes (c :: rest) rep rest' htm
          simp only [List.length_cons] at hcon hl
          omega
        obtain ⟨d1, u1, u2, w, u3, u4, d2, u5, hr, hrep, hd1m, hd1n, hu1m,
          hu2m, hwm, hwn, hu3m, hu4m, hd2m, hd2n, hu5m⟩ :=
          tryCase_spec (c :: rest) rep rest' htm
        obtain ⟨pre, D1, U1, U2, W, U3, U4, D2, U5, post, heq, hD1, hD1n,
          hU1c, hU2c, hWc, hWn, hU3c, hU4c, hD2c, hD2n, hU5c, hne⟩ :=
          hLoose
        have heqL : (d1 ++ ['年', '度'] ++ w ++ ['字', '第'] ++ d2 ++
            ['號']) ++ scanGo tryCase fuel rest' =
            pre ++ (D1 ++ (U1 ++ ('年' :: '度' :: (U2 ++ (W ++ (U3 ++
            ('字' :: '第' :: (U4 ++ (D2 ++ (U5 ++ '號' :: post)))))))))) := by
          rw [← hrep, heq]
          simp
        obtain ⟨pre2, hO'⟩ := caseRep_split_align d1 w d2
          (scanGo tryCase fuel rest') pre D1 U1 U2 W U3 U4 D2 U5 post
          hd1m hwm hwn hd2m hd2n hD1 hD1n hU1c hU2c hWc hU3c hU4c hD2c
          hU5c hne heqL
        refine ih rest' hlen ⟨pre2, D1, U1, U2, W, U3, U4, D2, U5, post,
          ?_, hD1, hD1n, hU1c, hU2c, hWc, hWn, hU3c, hU4c, hD2c, hD2n,
          hU5c, hne⟩
        rw [hO']
        simp
      | none =>
        rw [htm] at hLoose
        dsimp only at hLoose
        obtain ⟨pre, D1, U1, U2, W, U3, U4, D2, U5, post, heq, hD1, hD1n,
          hU1c, hU2c, hWc, hWn, hU3c, hU4c, hD2c, hD2n, hU5c, hne⟩ :=
          hLoose
        cases pre with
        | cons z pre' =>
          simp only [List.cons_append, List.cons.injEq] at heq
          refine ih rest (by simp only [List.length_cons] at hl; omega)
            ⟨pre', D1, U1, U2, W, U3, U4, D2, U5, post, ?_, hD1, hD1n,
            hU1c, hU2c, hWc, hWn, hU3c, hU4c, hD2c, hD2n, hU5c, hne⟩
          exact heq.2
        | nil =>
          obtain ⟨a0, D1t, ha0⟩ : ∃ a0 D1t, D1 = a0 :: D1t := by
            cases D1 with
            | nil => exact absurd rfl hD1n
            | cons a t => exact ⟨a, t, rfl⟩
          rw [ha0] at heq
          simp only [List.nil_append, List.cons_append, List.cons.injEq]
            at heq
          obtain ⟨hca, hO'⟩ := heq
          have hO'eq : scanGo tryCase fuel rest =
              (D1t ++ (U1 ++ (['年', '度'] ++ (U2 ++ (W ++ (U3 ++
              (['字', '第'] ++ (U4 ++ (D2 ++ (U5 ++ ['號'])))))))))) ++
              post := by
            rw [hO']
            simp
          rcases scanGo_prefix_cases tryCase _ fuel rest post hO'eq with
            ⟨c2, fuel2, hrest, hb⟩ | ⟨a1, a2, c2, rep2, r2', fuel2, ha,
              ha2ne, hrest, htm2, he2⟩
          · have hd1all : ∀ x ∈ a0 :: D1t, isDigit x = true := by
              rw [← ha0]
              exact hD1
            have hmatch := tryCase_of_decomp (a0 :: D1t) U1 U2 W U3 U4 D2
              U5 c2 hd1all (by simp) hU1c hU2c hWc hWn hU3c hU4c hD2c
              hD2n hU5c
            have hform : c :: rest = (a0 :: D1t) ++ U1 ++ ['年', '度'] ++
                U2 ++ W ++ U3 ++ ['字', '第'] ++ U4 ++ D2 ++ U5 ++
                '號' :: c2 := by
              rw [hca, hrest]
              simp
            rw [hform, hmatch] at htm
            exact Option.noConfusion htm
          · obtain ⟨d1', u1', u2', w', u3', u4', d2', u5', hl2, hrep2,
              hd1'm, hd1'n, hu1'm, hu2'm, hw'm, hw'n, hu3'm, hu4'm, hd2'm,
              hd2'n, hu5'm⟩ := tryCase_spec c2 rep2 r2' htm2
            have he2' : a2 ++ post = d1' ++ ('年' :: '度' :: (w' ++
                ('字' :: '第' :: (d2' ++ '號' ::
                scanGo tryCase fuel2 r2')))) := by
              rw [he2, hrep2]
              simp
            have hD1t : ∀ x ∈ D1t, isDigit x = true := by
              intro x hx
              exact hD1 x (by rw [ha0]; exact List.mem_cons_of_mem a0 hx)
            exact casePattern_vs_caseRep D1t U1 U2 W U3 U4 D2 U5 hD1t
              hU1c hU2c hWc hU3c hU4c hD2c hU5c hne d1' w' d2'
              (scanGo tryCase fuel2 r2') post hd1'm hd1'n hw'm hw'n hd2'm
              hd2'n a1 a2 ha2ne ha he2'

/-- Loose article occurrences lift back through the case-number stage. -/
theorem looseArt_lift_caseScan :
    ∀ (fuel : Nat) (l : List Char), l.length ≤ fuel →
      LooseArt (scanGo tryCase fuel l) → LooseArt l := by
  intro fuel
  induction fuel with
  | zero =>
    intro l hl hLoose
    have hl0 : l = [] := List.length_eq_zero.mp (Nat.le_zero.mp hl)
    rw [hl0] at hLoose ⊢
    exact hLoose
  | succ fuel ih =>
    intro l hl hLoose
    cases l with
    | nil => exact hLoose
    | cons c rest =>
      simp only [scanGo] at hLoose
      cases htm : tryCase (c :: rest) with
      | some pr =>
        obtain ⟨rep, rest'⟩ := pr
        rw [htm] at hLoose
        dsimp only at hLoose
        have hlen : rest'.length ≤ fuel := by
          have hcon := tryCase_consumes (c :: rest) rep rest' htm
          simp only [List.length_cons] at hcon hl
          omega
        obtain ⟨d1, u1c, u2c, w, u3c, u4c, d2, u5c, hr, hrep, hd1m, hd1n,
          hu1cm, hu2cm, hwm, hwn, hu3cm, hu4cm, hd2m, hd2n, hu5cm⟩ :=
          tryCase_spec (c :: rest) rep rest' htm
        obtain ⟨pre, u1, ds, u2, post, heq, hu1m, hdsm, hdsne, hu2m, hne⟩ :=
          hLoose
        have heqL : d1 ++ (['年', '度'] ++ (w ++ (['字', '第'] ++ (d2 ++
            (['號'] ++ scanGo tryCase fuel rest'))))) =
            pre ++ ('第' :: (u1 ++ ds ++ u2 ++ '條' :: post)) := by
          rw [← heq, hrep]
          simp
        rcases suffix_of_append d1 _ pre _ heqL with
          ⟨m1, p1, hm1split, hm1ne, hm1⟩ | ⟨q1, hq1, hr1⟩
        · exfalso
          obtain ⟨y, mt, hy⟩ : ∃ y mt, m1 = y :: mt := by
            cases m1 with
            | nil => exact absurd rfl hm1ne
            | cons a t => exact ⟨a, t, rfl⟩
          have hyd : isDigit y = true := by
            refine hd1m y ?_
            rw [hm1split, hy]
            exact List.mem_append_right p1 (by simp)
          rw [hy] at hm1
          simp only [List.cons_append, List.cons.injEq] at hm1
          rw [← hm1.1] at hyd
          exact absurd hyd (by decide)
        · rcases suffix_of_append ['年', '度'] _ q1 _ hr1 with
            ⟨m2, p2, hm2split, hm2ne, hm2⟩ | ⟨q2, hq2, hr2⟩
          · exfalso
            rcases pair_suffix '年' '度' p2 m2 hm2split hm2ne with h2 | h2
            · rw [h2] at hm2
              simp only [List.cons_append, List.cons.injEq] at hm2
              exact absurd hm2.1.symm (by decide)
            · rw [h2] at hm2
              simp only [List.cons_append, List.cons.injEq] at hm2
              exact absurd hm2.1.symm (by decide)
          · rcases suffix_of_append w _ q2 _ hr2 with
              ⟨m3, p3, hm3split, hm3ne, hm3⟩ | ⟨q3, hq3, hr3⟩
            · exfalso
              obtain ⟨y, mt, hy⟩ : ∃ y mt, m3 = y :: mt := by
                cases m3 with
                | nil => exact absurd rfl hm3ne
                | cons a t => exact ⟨a, t, rfl⟩
              have hya : isAsciiWord y = true := by
                refine hwm y ?_
                rw [hm3split, hy]
                exact List.mem_append_right p3 (by simp)
              rw [hy] at hm3
              simp only [List.cons_append, List.cons.injEq] at hm3
              rw [← hm3.1] at hya
              exact absurd hya (by decide)
            · rcases suffix_of_append ['字', '第'] _ q3 _ hr3 with
                ⟨m4, p4, hm4split, hm4ne, hm4⟩ | ⟨q4, hq4, hr4⟩
              · rcases pair_suffix '字' '第' p4 m4 hm4split hm4ne with
                  h4 | h4
                · exfalso
                  rw [h4] at hm4
                  simp only [List.cons_append, List.cons.injEq] at hm4
                  exact absurd hm4.1.symm (by decide)
                · exfalso
                  rw [h4] at hm4
                  simp only [List.cons_append, List.cons.injEq] at hm4
                  -- 第 :: pattern = 第 :: (d2 ++ 號 :: O')
                  obtain ⟨e0, d2t, he0⟩ : ∃ e0 d2t, d2 = e0 :: d2t := by
                    cases d2 with
                    | nil => exact absurd rfl hd2n
                    | cons a t => exact ⟨a, t, rfl⟩
                  have E : u1 ++ ds ++ u2 ++ '條' :: post =
                      d2 ++ '號' :: (scanGo tryCase fuel rest') := by
                    have := hm4.2
                    simpa using this
                  have hu1nil : u1 = [] := by
                    cases hu1c2 : u1 with
                    | nil => rfl
                    | cons y u1t =>
                      rw [hu1c2, he0] at E
                      simp only [List.cons_append, List.cons.injEq] at E
                      have hyw := hu1m y (by rw [hu1c2]; simp)
                      rw [E.1] at hyw
                      rw [digit_not_ws e0 (hd2m e0 (by rw [he0]; simp))]
                        at hyw
                      exact Bool.noConfusion hyw
                  subst hu1nil
                  rw [List.nil_append] at E
                  have h5 := congrArg (List.dropWhile isDigit) E
                  simp only at h5
                  rw [dropWhile_append_all isDigit d2 _ hd2m] at h5
                  rw [List.dropWhile_cons_of_neg (by decide)] at h5
                  have hdrop : List.dropWhile isDigit
                      (ds ++ u2 ++ '條' :: post) = u2 ++ '條' :: post := by
                    rw [show ds ++ u2 ++ '條' :: post =
                      ds ++ (u2 ++ '條' :: post) by simp]
                    rw [dropWhile_append_all isDigit ds _ hdsm]
                    refine dropWhile_id_of_head isDigit _ ?_
                    intro x hx
                    cases hu2c2 : u2 with
                    | nil =>
                      rw [hu2c2] at hx
                      simp only [List.nil_append, List.head?,
                        Option.some.injEq] at hx
                      rw [← hx]; decide
                    | cons y u2t =>
                      rw [hu2c2] at hx
                      simp only [List.cons_append, List.head?,
                        Option.some.injEq] at hx
                      rw [← hx]
                      exact ws_not_digit y (hu2m y (by rw [hu2c2]; simp))
                  rw [hdrop] at h5
                  have hu2nil : u2 = [] := by
                    cases hu2c2 : u2 with
                    | nil => rfl
                    | cons y u2t =>
                      rw [hu2c2] at h5
                      simp only [List.cons_append, List.cons.injEq] at h5
                      have hyw := hu2m y (by rw [hu2c2]; simp)
                      rw [h5.1] at hyw
                      exact absurd hyw (by decide)
                  subst hu2nil
                  rw [List.nil_append] at h5
                  simp only [List.cons.injEq] at h5
                  exact absurd h5.1 (by decide)
              · rcases suffix_of_append d2 _ q4 _ hr4 with
                  ⟨m5, p5, hm5split, hm5ne, hm5⟩ | ⟨q5, hq5, hr5⟩
                · exfalso
                  obtain ⟨y, mt, hy⟩ : ∃ y mt, m5 = y :: mt := by
                    cases m5 with
                    | nil => exact absurd rfl hm5ne
                    | cons a t => exact ⟨a, t, rfl⟩
                  have hyd : isDigit y = true := by
                    refine hd2m y ?_
                    rw [hm5split, hy]
                    exact List.mem_append_right p5 (by simp)
                  rw [hy] at hm5
                  simp only [List.cons_append, List.cons.injEq] at hm5
                  rw [← hm5.1] at hyd
                  exact absurd hyd (by decide)
                · rcases suffix_of_append ['號'] _ q5 _ hr5 with
                    ⟨m6, p6, hm6split, hm6ne, hm6⟩ | ⟨q6, hq6, hr6⟩
                  · exfalso
                    have h6 := single_suffix '號' p6 m6 hm6split hm6ne
                    rw [h6] at hm6
                    simp only [List.cons_append, List.cons.injEq] at hm6
                    exact absurd hm6.1.symm (by decide)
                  · obtain ⟨span, hspan, _, _, _, _⟩ :=
                      tryCase_pack (c :: rest) rep rest' htm
                    obtain ⟨p2, u1', ds', u2', post2, hrs, f1, f2, f3, f4,
                      f5⟩ := ih rest' hlen ⟨q6, u1, ds, u2, post, hr6,
                        hu1m, hdsm, hdsne, hu2m, hne⟩
                    refine ⟨span ++ p2, u1', ds', u2', post2, ?_, f1, f2,
                      f3, f4, f5⟩
                    rw [hspan, hrs]
                    simp
      | none =>
        rw [htm] at hLoose
        dsimp only at hLoose
        obtain ⟨pre, u1, ds, u2, post, heq, hu1m, hdsm, hdsne, hu2m, hne⟩ :=
          hLoose
        cases pre with
        | cons z pre' =>
          simp only [List.cons_append, List.cons.injEq] at heq
          obtain ⟨p2, u1', ds', u2', post2, hrs, f1, f2, f3, f4, f5⟩ :=
            ih rest (by simp only [List.length_cons] at hl; omega)
              ⟨pre', u1, ds, u2, post, heq.2, hu1m, hdsm, hdsne, hu2m, hne⟩
          refine ⟨z :: p2, u1', ds', u2', post2, ?_, f1, f2, f3, f4, f5⟩
          rw [heq.1, hrs]
          rfl
        | nil =>
          simp only [List.nil_append, List.cons.injEq] at heq
          obtain ⟨hca, hO'⟩ := heq
          have hO'eq : scanGo tryCase fuel rest =
              (u1 ++ (ds ++ (u2 ++ ['條']))) ++ post := by
            rw [hO']
            simp
          rcases scanGo_prefix_cases tryCase _ fuel rest post hO'eq with
            ⟨c2, fuel2, hrest, hb⟩ | ⟨a1, a2, c2, rep2, r2', fuel2, ha,
              ha2ne, hrest, htm2, he2⟩
          · refine ⟨[], u1, ds, u2, c2, ?_, hu1m, hdsm, hdsne, hu2m, hne⟩
            rw [hca, hrest]
            simp
          · exfalso
            obtain ⟨d1', u1'c, u2'c, w', u3'c, u4'c, d2', u5'c, hl2, hrep2,
              hd1'm, hd1'n, hu1'cm, hu2'cm, hw'm, hw'n, hu3'cm, hu4'cm,
              hd2'm, hd2'n, hu5'cm⟩ := tryCase_spec c2 rep2 r2' htm2
            obtain ⟨e0, d1t', he0⟩ : ∃ e0 d1t', d1' = e0 :: d1t' := by
              cases d1' with
              | nil => exact absurd rfl hd1'n
              | cons a t => exact ⟨a, t, rfl⟩
            obtain ⟨ah, a2t, ha2eq⟩ : ∃ ah a2t, a2 = ah :: a2t := by
              cases a2 with
              | nil => exact absurd rfl ha2ne
              | cons a t => exact ⟨a, t, rfl⟩
            have he2' : a2 ++ post = d1' ++ ('年' :: '度' :: (w' ++
                ('字' :: '第' :: (d2' ++ '號' ::
                scanGo tryCase fuel2 r2')))) := by
              rw [he2, hrep2]
              simp
            have hahd : isDigit ah = true := by
              rw [ha2eq, he0] at he2'
              simp only [List.cons_append, List.cons.injEq] at he2'
              rw [he2'.1]
              exact hd1'm e0 (by rw [he0]; simp)
            rcases suffix_of_append u1 _ a1 _ ha with
              ⟨m1, p1, hm1split, hm1ne, hm1⟩ | ⟨q1, hq1, hr1⟩
            · obtain ⟨y, mt, hy⟩ : ∃ y mt, m1 = y :: mt := by
                cases m1 with
                | nil => exact absurd rfl hm1ne
                | cons a t => exact ⟨a, t, rfl⟩
              have hyw : isWs y = true := by
                refine hu1m y ?_
                rw [hm1split, hy]
                exact List.mem_append_right p1 (by simp)
              have hya : y = ah := by
                rw [ha2eq, hy] at hm1
                simp only [List.cons_append, List.cons.injEq] at hm1
                exact hm1.1.symm
              rw [hya] at hyw
              rw [ws_not_digit ah hyw] at hahd
              exact Bool.noConfusion hahd
            · rcases suffix_of_append ds _ q1 _ hr1 with
                ⟨m2, p2, hm2split, hm2ne, hm2⟩ | ⟨q2, hq2, hr2⟩
              · have hm2d : ∀ x ∈ m2, isDigit x = true := by
                  intro x hx
                  refine hdsm x ?_
                  rw [hm2split]
                  exact List.mem_append_right p2 hx
                refine align_stop '條' '年' (by decide) (by decide)
                  (by decide) m2 u2 d1' [] post
                  ('度' :: (w' ++ ('字' :: '第' :: (d2' ++ '號' ::
                    scanGo tryCase fuel2 r2'))))
                  hm2d hu2m hd1'm (by intro x hx; simp at hx)
                  (by decide) (by decide) ?_
                have heq3 := he2'
                rw [hm2] at heq3
                simpa using heq3
              · rcases suffix_of_append u2 _ q2 _ hr2 with
                  ⟨m3, p3, hm3split, hm3ne, hm3⟩ | ⟨q3, hq3, hr3⟩
                · obtain ⟨y, mt, hy⟩ : ∃ y mt, m3 = y :: mt := by
                    cases m3 with
                    | nil => exact absurd rfl hm3ne
                    | cons a t => exact ⟨a, t, rfl⟩
                  have hyw : isWs y = true := by
                    refine hu2m y ?_
                    rw [hm3split, hy]
                    exact List.mem_append_right p3 (by simp)
                  have hya : y = ah := by
                    rw [ha2eq, hy] at hm3
                    simp only [List.cons_append, List.cons.injEq] at hm3
                    exact hm3.1.symm
                  rw [hya] at hyw
                  rw [ws_not_digit ah hyw] at hahd
                  exact Bool.noConfusion hahd
                · have h4 := single_suffix '條' q3 a2 hr3 ha2ne
                  rw [h4] at ha2eq
                  simp only [List.cons.injEq] at ha2eq
                  rw [← ha2eq.1] at hahd
                  exact absurd hahd (by decide)

/-- Trimming preserves the full pair constraints. -/
theorem trim_chain (x : List Char) (hch : List.Chain' QFull x) :
    List.Chain' QFull (jsTrim x) := by
  obtain ⟨ta, tb, hdec, _, _⟩ := jsTrim_decomp x
  refine chain'_middle ta (jsTrim x) tb ?_
  rw [← hdec]
  exact hch

/-- The pipeline's output satisfies the full pair constraints. -/
theorem cleanSteps2to7_chain (l : List Char) :
    List.Chain' QFull (cleanSteps2to7 l) := by
  have h1ws := collapseWs_wsAllSpace l
  have h1adj := collapseWs_noAdj l
  have h1nl := collapse_head_not_nl l
  have h2ch := break_stage (collapseWs l) h1ws h1adj
  have h2nl : ∀ c, (breakSentences (collapseWs l)).head? = some c →
      c ≠ '\n' := by
    intro c hc
    rw [break_head] at hc
    exact h1nl c hc
  have h3ch := artStage_chain _ h2ch
  have h3nl : ∀ c,
      (fixArticleNumbers (breakSentences (collapseWs l))).head? = some c →
      c ≠ '\n' := by
    intro c hc
    rw [artStage_head] at hc
    exact h2nl c hc
  have h4ch := caseStage_chain _ h3ch
  have h4nl : ∀ c, (fixCaseNumbers (fixArticleNumbers (breakSentences
      (collapseWs l)))).head? = some c → c ≠ '\n' := by
    intro c hc
    rw [caseStage_head] at hc
    exact h3nl c hc
  have h5ch := comma_stage _ h4ch h4nl
  have h5nl : ∀ c, (fixCommaSpacing (fixCaseNumbers (fixArticleNumbers
      (breakSentences (collapseWs l))))).head? = some c → c ≠ '\n' := by
    intro c hc
    rw [comma_head] at hc
    exact h4nl c hc
  have h6ch := period_stage _ h5ch h5nl
  exact trim_chain _ h6ch

/-- The pipeline's output is article-clean. -/
theorem cleanSteps2to7_artClean (l : List Char) :
    artClean (cleanSteps2to7 l) = true := by
  apply artClean_of_notLoose
  intro hLoose
  have h6 : LooseArt (fixPeriodSpacing (fixCommaSpacing (fixCaseNumbers
      (fixArticleNumbers (breakSentences (collapseWs l)))))) :=
    looseArt_lift_trim _ hLoose
  have h5 : LooseArt (fixCommaSpacing (fixCaseNumbers (fixArticleNumbers
      (breakSentences (collapseWs l))))) := by
    refine looseArt_lift_wsRun (fun c => c = '。') ['\n'] (Or.inr rfl)
      (by decide) (by decide) ?_ ?_ _ h6
    · intro c hc
      refine decide_eq_false ?_
      intro he
      rw [he] at hc
      exact absurd hc (by decide)
    · intro c hc
      refine decide_eq_false ?_
      intro he
      rw [he] at hc
      exact absurd hc (by decide)
  have h4 : LooseArt (fixCaseNumbers (fixArticleNumbers (breakSentences
      (collapseWs l)))) := by
    refine looseArt_lift_wsRun (fun c => c = '，') [] (Or.inl rfl)
      (by decide) (by decide) ?_ ?_ _ h5
    · intro c hc
      refine decide_eq_false ?_
      intro he
      rw [he] at hc
      exact absurd hc (by decide)
    · intro c hc
      refine decide_eq_false ?_
      intro he
      rw [he] at hc
      exact absurd hc (by decide)
  have h3 : LooseArt (fixArticleNumbers (breakSentences (collapseWs l))) :=
    looseArt_lift_caseScan _ _ (Nat.le_refl _) h4
  exact art_scan_noLoose _ _ (Nat.le_refl _) h3

/-- The pipeline's output is case-number-clean. -/
theorem cleanSteps2to7_caseClean (l : List Char) :
    caseClean (cleanSteps2to7 l) = true := by
  apply caseClean_of_notLoose
  intro hLoose
  have h6 : LooseCase (fixPeriodSpacing (fixCommaSpacing (fixCaseNumbers
      (fixArticleNumbers (breakSentences (collapseWs l)))))) :=
    looseCase_lift_trim _ hLoose
  have h5 : LooseCase (fixCommaSpacing (fixCaseNumbers (fixArticleNumbers
      (breakSentences (collapseWs l))))) := by
    refine looseCase_lift_wsRun (fun c => c = '。') ['\n'] (Or.inr rfl)
      ⟨by decide, by decide, by decide, by decide, by decide⟩
      ?_ ?_ ?_ _ h6
    · intro c hc
      refine decide_eq_false ?_
      intro he
      rw [he] at hc
      exact absurd hc (by decide)
    · intro c hc
      refine decide_eq_false ?_
      intro he
      rw [he] at hc
      exact absurd hc (by decide)
    · intro c hc
      refine decide_eq_false ?_
      intro he
      rw [he] at hc
      exact absurd hc (by decide)
  have h4 : LooseCase (fixCaseNumbers (fixArticleNumbers (breakSentences
      (collapseWs l)))) := by
    refine looseCase_lift_wsRun (fun c => c = '，') [] (Or.inl rfl)
      ⟨by decide, by decide, by decide, by decide, by decide⟩
      ?_ ?_ ?_ _ h5
    · intro c hc
      refine decide_eq_false ?_
      intro he
      rw [he] at hc
      exact absurd hc (by decide)
    · intro c hc
      refine decide_eq_false ?_
      intro he
      rw [he] at hc
      exact absurd hc (by decide)
    · intro c hc
      refine decide_eq_false ?_
      intro he
      rw [he] at hc
      exact absurd hc (by decide)
  exact case_scan_noLoose _ _ (Nat.le_refl _) h4

/-- **C5.** Text normalization is idempotent: applying the normalization
pipeline of steps 2–7 (whitespace collapse, sentence-boundary line breaks,
citation-token and case-number spacing fixes, ideographic-comma spacing
fix, trim) to its own output yields the same string as applying it once. -/
theorem c5_normalization_steps2to7_idempotent (l : List Char) :
    cleanSteps2to7 (cleanSteps2to7 l) = cleanSteps2to7 l := by
  obtain ⟨hAdj, hWsF, hNl, hNoSp, hNoC, hHead, hLast⟩ :=
    cleanSteps2to7_normal l
  have hChain := cleanSteps2to7_chain l
  have hArt := cleanSteps2to7_artClean l
  have hCase := cleanSteps2to7_caseClean l
  have e1 : collapseWs (cleanSteps2to7 l) = relaxWs (cleanSteps2to7 l) :=
    collapseWs_eq_relax _ hAdj
  have e2 : breakSentences (relaxWs (cleanSteps2to7 l)) =
      cleanSteps2to7 l := by
    refine break_relax _ false hWsF hChain (fun hx => Bool.noConfusion hx)
      ?_
    intro _ c hc he
    have hnw := hHead c hc
    rw [he] at hnw
    exact absurd hnw (by decide)
  have e3 : fixArticleNumbers (cleanSteps2to7 l) = cleanSteps2to7 l :=
    fixArticle_id _ hArt
  have e4 : fixCaseNumbers (cleanSteps2to7 l) = cleanSteps2to7 l :=
    fixCase_id _ hCase
  have e5 : fixCommaSpacing (cleanSteps2to7 l) = cleanSteps2to7 l :=
    comma_id _ false hNoC (fun hx => Bool.noConfusion hx)
  have e6 : fixPeriodSpacing (cleanSteps2to7 l) = cleanSteps2to7 l :=
    period_id _ false hWsF hChain (fun hx => Bool.noConfusion hx)
  have e7 : jsTrim (cleanSteps2to7 l) = cleanSteps2to7 l :=
    jsTrim_id _ hHead hLast
  show jsTrim (fixPeriodSpacing (fixCommaSpacing (fixCaseNumbers
    (fixArticleNumbers (breakSentences (collapseWs (cleanSteps2to7 l))))))) =
    cleanSteps2to7 l
  rw [e1, e2, e3, e4, e5, e6, e7]

end LegalMind
